import Mathlib

/-!
Verification development for the algorithmic kernels of the course repository

* `Ftime`: the convergence timer of `ftime.c`
  (`init_values`, `add_sample`, `has_converged`, `ftime`).
* `Mandelbrot`: the adaptive patch solver of `Mandelbrot.tasks.c`
  (`mandelbrot_point`, `compute_patch`, the tiling loop of `main`).
* `Mountain`: the strided read kernel `test` of `mountain.c`.
* `Override`: the name copy `set_user_name` of `override.c`.
* `PrefixSum`: `scan` and `scan_efficient` of `prefix_sum.serial.c`.

Modelling conventions.

* C `double` values are modelled by exact rationals `ℚ`.  The timer only
  compares, subtracts and (in `has_converged`) multiplies them.
* C `int` values are modelled by unbounded integers.  Counters that the
  program keeps at least 1 (`max_count`, `nsamples`) are naturals, so that
  `current_count - 1` and `max_count - 1` are the C values.
* The global array `values` is a `List ℚ` of length `max_count`, threaded
  explicitly through the functions that use it.
* What the timer measures is an input.  In `trial` and `ftime_loop`,
  `timing n` is the per-call timing of trial `n` after the re-measurement
  loop and the division by `rep`.  In `remeasure_loop` and `ftime_loop_run`
  the inputs are the bracket times themselves, and the re-measurement loop,
  which ends only when the timer reports a bracket that fails its test,
  carries fuel.
* The point kernel is a parameter of the patch solver (a binder named
  `mandelbrot_point`); the kernel of the source is modelled in exact
  arithmetic as `Mandelbrot.mandelbrot_point`.
* The four OpenMP tasks of the recursive step, and the tasks of the tiling
  loop of `main`, are executed in program order; `run_children` executes the
  four in a given order.
* Ghost logs (samples passed to `add_sample`; stores, kernel calls and
  recursive calls of `compute_patch`) record what the code does without
  influencing it.
-/

namespace Ftime

/-! ## Definitions: `ftime.c` -/

/-- Model of `init_values` (ftime.c:15-21): `calloc(max_count, sizeof(double))`,
that is `max_count` slots all holding `0.0`. -/
def init_values (max_count : Nat) : List ℚ :=
  List.replicate max_count 0

/-- The insertion-sort loop of `add_sample` (ftime.c:40-47), started at `pos`:
`while (pos > 1 && values[pos-1] > values[pos]) { swap; pos--; }`.
The recursion argument is `pos`. -/
def insertion_loop (values : List ℚ) : Nat → List ℚ
  | 0 => values
  | pos + 1 =>
    if pos + 1 > 1 ∧ values.getD pos 0 > values.getD (pos + 1) 0 then
      let temp := values.getD pos 0
      let values1 := values.set pos (values.getD (pos + 1) 0)
      let values2 := values1.set (pos + 1) temp
      insertion_loop values2 pos
    else
      values

/-- Model of `add_sample` (ftime.c:27-50).  `current_count` is the 1-based
number of the sample (`nsamples` in `ftime`), so `current_count - 1` and
`max_count - 1` do not underflow for the calls the program makes. -/
def add_sample (values : List ℚ) (value : ℚ) (current_count max_count : Nat) :
    List ℚ :=
  if current_count < max_count then
    let pos := current_count - 1
    insertion_loop (values.set pos value) pos
  else if value < values.getD (max_count - 1) 0 then
    let pos := max_count - 1
    insertion_loop (values.set pos value) pos
  else
    insertion_loop values 0

/-- Model of `has_converged` (ftime.c:62-65):
`epsilon*values[0] >= (values[max_count-1] - values[0])`. -/
def has_converged (values : List ℚ) (max_count : Nat) (epsilon : ℚ) : Bool :=
  decide (epsilon * values.getD 0 0 ≥ values.getD (max_count - 1) 0 - values.getD 0 0)

/-- Overhead correction of one trial (ftime.c:135-140): the per-call timing
has the overhead subtracted when `correct_overhead` is set and the timing
exceeds the overhead. -/
def correct_timing (correct_overhead : Bool) (overhead timing : ℚ) : ℚ :=
  if correct_overhead = true ∧ timing > overhead then timing - overhead else timing

/-- State of the sampling loop of `ftime`: the array `values`, the counter
`nsamples`, the flag `stop`, and (ghost) the list of samples passed to
`add_sample` so far, in call order. -/
structure Session where
  values : List ℚ
  nsamples : Nat
  stop : Bool
  samples : List ℚ

/-- One pass through the body of the `do { ... } while` of `ftime`
(ftime.c:109-145).  `timing n` is the per-call timing measured in trial `n`
(the value of `timing` after `timing /= rep`). -/
def trial (max_count : Nat) (epsilon : ℚ) (correct_overhead : Bool) (overhead : ℚ)
    (timing : Nat → ℚ) (s : Session) : Session :=
  let nsamples := s.nsamples + 1
  let t := correct_timing correct_overhead overhead (timing nsamples)
  let values := add_sample s.values t nsamples max_count
  let stop := if nsamples ≥ max_count then has_converged values max_count epsilon else s.stop
  { values := values, nsamples := nsamples, stop := stop, samples := s.samples ++ [t] }

/-- The `do { ... } while ((nsamples < max_samples) && !stop)` loop of `ftime`
(ftime.c:107-147): the body runs, then the condition is tested. -/
def ftime_loop (max_count max_samples : Nat) (epsilon : ℚ) (correct_overhead : Bool)
    (overhead : ℚ) (timing : Nat → ℚ) (s : Session) : Session :=
  let s1 := trial max_count epsilon correct_overhead overhead timing s
  if s1.nsamples < max_samples ∧ s1.stop = false then
    ftime_loop max_count max_samples epsilon correct_overhead overhead timing s1
  else
    s1
termination_by max_samples - s.nsamples
decreasing_by
  rename_i h
  have h1 : s1.nsamples = s.nsamples + 1 := rfl
  have h2 : (trial max_count epsilon correct_overhead overhead timing s).nsamples
      = s.nsamples + 1 := rfl
  omega

/-- The session `ftime` runs (ftime.c:100-147): `init_values`, `nsamples = 0`,
`stop = 0`, then the sampling loop. -/
def ftime_session (max_count max_samples : Nat) (epsilon : ℚ) (correct_overhead : Bool)
    (overhead : ℚ) (timing : Nat → ℚ) : Session :=
  ftime_loop max_count max_samples epsilon correct_overhead overhead timing
    { values := init_values max_count, nsamples := 0, stop := false, samples := [] }

/-- Model of `ftime` (ftime.c:88-160): the value returned is `values[0]`. -/
def ftime (max_count max_samples : Nat) (epsilon : ℚ) (correct_overhead : Bool)
    (overhead : ℚ) (timing : Nat → ℚ) : ℚ :=
  (ftime_session max_count max_samples epsilon correct_overhead overhead timing).values.getD 0 0

/-- The test `_overhead_ / timing > 0.05` of the re-measurement loop
(ftime.c:122).  For `timing = 0` the IEEE quotient is `+inf` when the overhead
is positive (the test holds) and NaN or `-inf` otherwise (it fails). -/
def remeasure_test (overhead timing : ℚ) : Bool :=
  if timing = 0 then decide (0 < overhead) else decide (overhead / timing > 1 / 20)

/-- State of the measurement of one trial (ftime.c:114-132): the repeat count
`rep`, the time `timing` of the last bracket, and (ghost) the number of
kernel calls made inside each timed bracket so far, in order.  The warm-up
call before the first bracket is not timed and not listed. -/
structure Measurement where
  rep : Int
  timing : ℚ
  calls : List Int

/-- The state after the first bracket (ftime.c:114-120): `rep = 1`, one timed
kernel call; `bracket j` is the time the timer reports for the bracket number
`j` of the trial. -/
def first_bracket (bracket : Nat → ℚ) : Measurement :=
  { rep := 1, timing := bracket 0, calls := [1] }

/-- The re-measurement loop (ftime.c:122-132): while the test holds, `rep += 2`
and one bracket around `rep` kernel calls is timed.  The loop ends only when
the timer reports a bracket that fails the test, so the model carries fuel
and yields `none` when it runs out. -/
def remeasure_loop (overhead : ℚ) (bracket : Nat → ℚ) : Nat → Measurement → Option Measurement
  | 0, _ => none
  | fuel + 1, s =>
    if remeasure_test overhead s.timing = true then
      remeasure_loop overhead bracket fuel
        { rep := s.rep + 2, timing := bracket s.calls.length, calls := s.calls ++ [s.rep + 2] }
    else
      some s

/-- The per-call timing of a trial (ftime.c:133): `timing /= rep` after the
re-measurement loop.  This is the value `timing n` that `trial` receives. -/
def per_call_timing (overhead : ℚ) (bracket : Nat → ℚ) (fuel : Nat) : Option ℚ :=
  (remeasure_loop overhead bracket fuel (first_bracket bracket)).map
    fun s => s.timing / (s.rep : ℚ)

/-- The sampling loop of `ftime` with the measurement of every trial inside
it (ftime.c:107-147): in the trial number `n` the brackets take the times
`bracket n 0`, `bracket n 1`, ...; the re-measurement loop of each trial runs
on `fuel`, and the loop yields `none` when a trial does not end within it.
The rest of the body is `trial` on the per-call timing measured. -/
def ftime_loop_run (max_count max_samples : Nat) (epsilon : ℚ) (correct_overhead : Bool)
    (overhead : ℚ) (bracket : Nat → Nat → ℚ) (fuel : Nat) (s : Session) : Option Session :=
  match per_call_timing overhead (bracket (s.nsamples + 1)) fuel with
  | none => none
  | some t =>
    let s1 := trial max_count epsilon correct_overhead overhead (fun _ => t) s
    if s1.nsamples < max_samples ∧ s1.stop = false then
      ftime_loop_run max_count max_samples epsilon correct_overhead overhead bracket fuel s1
    else
      some s1
termination_by max_samples - s.nsamples
decreasing_by
  rename_i h
  have h1 : s1.nsamples = s.nsamples + 1 := rfl
  have h2 : (trial max_count epsilon correct_overhead overhead (fun _ => t) s).nsamples
      = s.nsamples + 1 := rfl
  omega

/-- The session `ftime` runs, measurements included (ftime.c:100-147). -/
def ftime_session_run (max_count max_samples : Nat) (epsilon : ℚ) (correct_overhead : Bool)
    (overhead : ℚ) (bracket : Nat → Nat → ℚ) (fuel : Nat) : Option Session :=
  ftime_loop_run max_count max_samples epsilon correct_overhead overhead bracket fuel
    { values := init_values max_count, nsamples := 0, stop := false, samples := [] }

/-- Model of `ftime` with its measurements (ftime.c:88-160): the value
`values[0]` it returns, or `none` when some trial does not end within
`fuel` brackets. -/
def ftime_run (max_count max_samples : Nat) (epsilon : ℚ) (correct_overhead : Bool)
    (overhead : ℚ) (bracket : Nat → Nat → ℚ) (fuel : Nat) : Option ℚ :=
  (ftime_session_run max_count max_samples epsilon correct_overhead overhead bracket fuel).map
    fun s => s.values.getD 0 0

/-- The array after `init_values(max_count)` and the first `k` calls
`add_sample(sample 1, 1, max_count)`, ..., `add_sample(sample k, k, max_count)`,
the calls `ftime` makes (ftime.c:100, 142). -/
def feed_samples (max_count : Nat) (sample : Nat → ℚ) : Nat → List ℚ
  | 0 => init_values max_count
  | k + 1 => add_sample (feed_samples max_count sample k) (sample (k + 1)) (k + 1) max_count

/-- An access to the array `values`: whether it is a store, and the index
used. -/
structure Access where
  is_write : Bool
  index : Int

/-- The accesses to `values` made by the insertion-sort loop of `add_sample`
(ftime.c:40-47) started at `pos`, in order: the two reads of the loop test,
and for a swap the reads and stores of the body. -/
def insertion_loop_accesses (values : List ℚ) : Nat → List Access
  | 0 => []
  | pos + 1 =>
    if pos + 1 > 1 then
      [{ is_write := false, index := (pos : Int) },
       { is_write := false, index := (pos : Int) + 1 }]
      ++ (if values.getD pos 0 > values.getD (pos + 1) 0 then
            [{ is_write := false, index := (pos : Int) },
             { is_write := false, index := (pos : Int) + 1 },
             { is_write := true, index := (pos : Int) },
             { is_write := true, index := (pos : Int) + 1 }]
            ++ insertion_loop_accesses
                ((values.set pos (values.getD (pos + 1) 0)).set (pos + 1) (values.getD pos 0))
                pos
          else [])
    else []

/-- The accesses to `values` made by `add_sample` (ftime.c:27-50), in order,
with the counts as C `int`s. -/
def add_sample_accesses (values : List ℚ) (value : ℚ) (current_count max_count : Int) :
    List Access :=
  if current_count < max_count then
    [{ is_write := true, index := current_count - 1 }]
    ++ insertion_loop_accesses (values.set (current_count - 1).toNat value)
        (current_count - 1).toNat
  else
    [{ is_write := false, index := max_count - 1 }]
    ++ (if value < values.getD (max_count - 1).toNat 0 then
          [{ is_write := true, index := max_count - 1 }]
          ++ insertion_loop_accesses (values.set (max_count - 1).toNat value)
              (max_count - 1).toNat
        else [])

/-- The accesses to `values` made by `has_converged` (ftime.c:64). -/
def has_converged_accesses (max_count : Int) : List Access :=
  [{ is_write := false, index := 0 }, { is_write := false, index := max_count - 1 },
   { is_write := false, index := 0 }]

end Ftime

namespace Mandelbrot

/-! ## Definitions: `Mandelbrot.tasks.c` -/

/-- `#define MAX_ITER 1000` (Mandelbrot.tasks.c:41). -/
def MAX_ITER : Int := 1000

/-- `const double X_MIN = -2.0;` (Mandelbrot.tasks.c:47). -/
def X_MIN : ℚ := -2

/-- `const double X_MAX = 1.0;` (Mandelbrot.tasks.c:48). -/
def X_MAX : ℚ := 1

/-- `const double Y_MIN = -1.7;` (Mandelbrot.tasks.c:49). -/
def Y_MIN : ℚ := -17 / 10

/-- `const double Y_MAX = 1.3;` (Mandelbrot.tasks.c:50). -/
def Y_MAX : ℚ := 13 / 10

/-- The abscissa expression `X_MIN + x * (X_MAX - X_MIN) / xsize` that every
call of `mandelbrot_point` in `compute_patch` uses for pixel column `x`. -/
def plane_x (xsize x : Int) : ℚ :=
  X_MIN + (x : ℚ) * (X_MAX - X_MIN) / (xsize : ℚ)

/-- The ordinate expression `Y_MIN + y * (Y_MAX - Y_MIN) / ysize` that every
call of `mandelbrot_point` in `compute_patch` uses for pixel row `y`. -/
def plane_y (ysize y : Int) : ℚ :=
  Y_MIN + (y : ℚ) * (Y_MAX - Y_MIN) / (ysize : ℚ)

/-- Local variables of `mandelbrot_point` (Mandelbrot.tasks.c:59-61). -/
structure PointState where
  zx : ℚ
  zy : ℚ
  zx_sq : ℚ
  zy_sq : ℚ
  iter : Int

/-- Body of the `while` loop of `mandelbrot_point` (Mandelbrot.tasks.c:65-69):
`zy` is updated first from the old `zx`, then `zx` from the old squares. -/
def point_step (cx cy : ℚ) (s : PointState) : PointState :=
  let zy := 2 * s.zx * s.zy + cy
  let zx := s.zx_sq - s.zy_sq + cx
  { zx := zx, zy := zy, zx_sq := zx * zx, zy_sq := zy * zy, iter := s.iter + 1 }

/-- The loop `while (iter < MAX_ITER && zx_sq + zy_sq <= 4.0)` of
`mandelbrot_point` (Mandelbrot.tasks.c:63-70). -/
def point_loop (cx cy : ℚ) (s : PointState) : PointState :=
  if s.iter < MAX_ITER ∧ s.zx_sq + s.zy_sq ≤ 4 then
    point_loop cx cy (point_step cx cy s)
  else
    s
termination_by (MAX_ITER - s.iter).toNat
decreasing_by
  rename_i h
  have h1 : (point_step cx cy s).iter = s.iter + 1 := rfl
  omega

/-- Model of `mandelbrot_point` (Mandelbrot.tasks.c:57-73) in exact
arithmetic: `return (iter == MAX_ITER) ? 0 : iter`. -/
def mandelbrot_point (cx cy : ℚ) : Int :=
  let s := point_loop cx cy { zx := 0, zy := 0, zx_sq := 0, zy_sq := 0, iter := 0 }
  if s.iter = MAX_ITER then 0 else s.iter

/-- Specification side: the orbit `z_0 = 0`, `z_{n+1} = z_n^2 + c` for
`c = (cx, cy)`, as pairs (real part, imaginary part). -/
def orbit (cx cy : ℚ) : Nat → ℚ × ℚ
  | 0 => (0, 0)
  | n + 1 =>
    ((orbit cx cy n).1 * (orbit cx cy n).1 - (orbit cx cy n).2 * (orbit cx cy n).2 + cx,
     2 * (orbit cx cy n).1 * (orbit cx cy n).2 + cy)

/-- Specification side: `|z|^2` for `z = (re, im)`. -/
def norm_sq (z : ℚ × ℚ) : ℚ :=
  z.1 * z.1 + z.2 * z.2

/-- State threaded through `compute_patch`: the memory of `image` by linear
index, and three ghost logs: every store `image[y * xsize + x] = v` as
`(x, y, v)` in program order, every pixel `(x, y)` at which
`mandelbrot_point` was called, and the number of recursive calls made. -/
structure Canvas where
  image : Int → Int
  writes : List (Int × Int × Int)
  evals : List (Int × Int)
  recursive_calls : Nat

/-- The store `image[y * xsize + x] = v`. -/
def store (st : Canvas) (xsize x y v : Int) : Canvas :=
  { st with
    image := Function.update st.image (y * xsize + x) v
    writes := st.writes ++ [(x, y, v)] }

/-- A canvas on which nothing has been done yet: memory `image`, empty logs. -/
def Canvas.fresh (image : Int → Int) : Canvas :=
  { image := image, writes := [], evals := [], recursive_calls := 0 }

/-- The pixels visited by the nested loops
`for (y = y_start; y < y_start + size; y++) for (x = x_start; x < x_start + size; x++)`,
in visiting order. -/
def patch_pixels (x_start y_start size : Int) : List (Int × Int) :=
  (List.range size.toNat).flatMap fun (j : Nat) =>
    (List.range size.toNat).map fun (i : Nat) => (x_start + (i : Int), y_start + (j : Int))

/-- Accumulators of the border pass of `compute_patch`
(Mandelbrot.tasks.c:83-86), with the ghost list of evaluated pixels. -/
structure Border where
  all_in : Bool
  all_out : Bool
  total_border_iter : Int
  border_points : Int
  evals : List (Int × Int)

/-- Body of the inner `for (j = 0; j < 4; ++j)` loop (Mandelbrot.tasks.c:113-119)
for one entry `v` of `border_values`. -/
def border_step (b : Border) (v : Int) : Border :=
  if v ≠ -1 then
    { b with
      all_out := if v = 0 then false else b.all_out
      all_in := if v = 0 then b.all_in else false
      total_border_iter := b.total_border_iter + v
      border_points := b.border_points + 1 }
  else
    b

/-- The pixels at which iteration `i` of the border loop calls
`mandelbrot_point`, in call order (Mandelbrot.tasks.c:93-107): top, bottom,
and for `i > 0 && i < size - 1` also left and right. -/
def iter_evals (x_start y_start size i : Int) : List (Int × Int) :=
  [(x_start + i, y_start), (x_start + i, y_start + size - 1)]
    ++ (if i > 0 ∧ i < size - 1 then
          [(x_start, y_start + i), (x_start + size - 1, y_start + i)]
        else [])

/-- Body of the outer border loop for one `i` (Mandelbrot.tasks.c:91-120). -/
def border_iter (mandelbrot_point : ℚ → ℚ → Int) (x_start y_start xsize ysize size : Int)
    (b : Border) (i : Int) : Border :=
  let p_top := mandelbrot_point (plane_x xsize (x_start + i)) (plane_y ysize y_start)
  let p_bot := mandelbrot_point (plane_x xsize (x_start + i)) (plane_y ysize (y_start + size - 1))
  let p_left := if i > 0 ∧ i < size - 1 then
      mandelbrot_point (plane_x xsize x_start) (plane_y ysize (y_start + i)) else -1
  let p_right := if i > 0 ∧ i < size - 1 then
      mandelbrot_point (plane_x xsize (x_start + size - 1)) (plane_y ysize (y_start + i)) else -1
  let b1 := { b with evals := b.evals ++ iter_evals x_start y_start size i }
  [p_top, p_bot, p_left, p_right].foldl border_step b1

/-- The border pass of `compute_patch` (Mandelbrot.tasks.c:83-121):
`for (int i = 0; i < size; i++)` over `border_iter`, from
`all_in = true, all_out = true, total_border_iter = 0, border_points = 0`. -/
def border_pass (mandelbrot_point : ℚ → ℚ → Int) (x_start y_start xsize ysize size : Int) :
    Border :=
  (List.range size.toNat).foldl
    (fun (b : Border) (i : Nat) =>
      border_iter mandelbrot_point x_start y_start xsize ysize size b (i : Int))
    { all_in := true, all_out := true, total_border_iter := 0, border_points := 0, evals := [] }

/-- The fill loops (Mandelbrot.tasks.c:127-131 and 137-141): every pixel of
the patch receives `v`. -/
def fill_patch (st : Canvas) (x_start y_start xsize size v : Int) : Canvas :=
  (patch_pixels x_start y_start size).foldl (fun s p => store s xsize p.1 p.2 v) st

/-- The direct evaluation loops (Mandelbrot.tasks.c:147-150): every pixel of
the patch receives `mandelbrot_point` at its plane coordinates. -/
def direct_patch (mandelbrot_point : ℚ → ℚ → Int) (st : Canvas)
    (x_start y_start xsize ysize size : Int) : Canvas :=
  (patch_pixels x_start y_start size).foldl
    (fun s p =>
      store { s with evals := s.evals ++ [p] } xsize p.1 p.2
        (mandelbrot_point (plane_x xsize p.1) (plane_y ysize p.2)))
    st

/-- The fill value of the `all_out` branch (Mandelbrot.tasks.c:135-136):
`border_points > 0 ? (int)(total_border_iter / border_points) : 1`, then
`if (avg_iter == 0) avg_iter = 1`.  C division truncates toward zero. -/
def avg_iter (b : Border) : Int :=
  let avg := if b.border_points > 0 then Int.tdiv b.total_border_iter b.border_points else 1
  if avg = 0 then 1 else avg

/-- Ghost bookkeeping of one recursive call. -/
def enter_call (st : Canvas) : Canvas :=
  { st with recursive_calls := st.recursive_calls + 1 }

/-- The four sub-patches `(x, y, side)` of the recursive step
(Mandelbrot.tasks.c:155-163), in call order, with `new_size = size / 2`. -/
def sub_patches (x_start y_start size : Int) : List (Int × Int × Int) :=
  let new_size := Int.tdiv size 2
  [(x_start, y_start, new_size), (x_start + new_size, y_start, new_size),
   (x_start, y_start + new_size, new_size), (x_start + new_size, y_start + new_size, new_size)]

/-- Model of `compute_patch` (Mandelbrot.tasks.c:81-168), the four tasks of
the recursive step executed in program order.  `mandelbrot_point` is the
point kernel, taken as a parameter. -/
def compute_patch (mandelbrot_point : ℚ → ℚ → Int) (st : Canvas)
    (x_start y_start xsize ysize size : Int) : Canvas :=
  let b := border_pass mandelbrot_point x_start y_start xsize ysize size
  let st0 := { st with evals := st.evals ++ b.evals }
  if b.all_in = true then
    fill_patch st0 x_start y_start xsize size 0
  else if b.all_out = true then
    fill_patch st0 x_start y_start xsize size (avg_iter b)
  else if size ≤ 8 then
    direct_patch mandelbrot_point st0 x_start y_start xsize ysize size
  else
    let new_size := Int.tdiv size 2
    let st1 := compute_patch mandelbrot_point (enter_call st0)
      x_start y_start xsize ysize new_size
    let st2 := compute_patch mandelbrot_point (enter_call st1)
      (x_start + new_size) y_start xsize ysize new_size
    let st3 := compute_patch mandelbrot_point (enter_call st2)
      x_start (y_start + new_size) xsize ysize new_size
    compute_patch mandelbrot_point (enter_call st3)
      (x_start + new_size) (y_start + new_size) xsize ysize new_size
termination_by size.toNat
decreasing_by
  all_goals
    rename_i h
    have h2 : (Int.tdiv size 2).toNat < size.toNat := by
      have h3 : Int.tdiv size 2 = size / 2 := Int.tdiv_eq_ediv (by omega) (by decide)
      omega
    exact h2

/-- Replay of a list of logged stores `(x, y, v)` on the memory of `image`:
`image[y * xsize + x] = v` for each entry, in order. -/
def apply_writes (xsize : Int) (W : List (Int × Int × Int)) (image : Int → Int) : Int → Int :=
  W.foldl (fun im w => Function.update im (w.2.1 * xsize + w.1) w.2.2) image

/-- The stores performed by one evaluation of `compute_patch`, read off a run
that starts with empty logs. -/
def patch_writes (mandelbrot_point : ℚ → ℚ → Int) (x_start y_start xsize ysize size : Int) :
    List (Int × Int × Int) :=
  (compute_patch mandelbrot_point (Canvas.fresh (fun _ => 0))
    x_start y_start xsize ysize size).writes

/-- The recursive step of `compute_patch` (Mandelbrot.tasks.c:156-163) with
the sub-patch evaluations `(x, y, side)` executed in the order of the list
`cs`. -/
def run_children (mandelbrot_point : ℚ → ℚ → Int) (st : Canvas) (xsize ysize : Int)
    (cs : List (Int × Int × Int)) : Canvas :=
  cs.foldl (fun s c => compute_patch mandelbrot_point (enter_call s) c.1 c.2.1 xsize ysize c.2.2)
    st

/-- The values taken by the loop variable of `for (v = v0; v < limit; v += step)`
(Mandelbrot.tasks.c:278-279), from the current value `v`.  For `step ≤ 0` the
C loop does not advance; the model covers `step ≥ 1` and yields no
iteration otherwise. -/
def tile_starts (limit step : Int) (v : Int) : List Int :=
  if 0 < step ∧ v < limit then v :: tile_starts limit step (v + step) else []
termination_by (limit - v).toNat
decreasing_by
  rename_i h
  omega

/-- Model of the tiling loop of `main` (Mandelbrot.tasks.c:278-283): one
`compute_patch` task of side `init_patch` at every `(x, y)` of the two nested
loops, executed in program order.  `xsize`, `ysize` stand for `img_size[0]`,
`img_size[1]` (unsigned in the source, compared with the non-negative loop
variables). -/
def main_tiling (mandelbrot_point : ℚ → ℚ → Int) (st : Canvas)
    (xsize ysize init_patch : Int) : Canvas :=
  (tile_starts ysize init_patch 0).foldl
    (fun s y =>
      (tile_starts xsize init_patch 0).foldl
        (fun s2 x => compute_patch mandelbrot_point s2 x y xsize ysize init_patch) s)
    st

/-- Specification side: the pixels of the `w` by `h` rectangle with origin
`(x0, y0)`, row by row. -/
def rect_pixels (x0 y0 w h : Int) : List (Int × Int) :=
  (List.range h.toNat).flatMap fun (j : Nat) =>
    (List.range w.toNat).map fun (i : Nat) => (x0 + (i : Int), y0 + (j : Int))

/-- The value of the point kernel at pixel `p = (x, y)`:
`mandelbrot_point(X_MIN + x * (X_MAX - X_MIN) / xsize, Y_MIN + y * (Y_MAX - Y_MIN) / ysize)`. -/
def pixel_value (mandelbrot_point : ℚ → ℚ → Int) (xsize ysize : Int) (p : Int × Int) : Int :=
  mandelbrot_point (plane_x xsize p.1) (plane_y ysize p.2)

/-- All pixels at which the border pass calls `mandelbrot_point`, in call
order. -/
def border_evals (x_start y_start size : Int) : List (Int × Int) :=
  (List.range size.toNat).flatMap fun (i : Nat) => iter_evals x_start y_start size (i : Int)

/-- Specification side: `p` lies on the border of the patch (top row, bottom
row, left column or right column). -/
def is_border (x_start y_start size : Int) (p : Int × Int) : Bool :=
  decide (p.1 = x_start ∨ p.1 = x_start + size - 1 ∨ p.2 = y_start ∨ p.2 = y_start + size - 1)

/-- Specification side: the distinct border pixels of the patch. -/
def border_pixels (x_start y_start size : Int) : List (Int × Int) :=
  (patch_pixels x_start y_start size).filter (is_border x_start y_start size)

/-- Specification side: floor of the arithmetic mean of the kernel over the
distinct border pixels of the patch. -/
def border_mean (mandelbrot_point : ℚ → ℚ → Int) (x_start y_start xsize ysize size : Int) :
    Int :=
  ((border_pixels x_start y_start size).map (pixel_value mandelbrot_point xsize ysize)).sum
    / ((border_pixels x_start y_start size).length : Int)

/-- A sample point kernel for concrete instances: 0 ("inside") on the line
`cx = X_MIN`, 1 elsewhere. -/
def stripe_kernel (cx _cy : ℚ) : Int :=
  if cx = X_MIN then 0 else 1

end Mandelbrot

namespace Mountain

/-! ## Definitions: `mountain.c` -/

/-- Loop variable and accumulators of `test` (mountain.c:165-167).  The
element type `data_t` is modelled by unbounded integers. -/
structure Accumulators where
  i : Int
  acc0 : Int
  acc1 : Int
  acc2 : Int
  acc3 : Int

/-- The unrolled loop of `test` (mountain.c:170-175):
`for (i = 0; i < limit; i += sx4)`, adding `data[i]`, `data[i+stride]`,
`data[i+sx2]`, `data[i+sx3]` to the four accumulators.  For `stride ≤ 0` the
C loop does not advance; the model covers `stride ≥ 1` and yields no
iteration otherwise. -/
def unrolled_loop (data : Int → Int) (stride limit : Int) (s : Accumulators) : Accumulators :=
  if 0 < stride ∧ s.i < limit then
    unrolled_loop data stride limit
      { i := s.i + stride * 4
        acc0 := s.acc0 + data s.i
        acc1 := s.acc1 + data (s.i + stride)
        acc2 := s.acc2 + data (s.i + stride * 2)
        acc3 := s.acc3 + data (s.i + stride * 3) }
  else
    s
termination_by (limit - s.i).toNat
decreasing_by
  rename_i h
  omega

/-- The loop `for ( ; i < length; i++) acc0 = acc0 + data[i]` of `test`
(mountain.c:178-179), from the current `i` and `acc0`. -/
def finish_loop (data : Int → Int) (length i acc0 : Int) : Int :=
  (List.range (length - i).toNat).foldl (fun acc (k : Nat) => acc + data (i + (k : Int))) acc0

/-- Model of `test(data, elems, stride)` (mountain.c:160-182); `data i` is
the element `data[i]`. -/
def test (data : Int → Int) (elems stride : Int) : Int :=
  let sx4 := stride * 4
  let length := elems
  let limit := length - sx4
  let s := unrolled_loop data stride limit { i := 0, acc0 := 0, acc1 := 0, acc2 := 0, acc3 := 0 }
  let acc0 := finish_loop data length s.i s.acc0
  (acc0 + s.acc1) + (s.acc2 + s.acc3)

/-- The contents `data[i] = i` that `init_data` gives the array
(mountain.c:148-152). -/
def init_data : Int → Int :=
  fun i => i

/-- Specification side: the sum of `data[i]` over the indices
`i = 0, stride, 2*stride, ...` below `elems`, as in the reference loop
`for (ii = 0; ii < elems; ii += stride) sum += data[ii]` (mountain.c:185-197). -/
def strided_sum (data : Int → Int) (elems stride : Int) : Int :=
  (((List.range elems.toNat).filter fun (i : Nat) => (i : Int) % stride = 0).map
    fun (i : Nat) => data (i : Int)).sum

end Mountain

namespace Override

/-! ## Definitions: `override.c` -/

/-- The size of the name buffer (override.c:39). -/
def NAME_BUFFER_SIZE : Nat := 16

/-- The number of users (override.c:40). -/
def NUM_USERS : Nat := 3

/-- The string literals of `names[]` in `main` (override.c:79). -/
def names : List String :=
  [ "Alice", "MontgomeryBurns", "Charles" ]

/-- The bytes of a C string literal: its characters followed by the
terminating NUL. -/
def c_string (s : String) : List Nat :=
  s.toList.map Char.toNat ++ [0]

/-- The stores of `strcpy(dest, src)` as pairs (offset in `dest`, byte): the
bytes of `src` are copied in order from offset `off`, up to and including the
first NUL. -/
def strcpy_writes : List Nat → Nat → List (Nat × Nat)
  | [], _ => []
  | b :: rest, off => (off, b) :: (if b = 0 then [] else strcpy_writes rest (off + 1))

/-- The stores into the buffer `user->name` made by `set_user_name(user, name)`
(override.c:53-62): `malloc(NAME_BUFFER_SIZE)`, taken to succeed, then
`strcpy(user->name, name)`. -/
def set_user_name (name : String) : List (Nat × Nat) :=
  strcpy_writes (c_string name) 0

/-- Whether a list of stores into a buffer of `NAME_BUFFER_SIZE` bytes has
one at an offset outside the buffer. -/
def overflows (writes : List (Nat × Nat)) : Bool :=
  writes.any fun w => decide (NAME_BUFFER_SIZE ≤ w.1)

/-- The stores of the iterations `i = 0, 1, 2` of the initialisation loop of
`main` (override.c:84-93) into the name buffer of user `i`. -/
def main_name_writes : List (List (Nat × Nat)) :=
  (names.take NUM_USERS).map set_user_name

end Override

namespace PrefixSum

/-! ## Definitions: `prefix_sum.serial.c` -/

/-- The read `array[i]`; `none` when `i` is outside the array.  The element
type `DTYPE` is modelled by exact rationals. -/
def read (array : List ℚ) (i : Nat) : Option ℚ :=
  array[i]?

/-- The store `array[i] = v`; `none` when `i` is outside the array. -/
def write (array : List ℚ) (i : Nat) (v : ℚ) : Option (List ℚ) :=
  if i < array.length then some (array.set i v) else none

/-- Body of the loop of `scan` (prefix_sum.serial.c:22-26) on the pair
(`avg`, array). -/
def scan_step (st : ℚ × List ℚ) (ii : Nat) : Option (ℚ × List ℚ) := do
  let a ← read st.2 ii
  let avg := st.1 + a
  let array ← write st.2 ii avg
  some (avg, array)

/-- Model of `scan(N, array)` (prefix_sum.serial.c:17-29): the returned value
and the array it leaves, or `none` on an access outside the array. -/
def scan (N : Nat) (array : List ℚ) : Option (ℚ × List ℚ) := do
  let avg ← read array 0
  ((List.range (N - 1)).map fun (k : Nat) => k + 1).foldlM scan_step (avg, array)

/-- Body of the blocked loop of `scan_efficient` (prefix_sum.serial.c:40-59)
on the pair (`carry`, array). -/
def block_step (st : ℚ × List ℚ) (ii : Nat) : Option (ℚ × List ℚ) := do
  let carry := st.1
  let a0 ← read st.2 ii
  let a1 ← read st.2 (ii + 1)
  let a2 ← read st.2 (ii + 2)
  let a3 ← read st.2 (ii + 3)
  let t1 := a0 + a1
  let t2 := a1 + a2
  let t3 := a2 + a3
  let u2 := a0 + t2
  let u3 := t1 + t3
  let array ← write st.2 ii (a0 + carry)
  let array ← write array (ii + 1) (t1 + carry)
  let array ← write array (ii + 2) (u2 + carry)
  let array ← write array (ii + 3) (u3 + carry)
  some (carry + u3, array)

/-- Body of the remainder loop of `scan_efficient`
(prefix_sum.serial.c:61-63): `carry += array[ii-1]; array[ii] = carry`, the
index `ii - 1` computed in 32-bit unsigned arithmetic. -/
def remainder_step (st : ℚ × List ℚ) (ii : Nat) : Option (ℚ × List ℚ) := do
  let a ← read st.2 ((ii + 4294967295) % 4294967296)
  let carry := st.1 + a
  let array ← write st.2 ii carry
  some (carry, array)

/-- Model of `scan_efficient(N, array)` (prefix_sum.serial.c:32-67): the
returned value and the array it leaves, or `none` on an access outside the
array. -/
def scan_efficient (N : Nat) (array : List ℚ) : Option (ℚ × List ℚ) := do
  let N_4 := (N / 4) * 4
  let st ← ((List.range (N / 4)).map fun (k : Nat) => k * 4).foldlM block_step (0, array)
  ((List.range (N - N_4)).map fun (k : Nat) => N_4 + k).foldlM remainder_step st

/-- The contents `array[ii] = ii` that `main` gives the array
(prefix_sum.serial.c:109-110). -/
def main_array (N : Nat) : List ℚ :=
  (List.range N).map fun (ii : Nat) => (ii : ℚ)

/-- Specification side: the inclusive prefix sums `a[0] + ... + a[i]` of a
list. -/
def prefix_sums : List ℚ → List ℚ
  | [] => []
  | a :: rest => a :: (prefix_sums rest).map fun s => a + s

end PrefixSum

namespace Ftime

/-! ## The sampling loop of `ftime` -/

theorem trial_nsamples (max_count : Nat) (epsilon : ℚ) (correct_overhead : Bool)
    (overhead : ℚ) (timing : Nat → ℚ) (s : Session) :
    (trial max_count epsilon correct_overhead overhead timing s).nsamples = s.nsamples + 1 :=
  rfl

theorem trial_samples_length (max_count : Nat) (epsilon : ℚ) (correct_overhead : Bool)
    (overhead : ℚ) (timing : Nat → ℚ) (s : Session) :
    (trial max_count epsilon correct_overhead overhead timing s).samples.length
      = s.samples.length + 1 := by
  simp [trial]

theorem trial_stop_of_lt (max_count : Nat) (epsilon : ℚ) (correct_overhead : Bool)
    (overhead : ℚ) (timing : Nat → ℚ) (s : Session) (h : s.nsamples + 1 < max_count) :
    (trial max_count epsilon correct_overhead overhead timing s).stop = s.stop := by
  have h1 : ¬ (s.nsamples + 1 ≥ max_count) := by omega
  simp [trial, h1]

/-- The loop runs at least one trial, never passes `max_samples` once a trial
has been run, and logs one sample per trial. -/
theorem ftime_loop_bounds (max_count max_samples : Nat) (epsilon : ℚ)
    (correct_overhead : Bool) (overhead : ℚ) (timing : Nat → ℚ) (s : Session) :
    s.nsamples + 1 ≤ (ftime_loop max_count max_samples epsilon correct_overhead overhead
        timing s).nsamples
    ∧ (ftime_loop max_count max_samples epsilon correct_overhead overhead
        timing s).nsamples ≤ max max_samples (s.nsamples + 1)
    ∧ (ftime_loop max_count max_samples epsilon correct_overhead overhead
        timing s).samples.length + s.nsamples
      = s.samples.length + (ftime_loop max_count max_samples epsilon correct_overhead overhead
        timing s).nsamples := by
  induction s using ftime_loop.induct max_count max_samples epsilon correct_overhead
    overhead timing with
  | case1 x s1 hc ih =>
    unfold s1 at hc ih
    have hn := trial_nsamples max_count epsilon correct_overhead overhead timing x
    have hl := trial_samples_length max_count epsilon correct_overhead overhead timing x
    rw [ftime_loop, if_pos hc]
    refine ⟨by omega, ?_, by omega⟩
    have := ih.2.1
    omega
  | case2 x s1 hc =>
    unfold s1 at hc
    have hn := trial_nsamples max_count epsilon correct_overhead overhead timing x
    have hl := trial_samples_length max_count epsilon correct_overhead overhead timing x
    rw [ftime_loop, if_neg hc]
    refine ⟨by omega, by omega, by omega⟩

/-- While the cap has not been reached and `max_samples ≤ max_count`, the
convergence test cannot end the loop: it stops at exactly `max_samples`. -/
theorem ftime_loop_cap (max_count max_samples : Nat) (epsilon : ℚ)
    (correct_overhead : Bool) (overhead : ℚ) (timing : Nat → ℚ) (s : Session)
    (hle : max_samples ≤ max_count) (hlt : s.nsamples < max_samples) (hstop : s.stop = false) :
    (ftime_loop max_count max_samples epsilon correct_overhead overhead
        timing s).nsamples = max_samples := by
  induction s using ftime_loop.induct max_count max_samples epsilon correct_overhead
    overhead timing with
  | case1 x s1 hc ih =>
    unfold s1 at hc ih
    rw [ftime_loop, if_pos hc]
    exact ih hc.1 hc.2
  | case2 x s1 hc =>
    unfold s1 at hc
    have hn := trial_nsamples max_count epsilon correct_overhead overhead timing x
    rw [ftime_loop, if_neg hc]
    by_cases h1 : (trial max_count epsilon correct_overhead overhead timing x).nsamples
        < max_samples
    · exfalso
      apply hc
      refine ⟨h1, ?_⟩
      have h2 := trial_stop_of_lt max_count epsilon correct_overhead overhead timing x
        (by omega)
      rw [h2, hstop]
    · omega

theorem correct_timing_pos (correct_overhead : Bool) (overhead C : ℚ) (hC : 0 < C) :
    0 < correct_timing correct_overhead overhead C := by
  unfold correct_timing
  split
  · rename_i h
    linarith [h.2]
  · exact hC

/-- With `max_count = 1` a positive first sample is rejected by `add_sample`
(slot 0 keeps its initial `0`) and `has_converged` then holds for every
non-negative `epsilon`. -/
theorem trial_one_stop (epsilon : ℚ) (correct_overhead : Bool) (overhead : ℚ)
    (timing : Nat → ℚ) (hpos : 0 < timing 1) :
    (trial 1 epsilon correct_overhead overhead timing
      { values := init_values 1, nsamples := 0, stop := false, samples := [] }).stop = true := by
  have ht := correct_timing_pos correct_overhead overhead (timing 1) hpos
  have h1 : ¬ (correct_timing correct_overhead overhead (timing 1) < 0) := not_lt.mpr ht.le
  simp [trial, add_sample, init_values, insertion_loop, has_converged, h1]

/-! ## Claims on the timer -/

/-- C1 (evaluation at the failing input): with `max_count = 2`,
`max_samples = 2`, `epsilon = 1`, no overhead correction and the timings
5 then 3, `ftime` passes the samples 5 and 3 to `add_sample` and returns 5,
which is the first sample and not the smallest one. -/
theorem ftime_returns_first_sample_not_min :
    (ftime_session 2 2 1 false 0 (fun n => if n = 1 then 5 else 3)).samples = [5, 3]
    ∧ ftime 2 2 1 false 0 (fun n => if n = 1 then 5 else 3) = 5
    ∧ ¬ (ftime 2 2 1 false 0 (fun n => if n = 1 then 5 else 3) ≤ 3) := by
  have h : ftime_session 2 2 1 false 0 (fun n => if n = 1 then 5 else 3)
      = { values := [5, 0], nsamples := 2, stop := true, samples := [5, 3] } := by
    unfold ftime_session
    rw [ftime_loop]
    simp [trial, add_sample, init_values, correct_timing, insertion_loop, has_converged]
    rw [ftime_loop]
    simp [trial, add_sample, init_values, correct_timing, insertion_loop, has_converged]
    norm_num
  unfold ftime
  rw [h]
  norm_num

/-- C3 (evaluation at the failing inputs): after `init_values(3)` the samples
5, 3 leave `values = [5, 3, 0]`, whose first two slots are not ascending; after
`init_values(2)` the samples 5, 3 leave `values = [5, 0]`, so the second
sample was not admitted although the set was not yet holding two samples. -/
theorem add_sample_not_sorted_smallest :
    add_sample (add_sample (init_values 3) 5 1 3) 3 2 3 = [5, 3, 0]
    ∧ add_sample (add_sample (init_values 2) 5 1 2) 3 2 2 = [5, 0] := by
  constructor <;> decide

/-- C8: for every `max_samples ≥ 1`, every `max_count`, `epsilon`, overhead
setting and sequence of timings, the sampling loop of `ftime` runs at least
one and at most `max_samples` trials, and `add_sample` is called once per
trial, hence at most `max_samples` times. -/
theorem ftime_trials_le_max_samples (max_count max_samples : Nat) (epsilon : ℚ)
    (correct_overhead : Bool) (overhead : ℚ) (timing : Nat → ℚ)
    (hs : 1 ≤ max_samples) :
    (ftime_session max_count max_samples epsilon correct_overhead overhead timing).nsamples
        ≤ max_samples
    ∧ (ftime_session max_count max_samples epsilon correct_overhead overhead
        timing).samples.length
      = (ftime_session max_count max_samples epsilon correct_overhead overhead timing).nsamples
    ∧ 1 ≤ (ftime_session max_count max_samples epsilon correct_overhead overhead
        timing).nsamples := by
  have h := ftime_loop_bounds max_count max_samples epsilon correct_overhead overhead timing
    { values := init_values max_count, nsamples := 0, stop := false, samples := [] }
  unfold ftime_session
  simp only [List.length_nil, Nat.add_zero, Nat.zero_add] at h
  refine ⟨?_, h.2.2, h.1⟩
  have := h.2.1
  omega

theorem ftime_trials_le_max_samples_witness :
    1 ≤ 4
    ∧ ((ftime_session 3 4 (1 / 10) true 1 (fun n => (n : ℚ) + 2)).nsamples ≤ 4
      ∧ (ftime_session 3 4 (1 / 10) true 1 (fun n => (n : ℚ) + 2)).samples.length
        = (ftime_session 3 4 (1 / 10) true 1 (fun n => (n : ℚ) + 2)).nsamples
      ∧ 1 ≤ (ftime_session 3 4 (1 / 10) true 1 (fun n => (n : ℚ) + 2)).nsamples) :=
  ⟨by decide,
    ftime_trials_le_max_samples 3 4 (1 / 10) true 1 (fun n => (n : ℚ) + 2) (by decide)⟩

/-- C10: with `max_count = 1`, `epsilon = 1`, any `max_samples` (in
particular every `max_samples ≥ 1`), any overhead setting, and every trial
timing equal to the same `C > 0`, `ftime` stops after exactly one trial (one
call of `add_sample`). -/
theorem ftime_one_trial_of_max_count_one (max_samples : Nat) (correct_overhead : Bool)
    (overhead C : ℚ) (hC : 0 < C) :
    (ftime_session 1 max_samples 1 correct_overhead overhead (fun _ => C)).nsamples = 1
    ∧ (ftime_session 1 max_samples 1 correct_overhead overhead
        (fun _ => C)).samples.length = 1 := by
  have hstop := trial_one_stop 1 correct_overhead overhead (fun _ => C) hC
  have hn : (ftime_session 1 max_samples 1 correct_overhead overhead (fun _ => C)).nsamples
      = 1 := by
    unfold ftime_session
    rw [ftime_loop, if_neg]
    · rfl
    · rintro ⟨-, h⟩
      rw [hstop] at h
      exact Bool.noConfusion h
  have h2 := (ftime_loop_bounds 1 max_samples 1 correct_overhead overhead (fun _ => C)
    { values := init_values 1, nsamples := 0, stop := false, samples := [] }).2.2
  simp only [List.length_nil, Nat.add_zero, Nat.zero_add] at h2
  exact ⟨hn, h2.trans hn⟩

theorem ftime_one_trial_of_max_count_one_witness :
    (0 : ℚ) < 3
    ∧ ((ftime_session 1 10 1 true (1 / 2) (fun _ => 3)).nsamples = 1
      ∧ (ftime_session 1 10 1 true (1 / 2) (fun _ => 3)).samples.length = 1) :=
  ⟨by norm_num, ftime_one_trial_of_max_count_one 10 true (1 / 2) 3 (by norm_num)⟩

/-- With `max_count = 1` and a positive first timing, the session is the
single trial, and that trial leaves `values = [0]`: the sample is compared
with the initial `0` of slot 0 and not stored. -/
theorem ftime_session_one (max_samples : Nat) (epsilon : ℚ) (correct_overhead : Bool)
    (overhead : ℚ) (timing : Nat → ℚ) (hpos : 0 < timing 1) :
    (ftime_session 1 max_samples epsilon correct_overhead overhead timing).values = [0]
    ∧ (ftime_session 1 max_samples epsilon correct_overhead overhead timing).samples
      = [correct_timing correct_overhead overhead (timing 1)] := by
  have hstop := trial_one_stop epsilon correct_overhead overhead timing hpos
  have ht := correct_timing_pos correct_overhead overhead (timing 1) hpos
  have h1 : ¬ (correct_timing correct_overhead overhead (timing 1) < 0) := not_lt.mpr ht.le
  unfold ftime_session
  rw [ftime_loop, if_neg]
  · simp [trial, add_sample, init_values, insertion_loop, h1]
  · rintro ⟨-, h⟩
    rw [hstop] at h
    exact Bool.noConfusion h

/-- C11 (evaluation at the failing input): with `max_count = 1`,
`epsilon = 1`, `correct_overhead = 0` and every trial timing equal to
`C = 3`, the only sample passed to `add_sample` is 3, yet `ftime` returns 0,
the initial content of `values[0]`, and not `C`. -/
theorem ftime_max_count_one_returns_zero :
    (ftime_session 1 5 1 false 0 (fun _ => 3)).samples = [3]
    ∧ ftime 1 5 1 false 0 (fun _ => 3) = 0
    ∧ ftime 1 5 1 false 0 (fun _ => 3) ≠ 3 := by
  obtain ⟨hv, hs⟩ := ftime_session_one 5 1 false 0 (fun _ => 3) (by norm_num)
  refine ⟨?_, ?_, ?_⟩
  · rw [hs]
    simp [correct_timing]
  · unfold ftime
    rw [hv]
    rfl
  · unfold ftime
    rw [hv]
    norm_num

/-- A negative sample, which `ftime` never passes (a timing is a
non-negative time), is the one kind of sample that reaches the last slot:
after `init_values(3)` and the samples 5, 7 the array is `[5, 7, 0]`, and a
third call with the sample `-1` leaves `[5, -1, 7]`. -/
theorem add_sample_worst_increases :
    add_sample (add_sample (init_values 3) 5 1 3) 7 2 3 = [5, 7, 0]
    ∧ add_sample [5, 7, 0] (-1) 3 3 = [5, -1, 7]
    ∧ ¬ ((add_sample [5, 7, 0] (-1) 3 3).getD (3 - 1) 0
          ≤ ([5, 7, 0] : List ℚ).getD (3 - 1) 0) := by
  refine ⟨by decide, by decide, by decide⟩

/-- C13: for every state of the sample array with `values[0] > 0` and every
`epsilon`, `has_converged(max_count, epsilon)` is true exactly when
`(values[max_count-1] - values[0]) / values[0] ≤ epsilon` in exact
arithmetic; and in a trial of `ftime` whose number `nsamples` is below
`max_count` the flag `stop` is left as it was and the trial does not depend on
`epsilon`, while from `nsamples ≥ max_count` on `stop` is the value of
`has_converged` on the array after `add_sample`. -/
theorem has_converged_iff_relative_spread (values : List ℚ) (max_count : Nat) (epsilon : ℚ)
    (correct_overhead : Bool) (overhead : ℚ) (timing : Nat → ℚ) (s : Session)
    (hbest : 0 < values.getD 0 0) :
    (has_converged values max_count epsilon = true
      ↔ (values.getD (max_count - 1) 0 - values.getD 0 0) / values.getD 0 0 ≤ epsilon)
    ∧ (s.nsamples + 1 < max_count →
        (trial max_count epsilon correct_overhead overhead timing s).stop = s.stop
        ∧ ∀ epsilon2 : ℚ, trial max_count epsilon2 correct_overhead overhead timing s
            = trial max_count epsilon correct_overhead overhead timing s)
    ∧ (max_count ≤ s.nsamples + 1 →
        (trial max_count epsilon correct_overhead overhead timing s).stop
          = has_converged (trial max_count epsilon correct_overhead overhead timing s).values
              max_count epsilon) := by
  refine ⟨?_, ?_, ?_⟩
  · unfold has_converged
    rw [decide_eq_true_eq, div_le_iff₀ hbest]
  · intro h
    have h1 : ¬ (s.nsamples + 1 ≥ max_count) := by omega
    refine ⟨trial_stop_of_lt max_count epsilon correct_overhead overhead timing s h, ?_⟩
    intro epsilon2
    simp [trial, h1]
  · intro h
    have h1 : s.nsamples + 1 ≥ max_count := h
    simp [trial, h1]

theorem has_converged_iff_relative_spread_witness :
    (0 : ℚ) < ([2, 3, 5] : List ℚ).getD 0 0
    ∧ ((has_converged [2, 3, 5] 3 (3 / 2) = true
        ↔ (([2, 3, 5] : List ℚ).getD (3 - 1) 0 - ([2, 3, 5] : List ℚ).getD 0 0)
            / ([2, 3, 5] : List ℚ).getD 0 0 ≤ 3 / 2)
      ∧ ((0 : Nat) + 1 < 3 →
          (trial 3 (3 / 2) false 0 (fun _ => 4)
            { values := init_values 3, nsamples := 0, stop := false, samples := [] }).stop = false
          ∧ ∀ epsilon2 : ℚ, trial 3 epsilon2 false 0 (fun _ => 4)
              { values := init_values 3, nsamples := 0, stop := false, samples := [] }
            = trial 3 (3 / 2) false 0 (fun _ => 4)
              { values := init_values 3, nsamples := 0, stop := false, samples := [] })
      ∧ (3 ≤ (0 : Nat) + 1 →
          (trial 3 (3 / 2) false 0 (fun _ => 4)
            { values := init_values 3, nsamples := 0, stop := false, samples := [] }).stop
            = has_converged (trial 3 (3 / 2) false 0 (fun _ => 4)
                { values := init_values 3, nsamples := 0, stop := false, samples := [] }).values
                3 (3 / 2))) :=
  ⟨by norm_num [List.getD],
    has_converged_iff_relative_spread [2, 3, 5] 3 (3 / 2) false 0 (fun _ => 4)
      { values := init_values 3, nsamples := 0, stop := false, samples := [] }
      (by norm_num [List.getD])⟩

/-! ## Slots touched by `add_sample` -/

theorem getD_set_ne (l : List ℚ) (i j : Nat) (a : ℚ) (h : i ≠ j) :
    (l.set i a).getD j 0 = l.getD j 0 := by
  simp [List.getD_eq_getElem?_getD, List.getElem?_set_ne h]

theorem getD_set_self (l : List ℚ) (i : Nat) (a : ℚ) (h : i < l.length) :
    (l.set i a).getD i 0 = a := by
  simp [List.getD_eq_getElem?_getD, h]

theorem getD_nonneg (l : List ℚ) (i : Nat) (hl : ∀ v ∈ l, (0 : ℚ) ≤ v) : 0 ≤ l.getD i 0 := by
  rw [List.getD_eq_getElem?_getD]
  cases h : l[i]? with
  | none => simp
  | some v =>
    simp only [Option.getD_some]
    exact hl v (List.getElem?_mem h)

theorem set_nonneg (l : List ℚ) (i : Nat) (a : ℚ) (hl : ∀ v ∈ l, (0 : ℚ) ≤ v) (ha : 0 ≤ a) :
    ∀ v ∈ l.set i a, (0 : ℚ) ≤ v := by
  intro v hv
  rcases List.mem_or_eq_of_mem_set hv with h | h
  · exact hl v h
  · rw [h]
    exact ha

theorem insertion_loop_length (pos : Nat) : ∀ values : List ℚ,
    (insertion_loop values pos).length = values.length := by
  induction pos with
  | zero => intro values; rfl
  | succ pos ih =>
    intro values
    rw [insertion_loop]
    split
    · simp only []
      rw [ih]
      simp
    · rfl

/-- The insertion loop started at `pos` leaves slot 0 and every slot above
`pos` as they were. -/
theorem insertion_loop_getD_outside (pos : Nat) : ∀ (values : List ℚ) (i : Nat),
    (i = 0 ∨ pos < i) → (insertion_loop values pos).getD i 0 = values.getD i 0 := by
  induction pos with
  | zero => intro values i _; rfl
  | succ pos ih =>
    intro values i hi
    rw [insertion_loop]
    split
    · rename_i hc
      have hpos : 1 ≤ pos := by omega
      simp only []
      rw [ih _ i (by omega), getD_set_ne _ _ _ _ (by omega), getD_set_ne _ _ _ _ (by omega)]
    · rfl

theorem insertion_loop_nonneg (pos : Nat) : ∀ values : List ℚ,
    (∀ v ∈ values, (0 : ℚ) ≤ v) → ∀ v ∈ insertion_loop values pos, (0 : ℚ) ≤ v := by
  induction pos with
  | zero => intro values h; exact h
  | succ pos ih =>
    intro values h
    rw [insertion_loop]
    split
    · simp only []
      apply ih
      exact set_nonneg _ _ _ (set_nonneg _ _ _ h (getD_nonneg _ _ h)) (getD_nonneg _ _ h)
    · exact h

theorem add_sample_length (values : List ℚ) (value : ℚ) (current_count max_count : Nat) :
    (add_sample values value current_count max_count).length = values.length := by
  unfold add_sample
  split
  · simp only []
    rw [insertion_loop_length]
    simp
  · split
    · simp only []
      rw [insertion_loop_length]
      simp
    · rfl

theorem add_sample_nonneg (values : List ℚ) (value : ℚ) (current_count max_count : Nat)
    (h : ∀ v ∈ values, (0 : ℚ) ≤ v) (hv : 0 ≤ value) :
    ∀ v ∈ add_sample values value current_count max_count, (0 : ℚ) ≤ v := by
  unfold add_sample
  split
  · exact insertion_loop_nonneg _ _ (set_nonneg _ _ _ h hv)
  · split
    · exact insertion_loop_nonneg _ _ (set_nonneg _ _ _ h hv)
    · exact h

/-- From the second call on, with `max_count ≥ 2`, `add_sample` leaves slot 0
as it was. -/
theorem add_sample_getD_zero (values : List ℚ) (value : ℚ) (current_count max_count : Nat)
    (hcc : 2 ≤ current_count) (hmc : 2 ≤ max_count) :
    (add_sample values value current_count max_count).getD 0 0 = values.getD 0 0 := by
  unfold add_sample
  split
  · simp only []
    rw [insertion_loop_getD_outside _ _ 0 (Or.inl rfl), getD_set_ne _ _ _ _ (by omega)]
  · split
    · simp only []
      rw [insertion_loop_getD_outside _ _ 0 (Or.inl rfl), getD_set_ne _ _ _ _ (by omega)]
    · rfl

/-- The first call, with `max_count ≥ 2`, stores the sample in slot 0. -/
theorem add_sample_first (values : List ℚ) (value : ℚ) (max_count : Nat)
    (hmc : 2 ≤ max_count) (hlen : values.length = max_count) :
    (add_sample values value 1 max_count).getD 0 0 = value := by
  unfold add_sample
  rw [if_pos (by omega)]
  simp only []
  rw [insertion_loop_getD_outside _ _ 0 (Or.inl rfl)]
  exact getD_set_self _ _ _ (by omega)

/-- A non-negative sample never changes a last slot that holds 0. -/
theorem add_sample_last_zero (values : List ℚ) (value : ℚ) (current_count max_count : Nat)
    (hcc : 1 ≤ current_count) (hv : 0 ≤ value)
    (hlast : values.getD (max_count - 1) 0 = 0) :
    (add_sample values value current_count max_count).getD (max_count - 1) 0 = 0 := by
  unfold add_sample
  split
  · simp only []
    rw [insertion_loop_getD_outside _ _ _ (Or.inr (by omega)),
      getD_set_ne _ _ _ _ (by omega), hlast]
  · rw [if_neg (by rw [hlast]; exact not_lt.mpr hv)]
    exact hlast

theorem insertion_loop_accesses_range (pos : Nat) : ∀ values : List ℚ,
    ∀ a ∈ insertion_loop_accesses values pos, 1 ≤ a.index ∧ a.index ≤ (pos : Int) := by
  induction pos with
  | zero =>
    intro values a ha
    simp [insertion_loop_accesses] at ha
  | succ pos ih =>
    intro values a ha
    rw [insertion_loop_accesses] at ha
    split at ha
    · rename_i hc
      have hpos : 1 ≤ pos := by omega
      rw [List.mem_append] at ha
      rcases ha with h | h
      · simp only [List.mem_cons, List.mem_singleton, List.not_mem_nil, or_false] at h
        rcases h with h | h <;> rw [h] <;> simp only [] <;> push_cast <;> omega
      · split at h
        · rw [List.mem_append] at h
          rcases h with h | h
          · simp only [List.mem_cons, List.mem_singleton, List.not_mem_nil, or_false] at h
            rcases h with h | h | h | h <;> rw [h] <;> simp only [] <;> push_cast <;> omega
          · have := ih _ a h
            push_cast
            omega
        · simp at h
    · simp at ha

/-! ## Claims on the slots of the sample array -/

/-- C26: for every `max_count ≥ 1` and every `current_count ≥ 1`, every
access of `add_sample` to the array (reads and stores, insertion loop
included) and every access of `has_converged` uses an index in
`[0, max_count)`; and `add_sample` leaves the number of slots of the array
unchanged. -/
theorem add_sample_accesses_in_bounds (values : List ℚ) (value : ℚ)
    (current_count max_count : Int) (hmc : 1 ≤ max_count) (hcc : 1 ≤ current_count) :
    (∀ a ∈ add_sample_accesses values value current_count max_count,
        0 ≤ a.index ∧ a.index < max_count)
    ∧ (∀ a ∈ has_converged_accesses max_count, 0 ≤ a.index ∧ a.index < max_count)
    ∧ (add_sample values value current_count.toNat max_count.toNat).length
        = values.length := by
  refine ⟨?_, ?_, add_sample_length _ _ _ _⟩
  · intro a ha
    unfold add_sample_accesses at ha
    split at ha
    · rw [List.mem_append] at ha
      rcases ha with h | h
      · simp only [List.mem_singleton] at h
        rw [h]
        simp only []
        omega
      · have := insertion_loop_accesses_range _ _ a h
        omega
    · rw [List.mem_append] at ha
      rcases ha with h | h
      · simp only [List.mem_singleton] at h
        rw [h]
        simp only []
        omega
      · split at h
        · rw [List.mem_append] at h
          rcases h with h | h
          · simp only [List.mem_singleton] at h
            rw [h]
            simp only []
            omega
          · have := insertion_loop_accesses_range _ _ a h
            omega
        · simp at h
  · intro a ha
    simp only [has_converged_accesses, List.mem_cons, List.mem_singleton, List.not_mem_nil,
      or_false] at ha
    rcases ha with h | h | h <;> rw [h] <;> simp only [] <;> omega

theorem add_sample_accesses_in_bounds_witness :
    ((1 : Int) ≤ 3 ∧ (1 : Int) ≤ 4)
    ∧ ((∀ a ∈ add_sample_accesses [5, 7, 9] 2 4 3, 0 ≤ a.index ∧ a.index < 3)
      ∧ (∀ a ∈ has_converged_accesses 3, 0 ≤ a.index ∧ a.index < 3)
      ∧ (add_sample [5, 7, 9] 2 (4 : Int).toNat (3 : Int).toNat).length
          = ([5, 7, 9] : List ℚ).length) :=
  ⟨by decide, add_sample_accesses_in_bounds [5, 7, 9] 2 4 3 (by decide) (by decide)⟩

/-- Once a trial has been run, slot 0 holds the first sample for the rest of
the session (`max_count ≥ 2`). -/
theorem ftime_loop_first_sample (max_count max_samples : Nat) (epsilon : ℚ)
    (correct_overhead : Bool) (overhead : ℚ) (timing : Nat → ℚ) (hmc : 2 ≤ max_count)
    (s : Session) (hlen : s.values.length = max_count)
    (h0 : s.nsamples = 0
      ∨ s.values.getD 0 0 = correct_timing correct_overhead overhead (timing 1)) :
    (ftime_loop max_count max_samples epsilon correct_overhead overhead timing s).values.getD 0 0
      = correct_timing correct_overhead overhead (timing 1) := by
  have step : ∀ x : Session, x.values.length = max_count →
      (x.nsamples = 0
        ∨ x.values.getD 0 0 = correct_timing correct_overhead overhead (timing 1)) →
      (trial max_count epsilon correct_overhead overhead timing x).values.length = max_count
      ∧ (trial max_count epsilon correct_overhead overhead timing x).values.getD 0 0
          = correct_timing correct_overhead overhead (timing 1) := by
    intro x hx h
    refine ⟨by simp only [trial]; rw [add_sample_length]; exact hx, ?_⟩
    simp only [trial]
    rcases Nat.eq_zero_or_pos x.nsamples with hz | hp
    · rw [hz]
      exact add_sample_first _ _ _ hmc hx
    · rw [add_sample_getD_zero _ _ _ _ (by omega) hmc]
      rcases h with h | h
      · omega
      · exact h
  induction s using ftime_loop.induct max_count max_samples epsilon correct_overhead
    overhead timing with
  | case1 x s1 hc ih =>
    unfold s1 at hc ih
    rw [ftime_loop, if_pos hc]
    exact ih (step x hlen h0).1 (Or.inr (step x hlen h0).2)
  | case2 x s1 hc =>
    unfold s1 at hc
    rw [ftime_loop, if_neg hc]
    exact (step x hlen h0).2

/-- C27: for every `max_count ≥ 2`, every `max_samples`, `epsilon`, overhead
setting and sequence of timings: the first call of `add_sample` stores its
sample in `values[0]`; every later call (`current_count ≥ 2`) makes no store
to index 0 and leaves `values[0]` as it was (the insertion loop runs only
while `pos > 1`); so `ftime` returns the sample of the first trial, whatever
the later trials measure. -/
theorem ftime_returns_first_trial (max_count max_samples : Nat) (epsilon : ℚ)
    (correct_overhead : Bool) (overhead : ℚ) (timing : Nat → ℚ) (hmc : 2 ≤ max_count) :
    ftime max_count max_samples epsilon correct_overhead overhead timing
      = correct_timing correct_overhead overhead (timing 1)
    ∧ (∀ (values : List ℚ) (value : ℚ), values.length = max_count →
        (add_sample values value 1 max_count).getD 0 0 = value)
    ∧ (∀ (values : List ℚ) (value : ℚ) (current_count : Nat), 2 ≤ current_count →
        (add_sample values value current_count max_count).getD 0 0 = values.getD 0 0)
    ∧ (∀ (values : List ℚ) (value : ℚ) (current_count : Int), 2 ≤ current_count →
        ∀ a ∈ add_sample_accesses values value current_count (max_count : Int),
          a.is_write = true → a.index ≠ 0) := by
  refine ⟨?_, fun values value hlen => add_sample_first values value max_count hmc hlen,
    fun values value cc hcc => add_sample_getD_zero values value cc max_count hcc hmc, ?_⟩
  · unfold ftime ftime_session
    exact ftime_loop_first_sample max_count max_samples epsilon correct_overhead overhead
      timing hmc _ (by simp [init_values]) (Or.inl rfl)
  · intro values value cc hcc a ha hw
    unfold add_sample_accesses at ha
    split at ha
    · rw [List.mem_append] at ha
      rcases ha with h | h
      · simp only [List.mem_singleton] at h
        rw [h]
        simp only []
        omega
      · have := insertion_loop_accesses_range _ _ a h
        omega
    · rw [List.mem_append] at ha
      rcases ha with h | h
      · simp only [List.mem_singleton] at h
        rw [h] at hw
        simp at hw
      · split at h
        · rw [List.mem_append] at h
          rcases h with h | h
          · simp only [List.mem_singleton] at h
            rw [h]
            simp only []
            omega
          · have := insertion_loop_accesses_range _ _ a h
            omega
        · simp at h

theorem ftime_returns_first_trial_witness :
    2 ≤ 3
    ∧ (ftime 3 10 (1 / 100) true 1 (fun n => 10 - (n : ℚ))
        = correct_timing true 1 ((fun n => 10 - (n : ℚ)) 1)
      ∧ (∀ (values : List ℚ) (value : ℚ), values.length = 3 →
          (add_sample values value 1 3).getD 0 0 = value)
      ∧ (∀ (values : List ℚ) (value : ℚ) (current_count : Nat), 2 ≤ current_count →
          (add_sample values value current_count 3).getD 0 0 = values.getD 0 0)
      ∧ (∀ (values : List ℚ) (value : ℚ) (current_count : Int), 2 ≤ current_count →
          ∀ a ∈ add_sample_accesses values value current_count ((3 : Nat) : Int),
            a.is_write = true → a.index ≠ 0)) :=
  ⟨by decide,
    ftime_returns_first_trial 3 10 (1 / 100) true 1 (fun n => 10 - (n : ℚ)) (by decide)⟩

/-! ## Sessions with non-negative samples -/

/-- A trial with a non-negative sample keeps the array at `max_count` slots,
all non-negative, the last one holding 0. -/
theorem trial_keeps_last_zero (max_count : Nat) (epsilon : ℚ) (correct_overhead : Bool)
    (overhead : ℚ) (timing : Nat → ℚ)
    (hs : ∀ n : Nat, 0 ≤ correct_timing correct_overhead overhead (timing n))
    (x : Session) (hlen : x.values.length = max_count)
    (hlast : x.values.getD (max_count - 1) 0 = 0) (hnn : ∀ v ∈ x.values, (0 : ℚ) ≤ v) :
    (trial max_count epsilon correct_overhead overhead timing x).values.length = max_count
    ∧ (trial max_count epsilon correct_overhead overhead timing x).values.getD
        (max_count - 1) 0 = 0
    ∧ ∀ v ∈ (trial max_count epsilon correct_overhead overhead timing x).values,
        (0 : ℚ) ≤ v := by
  simp only [trial]
  refine ⟨by rw [add_sample_length]; exact hlen,
    add_sample_last_zero _ _ _ _ (by omega) (hs _) hlast,
    add_sample_nonneg _ _ _ _ hnn (hs _)⟩

/-- On an array of non-negative values whose last slot holds 0,
`has_converged` holds for every `epsilon ≥ 0`. -/
theorem has_converged_of_last_zero (values : List ℚ) (max_count : Nat) (epsilon : ℚ)
    (heps : 0 ≤ epsilon) (hlast : values.getD (max_count - 1) 0 = 0)
    (hnn : ∀ v ∈ values, (0 : ℚ) ≤ v) : has_converged values max_count epsilon = true := by
  unfold has_converged
  rw [decide_eq_true_eq, hlast]
  have h0 := getD_nonneg values 0 hnn
  have := mul_nonneg heps h0
  linarith

/-- With non-negative samples the loop stops at trial `min max_count
max_samples`, and the last slot still holds 0. -/
theorem ftime_loop_min (max_count max_samples : Nat) (epsilon : ℚ)
    (correct_overhead : Bool) (overhead : ℚ) (timing : Nat → ℚ)
    (heps : 0 ≤ epsilon)
    (hs : ∀ n : Nat, 0 ≤ correct_timing correct_overhead overhead (timing n))
    (s : Session) (hlen : s.values.length = max_count)
    (hlast : s.values.getD (max_count - 1) 0 = 0) (hnn : ∀ v ∈ s.values, (0 : ℚ) ≤ v)
    (hlt : s.nsamples < min max_count max_samples) (hstop : s.stop = false) :
    (ftime_loop max_count max_samples epsilon correct_overhead overhead timing s).nsamples
      = min max_count max_samples
    ∧ (ftime_loop max_count max_samples epsilon correct_overhead overhead
        timing s).values.getD (max_count - 1) 0 = 0
    ∧ (max_count ≤ max_samples →
        (ftime_loop max_count max_samples epsilon correct_overhead overhead
          timing s).stop = true) := by
  induction s using ftime_loop.induct max_count max_samples epsilon correct_overhead
    overhead timing with
  | case1 x s1 hc ih =>
    unfold s1 at hc ih
    obtain ⟨k1, k2, k3⟩ := trial_keeps_last_zero max_count epsilon correct_overhead overhead
      timing hs x hlen hlast hnn
    have hn := trial_nsamples max_count epsilon correct_overhead overhead timing x
    rw [ftime_loop, if_pos hc]
    have hlt2 : (trial max_count epsilon correct_overhead overhead timing x).nsamples
        < min max_count max_samples := by
      by_contra hcon
      have hge : max_count ≤ x.nsamples + 1 := by
        have := hc.1
        omega
      have hst : (trial max_count epsilon correct_overhead overhead timing x).stop
          = has_converged (trial max_count epsilon correct_overhead overhead timing x).values
              max_count epsilon := by
        simp [trial, hge]
      rw [has_converged_of_last_zero _ _ _ heps k2 k3] at hst
      rw [hst] at hc
      exact Bool.noConfusion hc.2
    exact ih k1 k2 k3 hlt2 hc.2
  | case2 x s1 hc =>
    unfold s1 at hc
    obtain ⟨k1, k2, k3⟩ := trial_keeps_last_zero max_count epsilon correct_overhead overhead
      timing hs x hlen hlast hnn
    have hn := trial_nsamples max_count epsilon correct_overhead overhead timing x
    rw [ftime_loop, if_neg hc]
    refine ⟨?_, k2, ?_⟩
    · by_contra hne
      have hlt3 : x.nsamples + 1 < max_count := by omega
      apply hc
      refine ⟨by omega, ?_⟩
      rw [trial_stop_of_lt max_count epsilon correct_overhead overhead timing x hlt3, hstop]
    · intro hle
      by_cases hlt3 : x.nsamples + 1 < max_count
      · exfalso
        apply hc
        refine ⟨by omega, ?_⟩
        rw [trial_stop_of_lt max_count epsilon correct_overhead overhead timing x hlt3, hstop]
      · have hge : max_count ≤ x.nsamples + 1 := by omega
        have hst : (trial max_count epsilon correct_overhead overhead timing x).stop
            = has_converged (trial max_count epsilon correct_overhead overhead timing x).values
                max_count epsilon := by
          simp [trial, hge]
        rw [hst]
        exact has_converged_of_last_zero _ _ _ heps k2 k3

/-- C28: for every `max_count ≥ 1`, `max_samples ≥ 1`, `epsilon ≥ 0` and
every sequence of timings whose samples are non-negative: a trial never
changes a last slot `values[max_count-1]` that holds 0, so the slot holds its
initial 0 at the end of the session; when the session reaches trial
`max_count` (`max_count ≤ max_samples`) it ends there with `stop` set by
`has_converged`; and `ftime` runs exactly `min max_count max_samples` trials,
whatever the spread of the timings. -/
theorem ftime_trials_eq_min (max_count max_samples : Nat) (epsilon : ℚ)
    (correct_overhead : Bool) (overhead : ℚ) (timing : Nat → ℚ)
    (hmc : 1 ≤ max_count) (hms : 1 ≤ max_samples) (heps : 0 ≤ epsilon)
    (hs : ∀ n : Nat, 0 ≤ correct_timing correct_overhead overhead (timing n)) :
    (ftime_session max_count max_samples epsilon correct_overhead overhead timing).nsamples
      = min max_count max_samples
    ∧ (ftime_session max_count max_samples epsilon correct_overhead overhead
        timing).samples.length = min max_count max_samples
    ∧ (ftime_session max_count max_samples epsilon correct_overhead overhead
        timing).values.getD (max_count - 1) 0 = 0
    ∧ (max_count ≤ max_samples →
        (ftime_session max_count max_samples epsilon correct_overhead overhead
          timing).stop = true)
    ∧ (∀ x : Session, x.values.getD (max_count - 1) 0 = 0 →
        (trial max_count epsilon correct_overhead overhead timing x).values.getD
          (max_count - 1) 0 = 0) := by
  have hinit : ∀ v ∈ init_values max_count, (0 : ℚ) ≤ v := by
    intro v hv
    rw [init_values, List.mem_replicate] at hv
    rw [hv.2]
  have hlast0 : (init_values max_count).getD (max_count - 1) 0 = 0 := by
    have h1 := getD_nonneg (init_values max_count) (max_count - 1) hinit
    rw [List.getD_eq_getElem?_getD] at h1 ⊢
    cases hg : (init_values max_count)[max_count - 1]? with
    | none => rfl
    | some v =>
      have hv := List.getElem?_mem hg
      rw [init_values, List.mem_replicate] at hv
      simp [hv.2]
  obtain ⟨a1, a2, a3⟩ := ftime_loop_min max_count max_samples epsilon correct_overhead
    overhead timing heps hs
    { values := init_values max_count, nsamples := 0, stop := false, samples := [] }
    (by simp [init_values]) hlast0 hinit (by simp only []; omega) rfl
  have hb := (ftime_loop_bounds max_count max_samples epsilon correct_overhead overhead timing
    { values := init_values max_count, nsamples := 0, stop := false, samples := [] }).2.2
  simp only [List.length_nil, Nat.add_zero, Nat.zero_add] at hb
  unfold ftime_session
  refine ⟨a1, hb.trans a1, a2, a3, ?_⟩
  intro x hx
  simp only [trial]
  exact add_sample_last_zero _ _ _ _ (by omega) (hs _) hx

theorem ftime_trials_eq_min_witness :
    (1 ≤ 3 ∧ 1 ≤ 10 ∧ (0 : ℚ) ≤ 1 / 100
      ∧ ∀ n : Nat, 0 ≤ correct_timing false 0 ((fun n => (n : ℚ) * 1000) n))
    ∧ ((ftime_session 3 10 (1 / 100) false 0 (fun n => (n : ℚ) * 1000)).nsamples = min 3 10
      ∧ (ftime_session 3 10 (1 / 100) false 0 (fun n => (n : ℚ) * 1000)).samples.length
          = min 3 10
      ∧ (ftime_session 3 10 (1 / 100) false 0 (fun n => (n : ℚ) * 1000)).values.getD (3 - 1) 0
          = 0
      ∧ (3 ≤ 10 →
          (ftime_session 3 10 (1 / 100) false 0 (fun n => (n : ℚ) * 1000)).stop = true)
      ∧ (∀ x : Session, x.values.getD (3 - 1) 0 = 0 →
          (trial 3 (1 / 100) false 0 (fun n => (n : ℚ) * 1000) x).values.getD (3 - 1) 0
            = 0)) := by
  have hs : ∀ n : Nat, 0 ≤ correct_timing false 0 ((fun n => (n : ℚ) * 1000) n) := by
    intro n
    simp only [correct_timing, Bool.false_eq_true, false_and, if_false]
    positivity
  exact ⟨⟨by decide, by decide, by norm_num, hs⟩,
    ftime_trials_eq_min 3 10 (1 / 100) false 0 (fun n => (n : ℚ) * 1000)
      (by decide) (by decide) (by norm_num) hs⟩

/-! ## The sample of a trial -/

/-- The samples logged by the loop are the corrected timings of the trials,
in order. -/
theorem ftime_loop_samples (max_count max_samples : Nat) (epsilon : ℚ)
    (correct_overhead : Bool) (overhead : ℚ) (timing : Nat → ℚ) (s : Session)
    (h : s.samples = (List.range s.nsamples).map
      (fun k => correct_timing correct_overhead overhead (timing (k + 1)))) :
    (ftime_loop max_count max_samples epsilon correct_overhead overhead timing s).samples
      = (List.range (ftime_loop max_count max_samples epsilon correct_overhead overhead
          timing s).nsamples).map
          (fun k => correct_timing correct_overhead overhead (timing (k + 1))) := by
  have step : ∀ x : Session,
      x.samples = (List.range x.nsamples).map
        (fun k => correct_timing correct_overhead overhead (timing (k + 1))) →
      (trial max_count epsilon correct_overhead overhead timing x).samples
        = (List.range (trial max_count epsilon correct_overhead overhead timing x).nsamples).map
            (fun k => correct_timing correct_overhead overhead (timing (k + 1))) := by
    intro x hx
    simp only [trial, List.range_succ, List.map_append, List.map_cons, List.map_nil, hx]
  induction s using ftime_loop.induct max_count max_samples epsilon correct_overhead
    overhead timing with
  | case1 x s1 hc ih =>
    unfold s1 at hc ih
    rw [ftime_loop, if_pos hc]
    exact ih (step x h)
  | case2 x s1 hc =>
    unfold s1 at hc
    rw [ftime_loop, if_neg hc]
    exact step x h

/-- C21: with `t` the per-call timing of a trial and `o` the overhead of the
session, the sample passed to `add_sample` is `t - o` when `correct_overhead`
is set and `t > o`, and `t` otherwise; a sample to which the correction was
applied is strictly positive; and the samples of a session are these values
for trials 1, 2, ..., all with the one `o` the session was started with. -/
theorem sample_is_corrected_timing (max_count max_samples : Nat) (epsilon : ℚ)
    (correct_overhead : Bool) (overhead : ℚ) (timing : Nat → ℚ) (t : ℚ) :
    ((correct_overhead = true ∧ t > overhead) →
        correct_timing correct_overhead overhead t = t - overhead
        ∧ 0 < correct_timing correct_overhead overhead t)
    ∧ (¬ (correct_overhead = true ∧ t > overhead) →
        correct_timing correct_overhead overhead t = t)
    ∧ (ftime_session max_count max_samples epsilon correct_overhead overhead timing).samples
        = (List.range (ftime_session max_count max_samples epsilon correct_overhead overhead
            timing).nsamples).map
            (fun k => correct_timing correct_overhead overhead (timing (k + 1)))
    ∧ (∀ x : Session,
        (trial max_count epsilon correct_overhead overhead timing x).samples
          = x.samples ++ [correct_timing correct_overhead overhead (timing (x.nsamples + 1))]
        ∧ (trial max_count epsilon correct_overhead overhead timing x).values
          = add_sample x.values
              (correct_timing correct_overhead overhead (timing (x.nsamples + 1)))
              (x.nsamples + 1) max_count) := by
  refine ⟨?_, ?_, ?_, fun x => ⟨rfl, rfl⟩⟩
  · intro h
    unfold correct_timing
    rw [if_pos h]
    exact ⟨rfl, by linarith [h.2]⟩
  · intro h
    unfold correct_timing
    rw [if_neg h]
  · unfold ftime_session
    exact ftime_loop_samples max_count max_samples epsilon correct_overhead overhead timing _ rfl

/-! ## The re-measurement loop -/

/-- The numbers of kernel calls of the first `n` brackets: 1, 3, 5, ... -/
theorem odd_counts_succ (n : Nat) :
    (List.range (n + 1)).map (fun (i : Nat) => 1 + 2 * (i : Int))
      = (List.range n).map (fun (i : Nat) => 1 + 2 * (i : Int)) ++ [1 + 2 * (n : Int)] := by
  rw [List.range_succ, List.map_append, List.map_cons, List.map_nil]

/-- From the state after bracket `j`, when the brackets `j .. j+d-1` pass the
test and bracket `j+d` fails it, the loop ends after `d` re-measurements, for
every fuel above `d`, in the state of bracket `j+d`. -/
theorem remeasure_loop_spec (overhead : ℚ) (bracket : Nat → ℚ) (d : Nat) :
    ∀ (fuel j : Nat) (s : Measurement),
      s.rep = 1 + 2 * (j : Int) → s.timing = bracket j →
      s.calls = (List.range (j + 1)).map (fun (i : Nat) => 1 + 2 * (i : Int)) →
      (∀ i, j ≤ i → i < j + d → remeasure_test overhead (bracket i) = true) →
      remeasure_test overhead (bracket (j + d)) = false →
      d < fuel →
      remeasure_loop overhead bracket fuel s
        = some { rep := 1 + 2 * ((j + d : Nat) : Int), timing := bracket (j + d),
                 calls := (List.range (j + d + 1)).map (fun (i : Nat) => 1 + 2 * (i : Int)) } := by
  induction d with
  | zero =>
    intro fuel j s hrep htim hcalls _ hexit hfuel
    obtain ⟨f, rfl⟩ : ∃ f, fuel = f + 1 := ⟨fuel - 1, by omega⟩
    rw [remeasure_loop, htim]
    simp only [Nat.add_zero] at hexit ⊢
    rw [hexit]
    simp only [Bool.false_eq_true, if_false]
    cases s
    simp only at hrep htim hcalls
    rw [hrep, htim, hcalls]
  | succ d ih =>
    intro fuel j s hrep htim hcalls hpass hexit hfuel
    obtain ⟨f, rfl⟩ : ∃ f, fuel = f + 1 := ⟨fuel - 1, by omega⟩
    rw [remeasure_loop, htim, hpass j (le_refl j) (by omega)]
    simp only [if_true]
    have hlen : s.calls.length = j + 1 := by
      rw [hcalls, List.length_map, List.length_range]
    have key := ih f (j + 1)
      { rep := s.rep + 2, timing := bracket s.calls.length, calls := s.calls ++ [s.rep + 2] }
      (by simp only [hrep]; push_cast; ring)
      (by simp only [hlen])
      (by
        simp only
        rw [odd_counts_succ (j + 1), hcalls, hrep]
        congr 2)
      (fun i h1 h2 => hpass i (by omega) (by omega))
      (by rw [show j + 1 + d = j + (d + 1) by omega]; exact hexit)
      (by omega)
    rw [key, show j + 1 + d = j + (d + 1) by omega]

/-- A bracket of non-negative time that fails the test has
`overhead ≤ 0.05 * T`. -/
theorem overhead_le_of_test_false (overhead T : ℚ) (hT : 0 ≤ T)
    (h : remeasure_test overhead T = false) : overhead ≤ 1 / 20 * T := by
  unfold remeasure_test at h
  by_cases h0 : T = 0
  · rw [if_pos h0, decide_eq_false_iff_not] at h
    rw [h0]
    linarith
  · rw [if_neg h0, decide_eq_false_iff_not] at h
    have hpos : 0 < T := lt_of_le_of_ne hT (Ne.symm h0)
    have h2 : overhead / T ≤ 1 / 20 := not_lt.mp h
    rw [div_le_iff₀ hpos] at h2
    exact h2

/-- C25, as first stated, fails: with overhead 1, a first bracket of time 10
and a second bracket (3 calls) of time 30, the loop exits after one
re-measurement with `rep = 3` and bracket time `T = 30`; the per-call timing
is `T/rep = 10`, and `overhead ≤ 0.05 * (T/rep)` is false (1 > 0.5). -/
theorem remeasure_exit_not_per_call :
    remeasure_loop 1 (fun j => if j = 0 then 10 else 30) 2
        (first_bracket (fun j => if j = 0 then 10 else 30))
      = some { rep := 3, timing := 30, calls := [1, 3] }
    ∧ per_call_timing 1 (fun j => if j = 0 then 10 else 30) 2 = some 10
    ∧ ¬ ((1 : ℚ) ≤ 1 / 20 * 10) := by
  have h1 : remeasure_test 1 10 = true := by
    unfold remeasure_test
    norm_num
  have h2 : remeasure_test 1 30 = false := by
    unfold remeasure_test
    norm_num
  have hl : remeasure_loop 1 (fun j => if j = 0 then 10 else 30) 2
        (first_bracket (fun j => if j = 0 then 10 else 30))
      = some { rep := 3, timing := 30, calls := [1, 3] } := by
    simp only [remeasure_loop, first_bracket, if_true, h1, List.length_cons, List.length_nil,
      Nat.zero_add, Nat.one_ne_zero, if_false, h2, Bool.false_eq_true, List.cons_append,
      List.nil_append]
    norm_num
  refine ⟨hl, ?_, by norm_num⟩
  unfold per_call_timing
  rw [hl]
  simp only [Option.map_some']
  norm_num

/-- C25, amended: in a trial whose brackets `0 .. m-1` pass the test
`overhead / T > 0.05` and whose bracket `m` (of time `T ≥ 0`) fails it, the
loop ends, for every fuel above `m`, after `m` re-measurements with
`rep = 1 + 2m`; the brackets timed `1, 3, ..., 1 + 2m` kernel calls in turn
(odd, strictly increasing); the recorded per-call timing is `T / rep`; and on
exit the overhead is at most `0.05` of the whole bracket time `T` (not of
`T / rep`). -/
theorem remeasure_exit_bracket (overhead : ℚ) (bracket : Nat → ℚ) (m fuel : Nat)
    (hpass : ∀ i, i < m → remeasure_test overhead (bracket i) = true)
    (hexit : remeasure_test overhead (bracket m) = false)
    (hT : 0 ≤ bracket m) (hfuel : m < fuel) :
    remeasure_loop overhead bracket fuel (first_bracket bracket)
      = some { rep := 1 + 2 * (m : Int), timing := bracket m,
               calls := (List.range (m + 1)).map (fun (i : Nat) => 1 + 2 * (i : Int)) }
    ∧ per_call_timing overhead bracket fuel = some (bracket m / (1 + 2 * (m : ℚ)))
    ∧ overhead ≤ 1 / 20 * bracket m := by
  have hl := remeasure_loop_spec overhead bracket m fuel 0 (first_bracket bracket)
    (by simp [first_bracket]) (by simp [first_bracket]) (by simp [first_bracket, List.range_succ])
    (fun i _ h2 => hpass i (by omega)) (by rw [Nat.zero_add]; exact hexit) hfuel
  simp only [Nat.zero_add] at hl
  refine ⟨hl, ?_, overhead_le_of_test_false overhead (bracket m) hT hexit⟩
  unfold per_call_timing
  rw [hl]
  simp only [Option.map_some']
  push_cast
  rfl

theorem remeasure_exit_bracket_witness :
    ((∀ i, i < 1 → remeasure_test 1 ((fun j => if j = 0 then (10 : ℚ) else 30) i) = true)
      ∧ remeasure_test 1 ((fun j => if j = 0 then (10 : ℚ) else 30) 1) = false
      ∧ (0 : ℚ) ≤ (fun j => if j = 0 then (10 : ℚ) else 30) 1 ∧ 1 < 2)
    ∧ (remeasure_loop 1 (fun j => if j = 0 then (10 : ℚ) else 30) 2
          (first_bracket (fun j => if j = 0 then (10 : ℚ) else 30))
        = some { rep := 1 + 2 * ((1 : Nat) : Int),
                 timing := (fun j => if j = 0 then (10 : ℚ) else 30) 1,
                 calls := (List.range (1 + 1)).map (fun (i : Nat) => 1 + 2 * (i : Int)) }
      ∧ per_call_timing 1 (fun j => if j = 0 then (10 : ℚ) else 30) 2
        = some ((fun j => if j = 0 then (10 : ℚ) else 30) 1 / (1 + 2 * ((1 : Nat) : ℚ)))
      ∧ (1 : ℚ) ≤ 1 / 20 * (fun j => if j = 0 then (10 : ℚ) else 30) 1) := by
  have hpass : ∀ i, i < 1 →
      remeasure_test 1 ((fun j => if j = 0 then (10 : ℚ) else 30) i) = true := by
    intro i hi
    obtain rfl : i = 0 := by omega
    unfold remeasure_test
    norm_num
  have hexit : remeasure_test 1 ((fun j => if j = 0 then (10 : ℚ) else 30) 1) = false := by
    unfold remeasure_test
    norm_num
  have hT : (0 : ℚ) ≤ (fun j => if j = 0 then (10 : ℚ) else 30) 1 := by norm_num
  exact ⟨⟨hpass, hexit, hT, by decide⟩,
    remeasure_exit_bracket 1 (fun j => if j = 0 then (10 : ℚ) else 30) 1 2 hpass hexit hT
      (by decide)⟩

/-! ## The worst retained sample -/

/-- Fed with non-negative samples, the array keeps `max_count` non-negative
slots, the last one holding 0. -/
theorem feed_samples_last_zero (max_count : Nat) (sample : Nat → ℚ)
    (hs : ∀ n : Nat, 0 ≤ sample n) (k : Nat) :
    (feed_samples max_count sample k).length = max_count
    ∧ (feed_samples max_count sample k).getD (max_count - 1) 0 = 0
    ∧ ∀ v ∈ feed_samples max_count sample k, (0 : ℚ) ≤ v := by
  induction k with
  | zero =>
    have hinit : ∀ v ∈ init_values max_count, (0 : ℚ) ≤ v := by
      intro v hv
      rw [init_values, List.mem_replicate] at hv
      rw [hv.2]
    refine ⟨by simp [feed_samples, init_values], ?_, hinit⟩
    simp only [feed_samples]
    rw [List.getD_eq_getElem?_getD]
    cases hg : (init_values max_count)[max_count - 1]? with
    | none => rfl
    | some v =>
      have hv := List.getElem?_mem hg
      rw [init_values, List.mem_replicate] at hv
      simp [hv.2]
  | succ k ih =>
    obtain ⟨h1, h2, h3⟩ := ih
    simp only [feed_samples]
    refine ⟨by rw [add_sample_length]; exact h1,
      add_sample_last_zero _ _ _ _ (by omega) (hs _) h2,
      add_sample_nonneg _ _ _ _ h3 (hs _)⟩

/-- C12: for every `max_count` (in particular every `max_count ≥ 1`) and
every sequence of samples that are timings (non-negative), fed to
`add_sample` with `current_count = 1, 2, 3, ...` after
`init_values(max_count)`: on every call made once the set is full
(`current_count ≥ max_count`) the worst retained element
`values[max_count-1]` after the call is less than or equal to its value
before the call; both are the initial 0 of the slot. -/
theorem add_sample_worst_not_increasing (max_count : Nat) (sample : Nat → ℚ)
    (current_count : Nat) (hs : ∀ n : Nat, 0 ≤ sample n)
    (hcc : 1 ≤ current_count) (hfull : max_count ≤ current_count) :
    (add_sample (feed_samples max_count sample (current_count - 1)) (sample current_count)
        current_count max_count).getD (max_count - 1) 0
      ≤ (feed_samples max_count sample (current_count - 1)).getD (max_count - 1) 0
    ∧ feed_samples max_count sample current_count
      = add_sample (feed_samples max_count sample (current_count - 1)) (sample current_count)
          current_count max_count
    ∧ (feed_samples max_count sample current_count).getD (max_count - 1) 0 = 0 := by
  obtain ⟨k, rfl⟩ : ∃ k, current_count = k + 1 := ⟨current_count - 1, by omega⟩
  have hb := (feed_samples_last_zero max_count sample hs k).2.1
  have ha := (feed_samples_last_zero max_count sample hs (k + 1)).2.1
  simp only [Nat.add_sub_cancel]
  refine ⟨?_, rfl, ha⟩
  simp only [feed_samples] at ha
  rw [ha, hb]

theorem add_sample_worst_not_increasing_witness :
    ((∀ n : Nat, (0 : ℚ) ≤ (fun n : Nat => if n % 2 = 0 then (3 : ℚ) else 5) n)
      ∧ 1 ≤ 4 ∧ 3 ≤ 4)
    ∧ ((add_sample (feed_samples 3 (fun n : Nat => if n % 2 = 0 then (3 : ℚ) else 5) (4 - 1))
          ((fun n : Nat => if n % 2 = 0 then (3 : ℚ) else 5) 4) 4 3).getD (3 - 1) 0
        ≤ (feed_samples 3 (fun n : Nat => if n % 2 = 0 then (3 : ℚ) else 5)
            (4 - 1)).getD (3 - 1) 0
      ∧ feed_samples 3 (fun n : Nat => if n % 2 = 0 then (3 : ℚ) else 5) 4
        = add_sample (feed_samples 3 (fun n : Nat => if n % 2 = 0 then (3 : ℚ) else 5) (4 - 1))
            ((fun n : Nat => if n % 2 = 0 then (3 : ℚ) else 5) 4) 4 3
      ∧ (feed_samples 3 (fun n : Nat => if n % 2 = 0 then (3 : ℚ) else 5) 4).getD (3 - 1) 0
        = 0) := by
  have hs : ∀ n : Nat, (0 : ℚ) ≤ (fun n : Nat => if n % 2 = 0 then (3 : ℚ) else 5) n := by
    intro n
    simp only
    split <;> norm_num
  exact ⟨⟨hs, by decide, by decide⟩,
    add_sample_worst_not_increasing 3 (fun n : Nat => if n % 2 = 0 then (3 : ℚ) else 5) 4
      hs (by decide) (by decide)⟩

/-! ## Termination of the session -/

/-- When the brackets `0 .. m-1` of a trial pass the test of the
re-measurement loop and bracket `m` fails it, the trial measures the per-call
timing `bracket m / (1 + 2m)`, for every fuel above `m`. -/
theorem per_call_timing_of_exit (overhead : ℚ) (bracket : Nat → ℚ) (m fuel : Nat)
    (hpass : ∀ i, i < m → remeasure_test overhead (bracket i) = true)
    (hexit : remeasure_test overhead (bracket m) = false) (hfuel : m < fuel) :
    per_call_timing overhead bracket fuel = some (bracket m / (1 + 2 * (m : ℚ))) := by
  have hl := remeasure_loop_spec overhead bracket m fuel 0 (first_bracket bracket)
    (by simp [first_bracket]) (by simp [first_bracket]) (by simp [first_bracket, List.range_succ])
    (fun i _ h2 => hpass i (by omega)) (by rw [Nat.zero_add]; exact hexit) hfuel
  simp only [Nat.zero_add] at hl
  unfold per_call_timing
  rw [hl]
  simp only [Option.map_some']
  push_cast
  rfl

/-- A timer for which every kernel call takes at least `tmin > 0` (the
bracket around `1 + 2j` calls reports at least `(1 + 2j) * tmin`) brings the
re-measurement loop to a bracket that fails its test. -/
theorem remeasure_ends_of_call_time (overhead tmin : ℚ) (bracket : Nat → ℚ)
    (htmin : 0 < tmin) (hb : ∀ j : Nat, (1 + 2 * (j : ℚ)) * tmin ≤ bracket j) :
    ∃ m : Nat, (∀ i, i < m → remeasure_test overhead (bracket i) = true)
      ∧ remeasure_test overhead (bracket m) = false := by
  have hex : ∃ j : Nat, remeasure_test overhead (bracket j) = false := by
    obtain ⟨j, hj⟩ := exists_nat_ge (20 * overhead / tmin)
    refine ⟨j, ?_⟩
    have h1 : 20 * overhead ≤ (j : ℚ) * tmin := by
      rw [div_le_iff₀ htmin] at hj
      exact hj
    have h2 := hb j
    have hj0 : (0 : ℚ) ≤ (j : ℚ) := Nat.cast_nonneg j
    have hpos : 0 < bracket j := by nlinarith
    unfold remeasure_test
    rw [if_neg (ne_of_gt hpos), decide_eq_false_iff_not, not_lt, div_le_iff₀ hpos]
    nlinarith
  refine ⟨Nat.find hex, ?_, Nat.find_spec hex⟩
  intro i hi
  have := Nat.find_min hex hi
  simpa using this

/-- When every trial up to `max_samples` reaches, within the fuel, a bracket
that fails the test of the re-measurement loop (bracket `m n` in trial `n`),
the sampling loop with its measurements ends, and it ends in the state the
loop on the measured per-call timings `bracket n (m n) / (1 + 2 (m n))`
ends in. -/
theorem ftime_loop_run_eq (max_count max_samples : Nat) (epsilon : ℚ)
    (correct_overhead : Bool) (overhead : ℚ) (bracket : Nat → Nat → ℚ) (m : Nat → Nat)
    (fuel : Nat)
    (hm : ∀ n, 1 ≤ n → n ≤ max_samples →
      (∀ i, i < m n → remeasure_test overhead (bracket n i) = true)
      ∧ remeasure_test overhead (bracket n (m n)) = false ∧ m n < fuel)
    (s : Session) (hs : s.nsamples < max_samples) :
    ftime_loop_run max_count max_samples epsilon correct_overhead overhead bracket fuel s
      = some (ftime_loop max_count max_samples epsilon correct_overhead overhead
          (fun n => bracket n (m n) / (1 + 2 * (m n : ℚ))) s) := by
  induction s using ftime_loop.induct max_count max_samples epsilon correct_overhead
    overhead (fun n => bracket n (m n) / (1 + 2 * (m n : ℚ))) with
  | case1 x s1 hc ih =>
    unfold s1 at hc ih
    obtain ⟨h1, h2, h3⟩ := hm (x.nsamples + 1) (by omega) (by omega)
    rw [ftime_loop_run, per_call_timing_of_exit overhead _ _ fuel h1 h2 h3]
    have e : trial max_count epsilon correct_overhead overhead
        (fun _ => bracket (x.nsamples + 1) (m (x.nsamples + 1))
          / (1 + 2 * (m (x.nsamples + 1) : ℚ))) x
        = trial max_count epsilon correct_overhead overhead
          (fun n => bracket n (m n) / (1 + 2 * (m n : ℚ))) x := rfl
    have e2 : ftime_loop max_count max_samples epsilon correct_overhead overhead
        (fun n => bracket n (m n) / (1 + 2 * (m n : ℚ))) x
        = ftime_loop max_count max_samples epsilon correct_overhead overhead
          (fun n => bracket n (m n) / (1 + 2 * (m n : ℚ)))
          (trial max_count epsilon correct_overhead overhead
            (fun n => bracket n (m n) / (1 + 2 * (m n : ℚ))) x) := by
      rw [ftime_loop, if_pos hc]
    simp only [e]
    rw [if_pos hc, ih hc.1, e2]
  | case2 x s1 hc =>
    unfold s1 at hc
    obtain ⟨h1, h2, h3⟩ := hm (x.nsamples + 1) (by omega) (by omega)
    rw [ftime_loop_run, per_call_timing_of_exit overhead _ _ fuel h1 h2 h3]
    have e : trial max_count epsilon correct_overhead overhead
        (fun _ => bracket (x.nsamples + 1) (m (x.nsamples + 1))
          / (1 + 2 * (m (x.nsamples + 1) : ℚ))) x
        = trial max_count epsilon correct_overhead overhead
          (fun n => bracket n (m n) / (1 + 2 * (m n : ℚ))) x := rfl
    have e2 : ftime_loop max_count max_samples epsilon correct_overhead overhead
        (fun n => bracket n (m n) / (1 + 2 * (m n : ℚ))) x
        = trial max_count epsilon correct_overhead overhead
            (fun n => bracket n (m n) / (1 + 2 * (m n : ℚ))) x := by
      rw [ftime_loop, if_neg hc]
    simp only [e]
    rw [if_neg hc, e2]

/-- C9: for every `max_count ≥ max_samples ≥ 1`, every `epsilon` and overhead
setting, and every sequence of timings, `ftime` performs exactly
`max_samples` trials and then returns.  With the measurement of each trial
inside the model: whenever each of the trials `1 .. max_samples` reaches a
bracket that fails the test of its re-measurement loop (bracket `m n` of
trial `n`, within the fuel), `ftime` returns `values[0]` after exactly
`max_samples` trials and `max_samples` calls of `add_sample`, whatever the
times measured; and on the per-trial timings alone the session runs exactly
`max_samples` trials for every sequence `timing`. -/
theorem ftime_trials_eq_max_samples (max_count max_samples : Nat) (epsilon : ℚ)
    (correct_overhead : Bool) (overhead : ℚ) (bracket : Nat → Nat → ℚ) (m : Nat → Nat)
    (fuel : Nat) (timing : Nat → ℚ)
    (hs : 1 ≤ max_samples) (hc : max_samples ≤ max_count)
    (hm : ∀ n, 1 ≤ n → n ≤ max_samples →
      (∀ i, i < m n → remeasure_test overhead (bracket n i) = true)
      ∧ remeasure_test overhead (bracket n (m n)) = false ∧ m n < fuel) :
    (∃ r : Session,
        ftime_session_run max_count max_samples epsilon correct_overhead overhead bracket fuel
          = some r
        ∧ ftime_run max_count max_samples epsilon correct_overhead overhead bracket fuel
          = some (r.values.getD 0 0)
        ∧ r.nsamples = max_samples ∧ r.samples.length = max_samples
        ∧ r = ftime_session max_count max_samples epsilon correct_overhead overhead
            (fun n => bracket n (m n) / (1 + 2 * (m n : ℚ))))
    ∧ (ftime_session max_count max_samples epsilon correct_overhead overhead timing).nsamples
        = max_samples
    ∧ (ftime_session max_count max_samples epsilon correct_overhead overhead
        timing).samples.length = max_samples := by
  have cap : ∀ t : Nat → ℚ,
      (ftime_session max_count max_samples epsilon correct_overhead overhead t).nsamples
        = max_samples
      ∧ (ftime_session max_count max_samples epsilon correct_overhead overhead
          t).samples.length = max_samples := by
    intro t
    have h := ftime_loop_cap max_count max_samples epsilon correct_overhead overhead t
      { values := init_values max_count, nsamples := 0, stop := false, samples := [] }
      hc hs rfl
    have h2 := ftime_loop_bounds max_count max_samples epsilon correct_overhead overhead t
      { values := init_values max_count, nsamples := 0, stop := false, samples := [] }
    unfold ftime_session
    simp only [List.length_nil, Nat.add_zero, Nat.zero_add] at h2
    exact ⟨h, h2.2.2.trans h⟩
  have hrun : ftime_session_run max_count max_samples epsilon correct_overhead overhead
      bracket fuel
      = some (ftime_session max_count max_samples epsilon correct_overhead overhead
          (fun n => bracket n (m n) / (1 + 2 * (m n : ℚ)))) := by
    unfold ftime_session_run ftime_session
    exact ftime_loop_run_eq max_count max_samples epsilon correct_overhead overhead bracket m
      fuel hm _ (by simp only []; omega)
  refine ⟨⟨_, hrun, ?_, (cap _).1, (cap _).2, rfl⟩, cap timing⟩
  unfold ftime_run
  rw [hrun]
  rfl

theorem ftime_trials_eq_max_samples_witness :
    (1 ≤ 3 ∧ 3 ≤ 5
      ∧ ∀ n, 1 ≤ n → n ≤ 3 →
        (∀ i, i < (fun _ => 2) n →
          remeasure_test (1 / 4) ((fun (_ j : Nat) => 1 + 2 * (j : ℚ)) n i) = true)
        ∧ remeasure_test (1 / 4) ((fun (_ j : Nat) => 1 + 2 * (j : ℚ)) n ((fun _ => 2) n))
            = false
        ∧ (fun _ => 2) n < 3)
    ∧ ((∃ r : Session,
          ftime_session_run 5 3 0 false (1 / 4) (fun (_ j : Nat) => 1 + 2 * (j : ℚ)) 3 = some r
          ∧ ftime_run 5 3 0 false (1 / 4) (fun (_ j : Nat) => 1 + 2 * (j : ℚ)) 3
            = some (r.values.getD 0 0)
          ∧ r.nsamples = 3 ∧ r.samples.length = 3
          ∧ r = ftime_session 5 3 0 false (1 / 4)
              (fun n => (fun (_ j : Nat) => 1 + 2 * (j : ℚ)) n ((fun _ => 2) n)
                / (1 + 2 * (((fun _ => 2) n : Nat) : ℚ))))
      ∧ (ftime_session 5 3 0 false (1 / 4) (fun _ => 1)).nsamples = 3
      ∧ (ftime_session 5 3 0 false (1 / 4) (fun _ => 1)).samples.length = 3) := by
  have hm : ∀ n, 1 ≤ n → n ≤ 3 →
      (∀ i, i < (fun _ => 2) n →
        remeasure_test (1 / 4) ((fun (_ j : Nat) => 1 + 2 * (j : ℚ)) n i) = true)
      ∧ remeasure_test (1 / 4) ((fun (_ j : Nat) => 1 + 2 * (j : ℚ)) n ((fun _ => 2) n))
          = false
      ∧ (fun _ => 2) n < 3 := by
    intro n _ _
    refine ⟨?_, ?_, by norm_num⟩
    · intro i hi
      simp only at hi
      have hi2 : i = 0 ∨ i = 1 := by omega
      rcases hi2 with rfl | rfl <;> unfold remeasure_test <;> norm_num
    · unfold remeasure_test
      norm_num
  exact ⟨⟨by decide, by decide, hm⟩,
    ftime_trials_eq_max_samples 5 3 0 false (1 / 4) (fun (_ j : Nat) => 1 + 2 * (j : ℚ))
      (fun _ => 2) 3 (fun _ => 1) (by decide) (by decide) hm⟩

end Ftime

namespace Mandelbrot

/-! ## Pixels of a patch -/

theorem mem_patch_pixels (x_start y_start size x y : Int) :
    (x, y) ∈ patch_pixels x_start y_start size ↔
      x_start ≤ x ∧ x < x_start + size ∧ y_start ≤ y ∧ y < y_start + size := by
  simp only [patch_pixels, List.mem_flatMap, List.mem_map, List.mem_range, Prod.mk.injEq]
  constructor
  · rintro ⟨j, hj, i, hi, rfl, rfl⟩
    omega
  · rintro ⟨h1, h2, h3, h4⟩
    exact ⟨(y - y_start).toNat, by omega, (x - x_start).toNat, by omega, by omega, by omega⟩

theorem nodup_patch_pixels (x_start y_start size : Int) :
    (patch_pixels x_start y_start size).Nodup := by
  unfold patch_pixels
  rw [List.nodup_flatMap]
  constructor
  · intro j _
    refine List.Nodup.map ?_ (List.nodup_range _)
    intro a b h
    simp only [Prod.mk.injEq] at h
    omega
  · refine List.Pairwise.imp ?_ (List.nodup_range _)
    intro a b hab p hp hq
    simp only [List.mem_map, List.mem_range] at hp hq
    obtain ⟨i, -, rfl⟩ := hp
    obtain ⟨i2, -, h⟩ := hq
    simp only [Prod.mk.injEq] at h
    omega

theorem length_patch_pixels (x_start y_start size : Int) :
    (patch_pixels x_start y_start size).length = size.toNat * size.toNat := by
  simp [patch_pixels, List.length_flatMap, Function.comp_def]

/-- Inside one row range `0 ≤ x < xsize` the linear index `y * xsize + x`
determines the pixel. -/
theorem index_inj (xsize x y x2 y2 : Int) (hx : 0 ≤ x) (hx1 : x < xsize)
    (hx2 : 0 ≤ x2) (hx3 : x2 < xsize) (h : y * xsize + x = y2 * xsize + x2) :
    x = x2 ∧ y = y2 := by
  have e1 : (y * xsize + x) % xsize = x := by
    rw [Int.add_comm, Int.add_mul_emod_self]
    exact Int.emod_eq_of_lt hx hx1
  have e2 : (y2 * xsize + x2) % xsize = x2 := by
    rw [Int.add_comm, Int.add_mul_emod_self]
    exact Int.emod_eq_of_lt hx2 hx3
  have hxx : x = x2 := by rw [← e1, ← e2, h]
  refine ⟨hxx, ?_⟩
  subst hxx
  have h3 : y * xsize = y2 * xsize := by omega
  exact Int.eq_of_mul_eq_mul_right (by omega) h3

/-! ## Loops of stores -/

/-- After a loop whose body stores `f p` at the index of each pixel `p` of
`L`, the slot of a pixel `q` of `L` holds `f q`, provided every pixel of `L`
with the same index stores the same value. -/
theorem image_foldl_store (xsize : Int) (f : Int × Int → Int) (g : Canvas → Int × Int → Canvas)
    (hg : ∀ s p, (g s p).image = Function.update s.image (p.2 * xsize + p.1) (f p))
    (L : List (Int × Int)) (st : Canvas) (q : Int × Int) (hq : q ∈ L)
    (hsame : ∀ p ∈ L, p.2 * xsize + p.1 = q.2 * xsize + q.1 → f p = f q) :
    (L.foldl g st).image (q.2 * xsize + q.1) = f q := by
  induction L using List.reverseRecOn with
  | nil => simp at hq
  | append_singleton L p ih =>
    rw [List.foldl_append, List.foldl_cons, List.foldl_nil, hg]
    by_cases hp : p.2 * xsize + p.1 = q.2 * xsize + q.1
    · rw [← hp, Function.update_same]
      exact hsame p (by simp) hp
    · rw [Function.update_noteq (Ne.symm hp)]
      have hq2 : q ∈ L := by
        rcases List.mem_append.mp hq with h | h
        · exact h
        · simp only [List.mem_singleton] at h
          subst h
          exact absurd rfl hp
      exact ih hq2 (fun p2 hp2 => hsame p2 (List.mem_append_left _ hp2))

/-- A loop of stores leaves every slot that is not the index of a pixel of
`L` unchanged. -/
theorem image_foldl_store_frame (xsize : Int) (f : Int × Int → Int)
    (g : Canvas → Int × Int → Canvas)
    (hg : ∀ s p, (g s p).image = Function.update s.image (p.2 * xsize + p.1) (f p))
    (L : List (Int × Int)) (st : Canvas) (idx : Int)
    (hidx : ∀ p ∈ L, p.2 * xsize + p.1 ≠ idx) :
    (L.foldl g st).image idx = st.image idx := by
  induction L using List.reverseRecOn with
  | nil => rfl
  | append_singleton L p ih =>
    rw [List.foldl_append, List.foldl_cons, List.foldl_nil, hg,
      Function.update_noteq (Ne.symm (hidx p (by simp)))]
    exact ih (fun p2 hp2 => hidx p2 (List.mem_append_left _ hp2))

theorem writes_foldl_store (f : Int × Int → Int) (g : Canvas → Int × Int → Canvas)
    (hg : ∀ s p, (g s p).writes = s.writes ++ [(p.1, p.2, f p)])
    (L : List (Int × Int)) (st : Canvas) :
    (L.foldl g st).writes = st.writes ++ L.map (fun p => (p.1, p.2, f p)) := by
  induction L using List.reverseRecOn with
  | nil => simp
  | append_singleton L p ih =>
    rw [List.foldl_append, List.foldl_cons, List.foldl_nil, hg, ih]
    simp

theorem recursive_calls_foldl (g : Canvas → Int × Int → Canvas)
    (hg : ∀ s p, (g s p).recursive_calls = s.recursive_calls)
    (L : List (Int × Int)) (st : Canvas) :
    (L.foldl g st).recursive_calls = st.recursive_calls := by
  induction L using List.reverseRecOn with
  | nil => rfl
  | append_singleton L p ih =>
    rw [List.foldl_append, List.foldl_cons, List.foldl_nil, hg, ih]

theorem evals_foldl_same (g : Canvas → Int × Int → Canvas)
    (hg : ∀ s p, (g s p).evals = s.evals)
    (L : List (Int × Int)) (st : Canvas) :
    (L.foldl g st).evals = st.evals := by
  induction L using List.reverseRecOn with
  | nil => rfl
  | append_singleton L p ih =>
    rw [List.foldl_append, List.foldl_cons, List.foldl_nil, hg, ih]

theorem evals_foldl_log (g : Canvas → Int × Int → Canvas)
    (hg : ∀ s p, (g s p).evals = s.evals ++ [p])
    (L : List (Int × Int)) (st : Canvas) :
    (L.foldl g st).evals = st.evals ++ L := by
  induction L using List.reverseRecOn with
  | nil => simp
  | append_singleton L p ih =>
    rw [List.foldl_append, List.foldl_cons, List.foldl_nil, hg, ih]
    simp

/-! ## The border pass -/

theorem foldl_border_step (vs : List Int) (b : Border) :
    (vs.foldl border_step b).all_in
        = (b.all_in && vs.all (fun v => decide (v = -1 ∨ v = 0)))
    ∧ (vs.foldl border_step b).all_out = (b.all_out && vs.all (fun v => decide (v ≠ 0)))
    ∧ (vs.foldl border_step b).total_border_iter
        = b.total_border_iter + (vs.filter (fun v => decide (v ≠ -1))).sum
    ∧ (vs.foldl border_step b).border_points
        = b.border_points + ((vs.filter (fun v => decide (v ≠ -1))).length : Int)
    ∧ (vs.foldl border_step b).evals = b.evals := by
  induction vs generalizing b with
  | nil => simp
  | cons v vs ih =>
    rw [List.foldl_cons]
    obtain ⟨h1, h2, h3, h4, h5⟩ := ih (border_step b v)
    rw [h1, h2, h3, h4, h5]
    by_cases hv : v = -1
    · subst hv
      simp [border_step]
    · by_cases h0 : v = 0
      · subst h0
        simp [border_step]
        ring
      · simp [border_step, hv, h0, List.filter_cons]
        constructor <;> ring

theorem border_iter_spec (mandelbrot_point : ℚ → ℚ → Int)
    (x_start y_start xsize ysize size : Int) (b : Border) (i : Int) :
    (border_iter mandelbrot_point x_start y_start xsize ysize size b i).all_in
        = (b.all_in && ((iter_evals x_start y_start size i).map
            (pixel_value mandelbrot_point xsize ysize)).all (fun v => decide (v = -1 ∨ v = 0)))
    ∧ (border_iter mandelbrot_point x_start y_start xsize ysize size b i).all_out
        = (b.all_out && ((iter_evals x_start y_start size i).map
            (pixel_value mandelbrot_point xsize ysize)).all (fun v => decide (v ≠ 0)))
    ∧ (border_iter mandelbrot_point x_start y_start xsize ysize size b i).total_border_iter
        = b.total_border_iter + (((iter_evals x_start y_start size i).map
            (pixel_value mandelbrot_point xsize ysize)).filter (fun v => decide (v ≠ -1))).sum
    ∧ (border_iter mandelbrot_point x_start y_start xsize ysize size b i).border_points
        = b.border_points + ((((iter_evals x_start y_start size i).map
            (pixel_value mandelbrot_point xsize ysize)).filter
              (fun v => decide (v ≠ -1))).length : Int)
    ∧ (border_iter mandelbrot_point x_start y_start xsize ysize size b i).evals
        = b.evals ++ iter_evals x_start y_start size i := by
  unfold border_iter
  simp only []
  obtain ⟨h1, h2, h3, h4, h5⟩ := foldl_border_step
    [mandelbrot_point (plane_x xsize (x_start + i)) (plane_y ysize y_start),
     mandelbrot_point (plane_x xsize (x_start + i)) (plane_y ysize (y_start + size - 1)),
     if i > 0 ∧ i < size - 1 then
       mandelbrot_point (plane_x xsize x_start) (plane_y ysize (y_start + i)) else -1,
     if i > 0 ∧ i < size - 1 then
       mandelbrot_point (plane_x xsize (x_start + size - 1)) (plane_y ysize (y_start + i))
     else -1]
    { b with evals := b.evals ++ iter_evals x_start y_start size i }
  rw [h1, h2, h3, h4, h5]
  have e : ∀ a c : Int, List.filter (fun v => !decide (v = -1)) [a, c, -1, -1]
      = List.filter (fun v => !decide (v = -1)) [a, c] := by
    intro a c
    have h : ([a, c, -1, -1] : List Int) = [a, c] ++ [-1, -1] := rfl
    rw [h, List.filter_append]
    simp
  by_cases hc : i > 0 ∧ i < size - 1
  · simp [iter_evals, pixel_value, hc]
  · simp [iter_evals, pixel_value, hc, e]

theorem border_fold_spec (mandelbrot_point : ℚ → ℚ → Int)
    (x_start y_start xsize ysize size : Int) (is : List Nat) (b : Border) :
    (is.foldl (fun (b : Border) (i : Nat) =>
        border_iter mandelbrot_point x_start y_start xsize ysize size b (i : Int)) b).all_in
      = (b.all_in && ((is.flatMap fun (i : Nat) => iter_evals x_start y_start size (i : Int)).map
          (pixel_value mandelbrot_point xsize ysize)).all (fun v => decide (v = -1 ∨ v = 0)))
    ∧ (is.foldl (fun (b : Border) (i : Nat) =>
        border_iter mandelbrot_point x_start y_start xsize ysize size b (i : Int)) b).all_out
      = (b.all_out && ((is.flatMap fun (i : Nat) => iter_evals x_start y_start size (i : Int)).map
          (pixel_value mandelbrot_point xsize ysize)).all (fun v => decide (v ≠ 0)))
    ∧ (is.foldl (fun (b : Border) (i : Nat) =>
        border_iter mandelbrot_point x_start y_start xsize ysize size b (i : Int)) b).total_border_iter
      = b.total_border_iter
        + (((is.flatMap fun (i : Nat) => iter_evals x_start y_start size (i : Int)).map
          (pixel_value mandelbrot_point xsize ysize)).filter (fun v => decide (v ≠ -1))).sum
    ∧ (is.foldl (fun (b : Border) (i : Nat) =>
        border_iter mandelbrot_point x_start y_start xsize ysize size b (i : Int)) b).border_points
      = b.border_points
        + ((((is.flatMap fun (i : Nat) => iter_evals x_start y_start size (i : Int)).map
          (pixel_value mandelbrot_point xsize ysize)).filter
            (fun v => decide (v ≠ -1))).length : Int)
    ∧ (is.foldl (fun (b : Border) (i : Nat) =>
        border_iter mandelbrot_point x_start y_start xsize ysize size b (i : Int)) b).evals
      = b.evals ++ is.flatMap fun (i : Nat) => iter_evals x_start y_start size (i : Int) := by
  induction is generalizing b with
  | nil => simp
  | cons i is ih =>
    rw [List.foldl_cons]
    obtain ⟨h1, h2, h3, h4, h5⟩ :=
      ih (border_iter mandelbrot_point x_start y_start xsize ysize size b (i : Int))
    obtain ⟨g1, g2, g3, g4, g5⟩ :=
      border_iter_spec mandelbrot_point x_start y_start xsize ysize size b (i : Int)
    rw [h1, h2, h3, h4, h5, g1, g2, g3, g4, g5]
    simp only [List.flatMap_cons, List.map_append, List.all_append, List.filter_append,
      List.sum_append, List.length_append, Bool.and_assoc, List.append_assoc, Nat.cast_add]
    refine ⟨trivial, trivial, by ring, by ring, trivial⟩

/-- The accumulators of the border pass, in terms of the kernel values at the
evaluated pixels. -/
theorem border_pass_spec (mandelbrot_point : ℚ → ℚ → Int)
    (x_start y_start xsize ysize size : Int) :
    (border_pass mandelbrot_point x_start y_start xsize ysize size).all_in
      = ((border_evals x_start y_start size).map
          (pixel_value mandelbrot_point xsize ysize)).all (fun v => decide (v = -1 ∨ v = 0))
    ∧ (border_pass mandelbrot_point x_start y_start xsize ysize size).all_out
      = ((border_evals x_start y_start size).map
          (pixel_value mandelbrot_point xsize ysize)).all (fun v => decide (v ≠ 0))
    ∧ (border_pass mandelbrot_point x_start y_start xsize ysize size).total_border_iter
      = (((border_evals x_start y_start size).map
          (pixel_value mandelbrot_point xsize ysize)).filter (fun v => decide (v ≠ -1))).sum
    ∧ (border_pass mandelbrot_point x_start y_start xsize ysize size).border_points
      = ((((border_evals x_start y_start size).map
          (pixel_value mandelbrot_point xsize ysize)).filter
            (fun v => decide (v ≠ -1))).length : Int)
    ∧ (border_pass mandelbrot_point x_start y_start xsize ysize size).evals
      = border_evals x_start y_start size := by
  obtain ⟨h1, h2, h3, h4, h5⟩ := border_fold_spec mandelbrot_point x_start y_start xsize ysize
    size (List.range size.toNat)
    { all_in := true, all_out := true, total_border_iter := 0, border_points := 0, evals := [] }
  unfold border_pass border_evals
  rw [h1, h2, h3, h4, h5]
  simp

theorem mem_border_evals (x_start y_start size x y : Int) :
    (x, y) ∈ border_evals x_start y_start size ↔
      (x_start ≤ x ∧ x < x_start + size ∧ y_start ≤ y ∧ y < y_start + size)
      ∧ (x = x_start ∨ x = x_start + size - 1 ∨ y = y_start ∨ y = y_start + size - 1) := by
  simp only [border_evals, List.mem_flatMap, List.mem_range, iter_evals, List.mem_append,
    List.mem_cons, Prod.mk.injEq, List.mem_singleton, List.not_mem_nil, or_false]
  constructor
  · rintro ⟨i, hi, h⟩
    by_cases hc : (i : Int) > 0 ∧ (i : Int) < size - 1
    · rw [if_pos hc] at h
      simp only [List.mem_cons, Prod.mk.injEq, List.mem_singleton, List.not_mem_nil,
        or_false] at h
      omega
    · rw [if_neg hc] at h
      simp only [List.not_mem_nil, or_false] at h
      omega
  · rintro ⟨⟨h1, h2, h3, h4⟩, hb⟩
    by_cases hy : y = y_start ∨ y = y_start + size - 1
    · refine ⟨(x - x_start).toNat, by omega, Or.inl ?_⟩
      have : ((x - x_start).toNat : Int) = x - x_start := Int.toNat_of_nonneg (by omega)
      rw [this]
      omega
    · have hc : ((y - y_start).toNat : Int) > 0 ∧ ((y - y_start).toNat : Int) < size - 1 := by
        omega
      refine ⟨(y - y_start).toNat, by omega, Or.inr ?_⟩
      rw [if_pos hc]
      simp only [List.mem_cons, Prod.mk.injEq, List.mem_singleton, List.not_mem_nil, or_false]
      have : ((y - y_start).toNat : Int) = y - y_start := Int.toNat_of_nonneg (by omega)
      rw [this]
      omega

theorem mem_border_pixels (x_start y_start size x y : Int) :
    (x, y) ∈ border_pixels x_start y_start size ↔
      (x_start ≤ x ∧ x < x_start + size ∧ y_start ≤ y ∧ y < y_start + size)
      ∧ (x = x_start ∨ x = x_start + size - 1 ∨ y = y_start ∨ y = y_start + size - 1) := by
  simp [border_pixels, List.mem_filter, mem_patch_pixels, is_border]

theorem nodup_border_pixels (x_start y_start size : Int) :
    (border_pixels x_start y_start size).Nodup :=
  List.Nodup.filter _ (nodup_patch_pixels x_start y_start size)

theorem nodup_iter_evals (x_start y_start size i : Int) (hs : size ≠ 1) :
    (iter_evals x_start y_start size i).Nodup := by
  unfold iter_evals
  by_cases hc : i > 0 ∧ i < size - 1
  · rw [if_pos hc]
    simp only [List.cons_append, List.nil_append, List.nodup_cons, List.mem_cons,
      Prod.mk.injEq, List.mem_singleton, List.not_mem_nil, List.nodup_nil, and_true,
      not_or, not_and, not_false_eq_true]
    omega
  · rw [if_neg hc]
    simp only [List.append_nil, List.nodup_cons, List.mem_singleton, Prod.mk.injEq,
      List.not_mem_nil, List.nodup_nil, and_true, not_and, not_false_eq_true]
    omega

theorem nodup_border_evals (x_start y_start size : Int) (hs : size ≠ 1) :
    (border_evals x_start y_start size).Nodup := by
  unfold border_evals
  rw [List.nodup_flatMap]
  constructor
  · intro i _
    exact nodup_iter_evals x_start y_start size i hs
  · refine List.Pairwise.imp ?_ (List.nodup_range _)
    intro a c hac p hp hq
    obtain ⟨x, y⟩ := p
    unfold iter_evals at hp hq
    beta_reduce at hp hq
    have hne : (a : Int) ≠ (c : Int) := by omega
    by_cases h1 : (a : Int) > 0 ∧ (a : Int) < size - 1
    · rw [if_pos h1] at hp
      by_cases h2 : (c : Int) > 0 ∧ (c : Int) < size - 1
      · rw [if_pos h2] at hq
        simp only [List.mem_append, List.mem_cons, Prod.mk.injEq, List.mem_singleton,
          List.not_mem_nil, or_false] at hp hq
        omega
      · rw [if_neg h2] at hq
        simp only [List.mem_append, List.mem_cons, Prod.mk.injEq, List.mem_singleton,
          List.not_mem_nil, or_false] at hp hq
        omega
    · rw [if_neg h1] at hp
      by_cases h2 : (c : Int) > 0 ∧ (c : Int) < size - 1
      · rw [if_pos h2] at hq
        simp only [List.mem_append, List.mem_cons, Prod.mk.injEq, List.mem_singleton,
          List.not_mem_nil, or_false] at hp hq
        omega
      · rw [if_neg h2] at hq
        simp only [List.mem_append, List.mem_cons, Prod.mk.injEq, List.mem_singleton,
          List.not_mem_nil, or_false] at hp hq
        omega

/-- For a patch of side at least 2 the border pass evaluates exactly the
distinct border pixels, each once. -/
theorem border_evals_perm (x_start y_start size : Int) (hs : size ≠ 1) :
    (border_evals x_start y_start size).Perm (border_pixels x_start y_start size) := by
  rw [List.perm_ext_iff_of_nodup (nodup_border_evals x_start y_start size hs)
    (nodup_border_pixels x_start y_start size)]
  rintro ⟨x, y⟩
  rw [mem_border_evals, mem_border_pixels]

/-! ## The branches of `compute_patch` -/

theorem compute_patch_all_in (mandelbrot_point : ℚ → ℚ → Int) (st : Canvas)
    (x_start y_start xsize ysize size : Int)
    (h : (border_pass mandelbrot_point x_start y_start xsize ysize size).all_in = true) :
    compute_patch mandelbrot_point st x_start y_start xsize ysize size
      = fill_patch { st with evals := st.evals ++ border_evals x_start y_start size }
          x_start y_start xsize size 0 := by
  rw [compute_patch]
  simp only [h, if_true]
  rw [(border_pass_spec mandelbrot_point x_start y_start xsize ysize size).2.2.2.2]

theorem compute_patch_all_out (mandelbrot_point : ℚ → ℚ → Int) (st : Canvas)
    (x_start y_start xsize ysize size : Int)
    (h : (border_pass mandelbrot_point x_start y_start xsize ysize size).all_in = false)
    (h2 : (border_pass mandelbrot_point x_start y_start xsize ysize size).all_out = true) :
    compute_patch mandelbrot_point st x_start y_start xsize ysize size
      = fill_patch { st with evals := st.evals ++ border_evals x_start y_start size }
          x_start y_start xsize size
          (avg_iter (border_pass mandelbrot_point x_start y_start xsize ysize size)) := by
  rw [compute_patch]
  simp only [h, h2, if_true, Bool.false_eq_true, if_false]
  rw [(border_pass_spec mandelbrot_point x_start y_start xsize ysize size).2.2.2.2]

theorem compute_patch_direct (mandelbrot_point : ℚ → ℚ → Int) (st : Canvas)
    (x_start y_start xsize ysize size : Int)
    (h : (border_pass mandelbrot_point x_start y_start xsize ysize size).all_in = false)
    (h2 : (border_pass mandelbrot_point x_start y_start xsize ysize size).all_out = false)
    (h3 : size ≤ 8) :
    compute_patch mandelbrot_point st x_start y_start xsize ysize size
      = direct_patch mandelbrot_point
          { st with evals := st.evals ++ border_evals x_start y_start size }
          x_start y_start xsize ysize size := by
  rw [compute_patch]
  simp only [h, h2, h3, if_true, Bool.false_eq_true, if_false]
  rw [(border_pass_spec mandelbrot_point x_start y_start xsize ysize size).2.2.2.2]

theorem compute_patch_rec (mandelbrot_point : ℚ → ℚ → Int) (st : Canvas)
    (x_start y_start xsize ysize size : Int)
    (h : (border_pass mandelbrot_point x_start y_start xsize ysize size).all_in = false)
    (h2 : (border_pass mandelbrot_point x_start y_start xsize ysize size).all_out = false)
    (h3 : 8 < size) :
    compute_patch mandelbrot_point st x_start y_start xsize ysize size
      = compute_patch mandelbrot_point (enter_call
          (compute_patch mandelbrot_point (enter_call
            (compute_patch mandelbrot_point (enter_call
              (compute_patch mandelbrot_point (enter_call
                { st with evals := st.evals ++ border_evals x_start y_start size })
                x_start y_start xsize ysize (Int.tdiv size 2)))
              (x_start + Int.tdiv size 2) y_start xsize ysize (Int.tdiv size 2)))
            x_start (y_start + Int.tdiv size 2) xsize ysize (Int.tdiv size 2)))
          (x_start + Int.tdiv size 2) (y_start + Int.tdiv size 2) xsize ysize
          (Int.tdiv size 2) := by
  have h4 : ¬ size ≤ 8 := by omega
  rw [compute_patch]
  simp only [h, h2, h4, Bool.false_eq_true, if_false]
  rw [(border_pass_spec mandelbrot_point x_start y_start xsize ysize size).2.2.2.2]

/-! ## Effects of the fill and direct-evaluation loops -/

theorem fill_patch_writes (st : Canvas) (x_start y_start xsize size v : Int) :
    (fill_patch st x_start y_start xsize size v).writes
      = st.writes ++ (patch_pixels x_start y_start size).map (fun p => (p.1, p.2, v)) :=
  writes_foldl_store (fun _ => v) _ (fun _ _ => rfl) _ st

theorem fill_patch_evals (st : Canvas) (x_start y_start xsize size v : Int) :
    (fill_patch st x_start y_start xsize size v).evals = st.evals :=
  evals_foldl_same (fun s p => store s xsize p.1 p.2 v) (fun _ _ => rfl) _ st

theorem fill_patch_recursive_calls (st : Canvas) (x_start y_start xsize size v : Int) :
    (fill_patch st x_start y_start xsize size v).recursive_calls = st.recursive_calls :=
  recursive_calls_foldl (fun s p => store s xsize p.1 p.2 v) (fun _ _ => rfl) _ st

theorem fill_patch_image (st : Canvas) (x_start y_start xsize size v : Int)
    (p : Int × Int) (hp : p ∈ patch_pixels x_start y_start size) :
    (fill_patch st x_start y_start xsize size v).image (p.2 * xsize + p.1) = v :=
  image_foldl_store xsize (fun _ => v) _ (fun _ _ => rfl) _ st p hp (fun _ _ _ => rfl)

theorem direct_patch_writes (mandelbrot_point : ℚ → ℚ → Int) (st : Canvas)
    (x_start y_start xsize ysize size : Int) :
    (direct_patch mandelbrot_point st x_start y_start xsize ysize size).writes
      = st.writes ++ (patch_pixels x_start y_start size).map
          (fun p => (p.1, p.2, pixel_value mandelbrot_point xsize ysize p)) :=
  writes_foldl_store (pixel_value mandelbrot_point xsize ysize) _ (fun _ _ => rfl) _ st

theorem direct_patch_evals (mandelbrot_point : ℚ → ℚ → Int) (st : Canvas)
    (x_start y_start xsize ysize size : Int) :
    (direct_patch mandelbrot_point st x_start y_start xsize ysize size).evals
      = st.evals ++ patch_pixels x_start y_start size :=
  evals_foldl_log _ (fun _ _ => rfl) _ st

theorem direct_patch_recursive_calls (mandelbrot_point : ℚ → ℚ → Int) (st : Canvas)
    (x_start y_start xsize ysize size : Int) :
    (direct_patch mandelbrot_point st x_start y_start xsize ysize size).recursive_calls
      = st.recursive_calls :=
  recursive_calls_foldl
    (fun s p => store { s with evals := s.evals ++ [p] } xsize p.1 p.2
      (mandelbrot_point (plane_x xsize p.1) (plane_y ysize p.2)))
    (fun _ _ => rfl) _ st

theorem direct_patch_image (mandelbrot_point : ℚ → ℚ → Int) (st : Canvas)
    (x_start y_start xsize ysize size : Int) (hx : 0 ≤ x_start) (hx2 : x_start + size ≤ xsize)
    (p : Int × Int) (hp : p ∈ patch_pixels x_start y_start size) :
    (direct_patch mandelbrot_point st x_start y_start xsize ysize size).image
      (p.2 * xsize + p.1) = pixel_value mandelbrot_point xsize ysize p := by
  refine image_foldl_store xsize (pixel_value mandelbrot_point xsize ysize) _
    (fun _ _ => rfl) _ st p hp ?_
  intro q hq hidx
  obtain ⟨x, y⟩ := p
  obtain ⟨x2, y2⟩ := q
  rw [mem_patch_pixels] at hp hq
  have := index_inj xsize x2 y2 x y (by omega) (by omega) (by omega) (by omega) hidx
  rw [this.1, this.2]

/-! ## Classification of the border -/

theorem mem_border_evals_iff (x_start y_start size : Int) (p : Int × Int) :
    p ∈ border_evals x_start y_start size ↔ p ∈ border_pixels x_start y_start size := by
  obtain ⟨x, y⟩ := p
  rw [mem_border_evals, mem_border_pixels]

theorem corner_mem_border_pixels (x_start y_start size : Int) (hs : 1 ≤ size) :
    (x_start, y_start) ∈ border_pixels x_start y_start size := by
  rw [mem_border_pixels]
  omega

theorem border_pixels_subset (x_start y_start size : Int) (p : Int × Int)
    (hp : p ∈ border_pixels x_start y_start size) : p ∈ patch_pixels x_start y_start size :=
  (List.mem_filter.mp hp).1

theorem all_in_of_border_zero (mandelbrot_point : ℚ → ℚ → Int)
    (x_start y_start xsize ysize size : Int)
    (hb : ∀ p ∈ border_pixels x_start y_start size,
      pixel_value mandelbrot_point xsize ysize p = 0) :
    (border_pass mandelbrot_point x_start y_start xsize ysize size).all_in = true := by
  rw [(border_pass_spec mandelbrot_point x_start y_start xsize ysize size).1, List.all_eq_true]
  intro v hv
  obtain ⟨p, hp, rfl⟩ := List.mem_map.mp hv
  rw [hb p ((mem_border_evals_iff _ _ _ p).mp hp)]
  decide

theorem all_in_false_of_border_pos (mandelbrot_point : ℚ → ℚ → Int)
    (x_start y_start xsize ysize size : Int)
    (hq : ∃ q ∈ border_pixels x_start y_start size,
      0 < pixel_value mandelbrot_point xsize ysize q) :
    (border_pass mandelbrot_point x_start y_start xsize ysize size).all_in = false := by
  obtain ⟨q, hq, hpos⟩ := hq
  rw [(border_pass_spec mandelbrot_point x_start y_start xsize ysize size).1]
  apply Bool.eq_false_iff.mpr
  intro hall
  rw [List.all_eq_true] at hall
  have := hall _ (List.mem_map.mpr ⟨q, (mem_border_evals_iff _ _ _ q).mpr hq, rfl⟩)
  simp only [decide_eq_true_eq] at this
  omega

theorem all_out_false_of_border_zero (mandelbrot_point : ℚ → ℚ → Int)
    (x_start y_start xsize ysize size : Int)
    (hp : ∃ p ∈ border_pixels x_start y_start size,
      pixel_value mandelbrot_point xsize ysize p = 0) :
    (border_pass mandelbrot_point x_start y_start xsize ysize size).all_out = false := by
  obtain ⟨p, hp, hz⟩ := hp
  rw [(border_pass_spec mandelbrot_point x_start y_start xsize ysize size).2.1]
  apply Bool.eq_false_iff.mpr
  intro hall
  rw [List.all_eq_true] at hall
  have := hall _ (List.mem_map.mpr ⟨p, (mem_border_evals_iff _ _ _ p).mpr hp, rfl⟩)
  simp only [decide_eq_true_eq] at this
  exact this hz

theorem all_out_of_border_pos (mandelbrot_point : ℚ → ℚ → Int)
    (x_start y_start xsize ysize size : Int)
    (hb : ∀ p ∈ border_pixels x_start y_start size,
      0 < pixel_value mandelbrot_point xsize ysize p) :
    (border_pass mandelbrot_point x_start y_start xsize ysize size).all_out = true := by
  rw [(border_pass_spec mandelbrot_point x_start y_start xsize ysize size).2.1, List.all_eq_true]
  intro v hv
  obtain ⟨p, hp, rfl⟩ := List.mem_map.mp hv
  have := hb p ((mem_border_evals_iff _ _ _ p).mp hp)
  simp only [decide_eq_true_eq]
  omega

/-- When no evaluated border value is the sentinel `-1`, the totals of the
border pass are the plain sum and count over the evaluated pixels. -/
theorem border_totals_of_pos (mandelbrot_point : ℚ → ℚ → Int)
    (x_start y_start xsize ysize size : Int)
    (hb : ∀ p ∈ border_pixels x_start y_start size,
      0 < pixel_value mandelbrot_point xsize ysize p) :
    (border_pass mandelbrot_point x_start y_start xsize ysize size).total_border_iter
      = ((border_evals x_start y_start size).map
          (pixel_value mandelbrot_point xsize ysize)).sum
    ∧ (border_pass mandelbrot_point x_start y_start xsize ysize size).border_points
      = ((border_evals x_start y_start size).length : Int) := by
  have hf : ((border_evals x_start y_start size).map
      (pixel_value mandelbrot_point xsize ysize)).filter (fun v => decide (v ≠ -1))
      = (border_evals x_start y_start size).map (pixel_value mandelbrot_point xsize ysize) := by
    rw [List.filter_eq_self]
    intro v hv
    obtain ⟨p, hp, rfl⟩ := List.mem_map.mp hv
    have := hb p ((mem_border_evals_iff _ _ _ p).mp hp)
    simp only [decide_eq_true_eq]
    omega
  obtain ⟨-, -, h3, h4, -⟩ := border_pass_spec mandelbrot_point x_start y_start xsize ysize size
  rw [h3, h4, hf, List.length_map]
  exact ⟨rfl, rfl⟩

theorem length_le_sum_of_pos (l : List Int) (h : ∀ v ∈ l, 0 < v) :
    (l.length : Int) ≤ l.sum := by
  induction l with
  | nil => simp
  | cons a l ih =>
    have h1 := h a (by simp)
    have h2 := ih (fun v hv => h v (List.mem_cons_of_mem _ hv))
    simp only [List.length_cons, List.sum_cons, Nat.cast_add, Nat.cast_one]
    omega

/-- Number of kernel evaluations of the first `m` iterations of the border
loop, for a patch of side at least 2. -/
theorem length_border_upto (x_start y_start size : Int) (hs : 2 ≤ size) (m : Nat)
    (hm : (m : Int) ≤ size) :
    ((((List.range m).flatMap fun (i : Nat) =>
        iter_evals x_start y_start size (i : Int)).length : Nat) : Int)
      = 2 * m + 2 * (min ((m : Int) - 1) (size - 2)) + (if m = 0 then 2 else 0) := by
  induction m with
  | zero => simp; omega
  | succ m ih =>
    have ih2 := ih (by omega)
    rw [List.range_succ, List.flatMap_append, List.length_append, Nat.cast_add, ih2]
    simp only [List.flatMap_cons, List.flatMap_nil, List.append_nil]
    unfold iter_evals
    by_cases hc : (m : Int) > 0 ∧ (m : Int) < size - 1
    · rw [if_pos hc]
      simp only [List.length_append, List.length_cons, List.length_nil]
      have h0 : m ≠ 0 := by omega
      simp only [h0, if_false, Nat.succ_ne_zero]
      push_cast
      omega
    · rw [if_neg hc]
      simp only [List.length_append, List.length_cons, List.length_nil]
      by_cases h0 : m = 0
      · subst h0
        simp
        omega
      · simp only [h0, if_false, Nat.succ_ne_zero]
        push_cast
        omega

/-- The border pass of a patch of side `size ≥ 2` calls the kernel
`4 * size - 4` times. -/
theorem length_border_evals (x_start y_start size : Int) (hs : 2 ≤ size) :
    ((border_evals x_start y_start size).length : Int) = 4 * size - 4 := by
  have h := length_border_upto x_start y_start size hs size.toNat (by omega)
  unfold border_evals
  rw [h]
  have h0 : size.toNat ≠ 0 := by omega
  simp only [h0, if_false]
  omega

/-! ## Tiling by the four sub-patches -/

theorem countP_eq_one_of_nodup {α : Type} [DecidableEq α] (L : List α) (a : α)
    (hn : L.Nodup) (ha : a ∈ L) : L.countP (fun p => decide (p = a)) = 1 := by
  induction L with
  | nil => simp at ha
  | cons b L ih =>
    rw [List.nodup_cons] at hn
    by_cases hb : b = a
    · subst hb
      have h0 : L.countP (fun p => decide (p = b)) = 0 := by
        rw [List.countP_eq_zero]
        intro p hp
        simp only [decide_eq_true_eq]
        intro hpb
        exact hn.1 (hpb ▸ hp)
      rw [List.countP_cons, h0]
      simp
    · have ha2 : a ∈ L := by
        rcases List.mem_cons.mp ha with h | h
        · exact absurd h.symm hb
        · exact h
      rw [List.countP_cons, ih hn.2 ha2]
      simp [hb]

/-- Four patches of side `n` placed at `(x, y)`, `(x + n, y)`, `(x, y + n)`,
`(x + n, y + n)` hold exactly the pixels of the patch of side `2 * n` at
`(x, y)`, each once. -/
theorem patch_tiling_perm (x_start y_start n : Int) :
    (patch_pixels x_start y_start n ++ (patch_pixels (x_start + n) y_start n
      ++ (patch_pixels x_start (y_start + n) n
      ++ patch_pixels (x_start + n) (y_start + n) n))).Perm
      (patch_pixels x_start y_start (2 * n)) := by
  have hnodup : (patch_pixels x_start y_start n ++ (patch_pixels (x_start + n) y_start n
      ++ (patch_pixels x_start (y_start + n) n
      ++ patch_pixels (x_start + n) (y_start + n) n))).Nodup := by
    refine List.Nodup.append (nodup_patch_pixels _ _ _)
      (List.Nodup.append (nodup_patch_pixels _ _ _)
        (List.Nodup.append (nodup_patch_pixels _ _ _) (nodup_patch_pixels _ _ _) ?_) ?_) ?_
    · rintro ⟨x, y⟩ h1 h2
      simp only [List.mem_append, mem_patch_pixels] at h1 h2
      omega
    · rintro ⟨x, y⟩ h1 h2
      simp only [List.mem_append, mem_patch_pixels] at h1 h2
      omega
    · rintro ⟨x, y⟩ h1 h2
      simp only [List.mem_append, mem_patch_pixels] at h1 h2
      omega
  rw [List.perm_ext_iff_of_nodup hnodup (nodup_patch_pixels _ _ _)]
  rintro ⟨x, y⟩
  simp only [List.mem_append, mem_patch_pixels]
  omega

theorem tdiv_two_pow_succ (k : Nat) : Int.tdiv ((2 : Int) ^ (k + 1)) 2 = 2 ^ k := by
  rw [Int.tdiv_eq_ediv (by positivity) (by decide), pow_succ]
  exact Int.mul_ediv_cancel _ (by decide)

theorem map_pixel_of_writes (f : Int × Int → Int) (L : List (Int × Int)) :
    (L.map (fun p => (p.1, p.2, f p))).map (fun (w : Int × Int × Int) => (w.1, w.2.1)) = L := by
  simp [List.map_map, Function.comp_def]

/-- The stores of `compute_patch` on a patch of side `2 ^ m` are appended to
the log, and the pixels they address are the pixels of the patch, each once. -/
theorem compute_patch_writes_perm (mandelbrot_point : ℚ → ℚ → Int) (xsize ysize : Int)
    (m : Nat) : ∀ (st : Canvas) (x_start y_start : Int),
    ∃ W : List (Int × Int × Int),
      (compute_patch mandelbrot_point st x_start y_start xsize ysize (2 ^ m)).writes
        = st.writes ++ W
      ∧ (W.map (fun (w : Int × Int × Int) => (w.1, w.2.1))).Perm
          (patch_pixels x_start y_start (2 ^ m)) := by
  induction m with
  | zero =>
    intro st x_start y_start
    by_cases h1 : (border_pass mandelbrot_point x_start y_start xsize ysize (2 ^ 0)).all_in = true
    · rw [compute_patch_all_in _ _ _ _ _ _ _ h1, fill_patch_writes]
      exact ⟨_, rfl, by rw [map_pixel_of_writes]⟩
    · have h1f := Bool.eq_false_iff.mpr h1
      by_cases h2 : (border_pass mandelbrot_point x_start y_start xsize ysize (2 ^ 0)).all_out
          = true
      · rw [compute_patch_all_out _ _ _ _ _ _ _ h1f h2, fill_patch_writes]
        exact ⟨_, rfl, by rw [map_pixel_of_writes]⟩
      · have h2f := Bool.eq_false_iff.mpr h2
        rw [compute_patch_direct _ _ _ _ _ _ _ h1f h2f (by norm_num), direct_patch_writes]
        exact ⟨_, rfl, by rw [map_pixel_of_writes]⟩
  | succ k ih =>
    intro st x_start y_start
    by_cases h1 : (border_pass mandelbrot_point x_start y_start xsize ysize
        (2 ^ (k + 1))).all_in = true
    · rw [compute_patch_all_in _ _ _ _ _ _ _ h1, fill_patch_writes]
      exact ⟨_, rfl, by rw [map_pixel_of_writes]⟩
    · have h1f := Bool.eq_false_iff.mpr h1
      by_cases h2 : (border_pass mandelbrot_point x_start y_start xsize ysize
          (2 ^ (k + 1))).all_out = true
      · rw [compute_patch_all_out _ _ _ _ _ _ _ h1f h2, fill_patch_writes]
        exact ⟨_, rfl, by rw [map_pixel_of_writes]⟩
      · have h2f := Bool.eq_false_iff.mpr h2
        by_cases h3 : (2 : Int) ^ (k + 1) ≤ 8
        · rw [compute_patch_direct _ _ _ _ _ _ _ h1f h2f h3, direct_patch_writes]
          exact ⟨_, rfl, by rw [map_pixel_of_writes]⟩
        · rw [compute_patch_rec _ _ _ _ _ _ _ h1f h2f (by omega), tdiv_two_pow_succ]
          obtain ⟨W1, e1, p1⟩ := ih (enter_call
            { st with evals := st.evals ++ border_evals x_start y_start (2 ^ (k + 1)) })
            x_start y_start
          obtain ⟨W2, e2, p2⟩ := ih (enter_call (compute_patch mandelbrot_point (enter_call
            { st with evals := st.evals ++ border_evals x_start y_start (2 ^ (k + 1)) })
            x_start y_start xsize ysize (2 ^ k))) (x_start + 2 ^ k) y_start
          obtain ⟨W3, e3, p3⟩ := ih (enter_call (compute_patch mandelbrot_point (enter_call
            (compute_patch mandelbrot_point (enter_call
            { st with evals := st.evals ++ border_evals x_start y_start (2 ^ (k + 1)) })
            x_start y_start xsize ysize (2 ^ k))) (x_start + 2 ^ k) y_start xsize ysize (2 ^ k)))
            x_start (y_start + 2 ^ k)
          obtain ⟨W4, e4, p4⟩ := ih (enter_call (compute_patch mandelbrot_point (enter_call
            (compute_patch mandelbrot_point (enter_call
            (compute_patch mandelbrot_point (enter_call
            { st with evals := st.evals ++ border_evals x_start y_start (2 ^ (k + 1)) })
            x_start y_start xsize ysize (2 ^ k))) (x_start + 2 ^ k) y_start xsize ysize (2 ^ k)))
            x_start (y_start + 2 ^ k) xsize ysize (2 ^ k))) (x_start + 2 ^ k) (y_start + 2 ^ k)
          refine ⟨W1 ++ (W2 ++ (W3 ++ W4)), ?_, ?_⟩
          · rw [e4]
            show (compute_patch _ _ _ _ _ _ _).writes ++ W4 = _
            rw [e3]
            show ((compute_patch _ _ _ _ _ _ _).writes ++ W3) ++ W4 = _
            rw [e2]
            show (((compute_patch _ _ _ _ _ _ _).writes ++ W2) ++ W3) ++ W4 = _
            rw [e1]
            show (((st.writes ++ W1) ++ W2) ++ W3) ++ W4 = _
            simp only [List.append_assoc]
          · rw [List.map_append, List.map_append, List.map_append]
            have ht := patch_tiling_perm x_start y_start (2 ^ k)
            have e : (2 : Int) * 2 ^ k = 2 ^ (k + 1) := by rw [pow_succ]; ring
            rw [e] at ht
            exact ((p1.append (p2.append (p3.append p4)))).trans ht

theorem border_evals_length_pos (x_start y_start size : Int) (hs : 1 ≤ size) :
    0 < (border_evals x_start y_start size).length :=
  List.length_pos_of_mem
    ((mem_border_evals_iff _ _ _ _).mpr (corner_mem_border_pixels x_start y_start size hs))

/-- The quotient formed by the `all_out` branch is the floor of the mean over
the distinct border pixels; for side 1 the single pixel is sampled twice and
the quotient is unchanged. -/
theorem border_quotient_eq_mean (mandelbrot_point : ℚ → ℚ → Int)
    (x_start y_start xsize ysize size : Int) (hs : 1 ≤ size) :
    ((border_evals x_start y_start size).map (pixel_value mandelbrot_point xsize ysize)).sum
        / ((border_evals x_start y_start size).length : Int)
      = border_mean mandelbrot_point x_start y_start xsize ysize size := by
  by_cases h1 : size = 1
  · subst h1
    have e1 : border_evals x_start y_start 1 = [(x_start, y_start), (x_start, y_start)] := by
      simp [border_evals, iter_evals, List.range_succ]
    have e2 : border_pixels x_start y_start 1 = [(x_start, y_start)] := by
      simp [border_pixels, patch_pixels, is_border, List.range_succ]
    unfold border_mean
    rw [e1, e2]
    simp only [List.map_cons, List.map_nil, List.sum_cons, List.sum_nil, List.length_cons,
      List.length_nil]
    omega
  · have hp := border_evals_perm x_start y_start size h1
    unfold border_mean
    rw [(hp.map (pixel_value mandelbrot_point xsize ysize)).sum_eq, hp.length_eq]

/-! ## Claims on the patch solver -/

/-- C2: for every point kernel and every patch of side `2 ^ m` whose columns
lie inside the canvas row (`0 ≤ x_start`, `x_start + 2 ^ m ≤ xsize`),
`compute_patch`, counted across its whole recursion, performs exactly one
store to `image[y * xsize + x]` for every pixel `(x, y)` of the patch: the
number of logged stores with that index grows by exactly one. -/
theorem compute_patch_writes_each_pixel_once (mandelbrot_point : ℚ → ℚ → Int) (st : Canvas)
    (x_start y_start xsize ysize : Int) (m : Nat)
    (hx : 0 ≤ x_start) (hx2 : x_start + 2 ^ m ≤ xsize)
    (x y : Int) (hpx : x_start ≤ x ∧ x < x_start + 2 ^ m)
    (hpy : y_start ≤ y ∧ y < y_start + 2 ^ m) :
    (compute_patch mandelbrot_point st x_start y_start xsize ysize (2 ^ m)).writes.countP
        (fun w => decide (w.2.1 * xsize + w.1 = y * xsize + x))
      = st.writes.countP (fun w => decide (w.2.1 * xsize + w.1 = y * xsize + x)) + 1 := by
  obtain ⟨W, hW, hperm⟩ :=
    compute_patch_writes_perm mandelbrot_point xsize ysize m st x_start y_start
  rw [hW, List.countP_append]
  congr 1
  have h1 : W.countP (fun w => decide (w.2.1 * xsize + w.1 = y * xsize + x))
      = (W.map (fun (w : Int × Int × Int) => (w.1, w.2.1))).countP
          (fun p => decide (p.2 * xsize + p.1 = y * xsize + x)) := by
    rw [List.countP_map]
    rfl
  rw [h1, hperm.countP_eq]
  have hmem : (x, y) ∈ patch_pixels x_start y_start (2 ^ m) :=
    (mem_patch_pixels _ _ _ _ _).mpr ⟨hpx.1, hpx.2, hpy.1, hpy.2⟩
  rw [← countP_eq_one_of_nodup _ (x, y) (nodup_patch_pixels x_start y_start (2 ^ m)) hmem]
  apply List.countP_congr
  rintro ⟨x2, y2⟩ hq
  rw [mem_patch_pixels] at hq
  simp only [decide_eq_true_eq, Prod.mk.injEq]
  constructor
  · intro h
    exact index_inj xsize x2 y2 x y (by omega) (by omega) (by omega) (by omega) h
  · rintro ⟨rfl, rfl⟩
    rfl

theorem compute_patch_writes_each_pixel_once_witness :
    ((0 : Int) ≤ 16 ∧ (16 : Int) + 2 ^ 4 ≤ 64 ∧ ((16 : Int) ≤ 25 ∧ (25 : Int) < 16 + 2 ^ 4)
      ∧ ((32 : Int) ≤ 44 ∧ (44 : Int) < 32 + 2 ^ 4))
    ∧ (compute_patch stripe_kernel (Canvas.fresh (fun _ => 7)) 16 32 64 64 (2 ^ 4)).writes.countP
        (fun w => decide (w.2.1 * 64 + w.1 = 44 * 64 + 25))
      = (Canvas.fresh (fun _ => 7)).writes.countP
          (fun w => decide (w.2.1 * 64 + w.1 = 44 * 64 + 25)) + 1 :=
  ⟨by norm_num,
    compute_patch_writes_each_pixel_once stripe_kernel (Canvas.fresh (fun _ => 7)) 16 32 64 64 4
      (by norm_num) (by norm_num) 25 44 (by norm_num) (by norm_num)⟩

/-- C4: for a patch whose side `size` is a power of two with `size ≥ 16`
and whose border is mixed, `compute_patch` is the sequence of its four
recursive calls on `sub_patches` (side `size / 2` at `(x, y)`,
`(x + size/2, y)`, `(x, y + size/2)`, `(x + size/2, y + size/2)`); these four
sub-patches are pairwise disjoint and their union is exactly the pixel set of
the parent. -/
theorem compute_patch_sub_patches_partition (mandelbrot_point : ℚ → ℚ → Int) (st : Canvas)
    (x_start y_start xsize ysize size : Int) (m : Nat)
    (hpow : size = 2 ^ m) (hs : 16 ≤ size)
    (hzero : ∃ p ∈ border_pixels x_start y_start size,
      pixel_value mandelbrot_point xsize ysize p = 0)
    (hpos : ∃ q ∈ border_pixels x_start y_start size,
      0 < pixel_value mandelbrot_point xsize ysize q) :
    compute_patch mandelbrot_point st x_start y_start xsize ysize size
      = (sub_patches x_start y_start size).foldl
          (fun s c => compute_patch mandelbrot_point (enter_call s) c.1 c.2.1 xsize ysize c.2.2)
          { st with evals := st.evals ++ border_evals x_start y_start size }
    ∧ sub_patches x_start y_start size
      = [(x_start, y_start, size / 2), (x_start + size / 2, y_start, size / 2),
         (x_start, y_start + size / 2, size / 2),
         (x_start + size / 2, y_start + size / 2, size / 2)]
    ∧ (sub_patches x_start y_start size).Pairwise
        (fun c d => List.Disjoint (patch_pixels c.1 c.2.1 c.2.2) (patch_pixels d.1 d.2.1 d.2.2))
    ∧ ∀ p : Int × Int, p ∈ patch_pixels x_start y_start size ↔
        ∃ c ∈ sub_patches x_start y_start size, p ∈ patch_pixels c.1 c.2.1 c.2.2 := by
  have h1 := all_in_false_of_border_pos mandelbrot_point x_start y_start xsize ysize size hpos
  have h2 := all_out_false_of_border_zero mandelbrot_point x_start y_start xsize ysize size hzero
  have htd : Int.tdiv size 2 = size / 2 := Int.tdiv_eq_ediv (by omega) (by decide)
  have heven : size = 2 * (size / 2) := by
    cases m with
    | zero => simp at hpow; omega
    | succ k =>
      have : (2 : Int) ^ (k + 1) = 2 * 2 ^ k := by rw [pow_succ]; ring
      omega
  have hsub : sub_patches x_start y_start size
      = [(x_start, y_start, size / 2), (x_start + size / 2, y_start, size / 2),
         (x_start, y_start + size / 2, size / 2),
         (x_start + size / 2, y_start + size / 2, size / 2)] := by
    simp only [sub_patches, htd]
  refine ⟨?_, hsub, ?_, ?_⟩
  · rw [compute_patch_rec _ _ _ _ _ _ _ h1 h2 (by omega), hsub, htd]
    rfl
  · rw [hsub]
    simp only [List.pairwise_cons, List.mem_cons, List.mem_singleton, List.not_mem_nil,
      forall_eq_or_imp, forall_eq, List.Pairwise.nil, and_true, IsEmpty.forall_iff,
      implies_true]
    refine ⟨⟨?_, ?_, ?_⟩, ⟨?_, ?_⟩, ?_⟩ <;>
    · rintro ⟨x, y⟩ ha hb
      rw [mem_patch_pixels] at ha hb
      omega
  · rintro ⟨x, y⟩
    rw [hsub]
    simp only [List.mem_cons, List.mem_singleton, List.not_mem_nil, or_false,
      exists_eq_or_imp, exists_eq_left, mem_patch_pixels]
    omega

theorem compute_patch_sub_patches_partition_witness :
    ((16 : Int) = 2 ^ 4 ∧ (16 : Int) ≤ 16
      ∧ (∃ p ∈ border_pixels 0 0 16, pixel_value stripe_kernel 16 16 p = 0)
      ∧ (∃ q ∈ border_pixels 0 0 16, 0 < pixel_value stripe_kernel 16 16 q))
    ∧ (compute_patch stripe_kernel (Canvas.fresh (fun _ => 7)) 0 0 16 16 16
      = (sub_patches 0 0 16).foldl
          (fun s c => compute_patch stripe_kernel (enter_call s) c.1 c.2.1 16 16 c.2.2)
          { Canvas.fresh (fun _ => 7) with
            evals := (Canvas.fresh (fun _ => 7)).evals ++ border_evals 0 0 16 }
      ∧ sub_patches 0 0 16
        = [(0, 0, 16 / 2), (0 + 16 / 2, 0, 16 / 2), (0, 0 + 16 / 2, 16 / 2),
           (0 + 16 / 2, 0 + 16 / 2, 16 / 2)]
      ∧ (sub_patches 0 0 16).Pairwise
          (fun c d => List.Disjoint (patch_pixels c.1 c.2.1 c.2.2) (patch_pixels d.1 d.2.1 d.2.2))
      ∧ ∀ p : Int × Int, p ∈ patch_pixels 0 0 16 ↔
          ∃ c ∈ sub_patches 0 0 16, p ∈ patch_pixels c.1 c.2.1 c.2.2) := by
  have hz : ∃ p ∈ border_pixels 0 0 16, pixel_value stripe_kernel 16 16 p = 0 :=
    ⟨(0, 0), (mem_border_pixels 0 0 16 0 0).mpr (by decide), by
      norm_num [pixel_value, stripe_kernel, plane_x, X_MIN]⟩
  have hp : ∃ q ∈ border_pixels 0 0 16, 0 < pixel_value stripe_kernel 16 16 q :=
    ⟨(1, 0), (mem_border_pixels 0 0 16 1 0).mpr (by decide), by
      norm_num [pixel_value, stripe_kernel, plane_x, X_MIN, X_MAX]⟩
  exact ⟨⟨by norm_num, by decide, hz, hp⟩,
    compute_patch_sub_patches_partition stripe_kernel (Canvas.fresh (fun _ => 7)) 0 0 16 16 16 4
      (by norm_num) (by decide) hz hp⟩

/-- C5: for every kernel and every patch of side `size ≥ 2`, if the kernel
is 0 at every border pixel then `compute_patch` stores 0 at every pixel of
the patch and leaves `image[y * xsize + x] = 0` there, whatever the kernel is
at interior pixels; it makes no recursive call; and it calls the kernel
exactly `4 * size - 4` times, all in the border pass. -/
theorem compute_patch_all_in_fills_zero (mandelbrot_point : ℚ → ℚ → Int) (st : Canvas)
    (x_start y_start xsize ysize size : Int) (hs : 2 ≤ size)
    (hb : ∀ p ∈ border_pixels x_start y_start size,
      pixel_value mandelbrot_point xsize ysize p = 0) :
    (∀ p ∈ patch_pixels x_start y_start size,
      (compute_patch mandelbrot_point st x_start y_start xsize ysize size).image
        (p.2 * xsize + p.1) = 0)
    ∧ (compute_patch mandelbrot_point st x_start y_start xsize ysize size).writes
      = st.writes ++ (patch_pixels x_start y_start size).map (fun p => (p.1, p.2, 0))
    ∧ (compute_patch mandelbrot_point st x_start y_start xsize ysize size).recursive_calls
      = st.recursive_calls
    ∧ (compute_patch mandelbrot_point st x_start y_start xsize ysize size).evals
      = st.evals ++ border_evals x_start y_start size
    ∧ (((compute_patch mandelbrot_point st x_start y_start xsize ysize size).evals.length
        : Nat) : Int) = (st.evals.length : Int) + (4 * size - 4) := by
  have h1 := all_in_of_border_zero mandelbrot_point x_start y_start xsize ysize size hb
  rw [compute_patch_all_in _ _ _ _ _ _ _ h1]
  refine ⟨fun p hp => fill_patch_image _ _ _ _ _ _ p hp, fill_patch_writes _ _ _ _ _ _,
    fill_patch_recursive_calls _ _ _ _ _ _, fill_patch_evals _ _ _ _ _ _, ?_⟩
  rw [fill_patch_evals]
  simp only [List.length_append, Nat.cast_add]
  rw [length_border_evals x_start y_start size hs]

theorem compute_patch_all_in_fills_zero_witness :
    ((2 : Int) ≤ 3 ∧ ∀ p ∈ border_pixels 1 1 3, pixel_value (fun _ _ => 0) 8 8 p = 0)
    ∧ ((∀ p ∈ patch_pixels 1 1 3,
        (compute_patch (fun _ _ => 0) (Canvas.fresh (fun _ => 7)) 1 1 8 8 3).image
          (p.2 * 8 + p.1) = 0)
      ∧ (compute_patch (fun _ _ => 0) (Canvas.fresh (fun _ => 7)) 1 1 8 8 3).writes
        = (Canvas.fresh (fun _ => 7)).writes ++ (patch_pixels 1 1 3).map (fun p => (p.1, p.2, 0))
      ∧ (compute_patch (fun _ _ => 0) (Canvas.fresh (fun _ => 7)) 1 1 8 8 3).recursive_calls
        = (Canvas.fresh (fun _ => 7)).recursive_calls
      ∧ (compute_patch (fun _ _ => 0) (Canvas.fresh (fun _ => 7)) 1 1 8 8 3).evals
        = (Canvas.fresh (fun _ => 7)).evals ++ border_evals 1 1 3
      ∧ (((compute_patch (fun _ _ => 0) (Canvas.fresh (fun _ => 7)) 1 1 8 8 3).evals.length
          : Nat) : Int) = ((Canvas.fresh (fun _ => 7)).evals.length : Int) + (4 * 3 - 4)) :=
  ⟨⟨by decide, fun _ _ => rfl⟩,
    compute_patch_all_in_fills_zero (fun _ _ => 0) (Canvas.fresh (fun _ => 7)) 1 1 8 8 3
      (by decide) (fun _ _ => rfl)⟩

/-- C6: for every kernel and every patch of side `size ≥ 1`, if the kernel
is positive at every border pixel then `compute_patch` stores at every pixel
of the patch the floor of (sum of the kernel over the distinct border pixels
divided by their number), leaves that value in `image[y * xsize + x]`, and
the value is at least 1.  (Positivity on the border is all that is used of the
range `0..MAX_ITER-1` of the kernel.) -/
theorem compute_patch_all_out_fills_mean (mandelbrot_point : ℚ → ℚ → Int) (st : Canvas)
    (x_start y_start xsize ysize size : Int) (hs : 1 ≤ size)
    (hb : ∀ p ∈ border_pixels x_start y_start size,
      0 < pixel_value mandelbrot_point xsize ysize p) :
    (∀ p ∈ patch_pixels x_start y_start size,
      (compute_patch mandelbrot_point st x_start y_start xsize ysize size).image
        (p.2 * xsize + p.1) = border_mean mandelbrot_point x_start y_start xsize ysize size)
    ∧ (compute_patch mandelbrot_point st x_start y_start xsize ysize size).writes
      = st.writes ++ (patch_pixels x_start y_start size).map
          (fun p => (p.1, p.2, border_mean mandelbrot_point x_start y_start xsize ysize size))
    ∧ 1 ≤ border_mean mandelbrot_point x_start y_start xsize ysize size := by
  have h1 := all_in_false_of_border_pos mandelbrot_point x_start y_start xsize ysize size
    ⟨_, corner_mem_border_pixels x_start y_start size hs,
      hb _ (corner_mem_border_pixels x_start y_start size hs)⟩
  have h2 := all_out_of_border_pos mandelbrot_point x_start y_start xsize ysize size hb
  obtain ⟨ht, hp⟩ := border_totals_of_pos mandelbrot_point x_start y_start xsize ysize size hb
  have hlen : (0 : Int) < ((border_evals x_start y_start size).length : Int) := by
    exact_mod_cast border_evals_length_pos x_start y_start size hs
  have hsum : ((border_evals x_start y_start size).length : Int)
      ≤ ((border_evals x_start y_start size).map
          (pixel_value mandelbrot_point xsize ysize)).sum := by
    have := length_le_sum_of_pos ((border_evals x_start y_start size).map
      (pixel_value mandelbrot_point xsize ysize)) (by
        intro v hv
        obtain ⟨p, hp2, rfl⟩ := List.mem_map.mp hv
        exact hb p ((mem_border_evals_iff _ _ _ p).mp hp2))
    rwa [List.length_map] at this
  have hq := border_quotient_eq_mean mandelbrot_point x_start y_start xsize ysize size hs
  have hge : 1 ≤ border_mean mandelbrot_point x_start y_start xsize ysize size := by
    rw [← hq]
    exact Int.le_ediv_of_mul_le hlen (by omega)
  have havg : avg_iter (border_pass mandelbrot_point x_start y_start xsize ysize size)
      = border_mean mandelbrot_point x_start y_start xsize ysize size := by
    unfold avg_iter
    rw [hp, ht, if_pos hlen, Int.tdiv_eq_ediv (by omega) (by omega), hq]
    simp only []
    rw [if_neg (by omega)]
  rw [compute_patch_all_out _ _ _ _ _ _ _ h1 h2, havg]
  exact ⟨fun p hp => fill_patch_image _ _ _ _ _ _ p hp, fill_patch_writes _ _ _ _ _ _, hge⟩

theorem compute_patch_all_out_fills_mean_witness :
    ((1 : Int) ≤ 1 ∧ ∀ p ∈ border_pixels 2 5 1, 0 < pixel_value (fun _ _ => 3) 8 8 p)
    ∧ ((∀ p ∈ patch_pixels 2 5 1,
        (compute_patch (fun _ _ => 3) (Canvas.fresh (fun _ => 7)) 2 5 8 8 1).image
          (p.2 * 8 + p.1) = border_mean (fun _ _ => 3) 2 5 8 8 1)
      ∧ (compute_patch (fun _ _ => 3) (Canvas.fresh (fun _ => 7)) 2 5 8 8 1).writes
        = (Canvas.fresh (fun _ => 7)).writes ++ (patch_pixels 2 5 1).map
            (fun p => (p.1, p.2, border_mean (fun _ _ => 3) 2 5 8 8 1))
      ∧ 1 ≤ border_mean (fun _ _ => 3) 2 5 8 8 1) :=
  ⟨⟨by decide, fun _ _ => (by decide : (0 : Int) < 3)⟩,
    compute_patch_all_out_fills_mean (fun _ _ => 3) (Canvas.fresh (fun _ => 7)) 2 5 8 8 1
      (by decide) (fun _ _ => (by decide : (0 : Int) < 3))⟩

/-- C7: for every patch of side `size ≤ 8` whose border is mixed (some border
sample 0, some border sample positive), `compute_patch` makes no recursive
call and stores at every pixel `(x, y)` of the patch exactly
`mandelbrot_point(X_MIN + x*(X_MAX-X_MIN)/xsize, Y_MIN + y*(Y_MAX-Y_MIN)/ysize)`,
the coordinate map of the border samples; when the patch columns lie inside
the canvas row, `image[y * xsize + x]` holds that value afterwards. -/
theorem compute_patch_mixed_small_direct (mandelbrot_point : ℚ → ℚ → Int) (st : Canvas)
    (x_start y_start xsize ysize size : Int) (hs : size ≤ 8)
    (hzero : ∃ p ∈ border_pixels x_start y_start size,
      pixel_value mandelbrot_point xsize ysize p = 0)
    (hpos : ∃ q ∈ border_pixels x_start y_start size,
      0 < pixel_value mandelbrot_point xsize ysize q) :
    (compute_patch mandelbrot_point st x_start y_start xsize ysize size).recursive_calls
      = st.recursive_calls
    ∧ (compute_patch mandelbrot_point st x_start y_start xsize ysize size).writes
      = st.writes ++ (patch_pixels x_start y_start size).map
          (fun p => (p.1, p.2, mandelbrot_point
            (X_MIN + (p.1 : ℚ) * (X_MAX - X_MIN) / (xsize : ℚ))
            (Y_MIN + (p.2 : ℚ) * (Y_MAX - Y_MIN) / (ysize : ℚ))))
    ∧ (0 ≤ x_start → x_start + size ≤ xsize →
        ∀ p ∈ patch_pixels x_start y_start size,
          (compute_patch mandelbrot_point st x_start y_start xsize ysize size).image
            (p.2 * xsize + p.1)
          = mandelbrot_point (X_MIN + (p.1 : ℚ) * (X_MAX - X_MIN) / (xsize : ℚ))
              (Y_MIN + (p.2 : ℚ) * (Y_MAX - Y_MIN) / (ysize : ℚ))) := by
  have h1 := all_in_false_of_border_pos mandelbrot_point x_start y_start xsize ysize size hpos
  have h2 := all_out_false_of_border_zero mandelbrot_point x_start y_start xsize ysize size hzero
  rw [compute_patch_direct _ _ _ _ _ _ _ h1 h2 hs]
  exact ⟨direct_patch_recursive_calls _ _ _ _ _ _ _, direct_patch_writes _ _ _ _ _ _ _,
    fun hx hx2 p hp => direct_patch_image _ _ _ _ _ _ _ hx hx2 p hp⟩

theorem compute_patch_mixed_small_direct_witness :
    ((2 : Int) ≤ 8
      ∧ (∃ p ∈ border_pixels 0 0 2, pixel_value stripe_kernel 4 4 p = 0)
      ∧ (∃ q ∈ border_pixels 0 0 2, 0 < pixel_value stripe_kernel 4 4 q))
    ∧ ((compute_patch stripe_kernel (Canvas.fresh (fun _ => 7)) 0 0 4 4 2).recursive_calls
        = (Canvas.fresh (fun _ => 7)).recursive_calls
      ∧ (compute_patch stripe_kernel (Canvas.fresh (fun _ => 7)) 0 0 4 4 2).writes
        = (Canvas.fresh (fun _ => 7)).writes ++ (patch_pixels 0 0 2).map
            (fun p => (p.1, p.2, stripe_kernel
              (X_MIN + (p.1 : ℚ) * (X_MAX - X_MIN) / ((4 : Int) : ℚ))
              (Y_MIN + (p.2 : ℚ) * (Y_MAX - Y_MIN) / ((4 : Int) : ℚ))))
      ∧ ((0 : Int) ≤ 0 → (0 : Int) + 2 ≤ 4 →
          ∀ p ∈ patch_pixels 0 0 2,
            (compute_patch stripe_kernel (Canvas.fresh (fun _ => 7)) 0 0 4 4 2).image
              (p.2 * 4 + p.1)
            = stripe_kernel (X_MIN + (p.1 : ℚ) * (X_MAX - X_MIN) / ((4 : Int) : ℚ))
                (Y_MIN + (p.2 : ℚ) * (Y_MAX - Y_MIN) / ((4 : Int) : ℚ)))) := by
  have hz : ∃ p ∈ border_pixels 0 0 2, pixel_value stripe_kernel 4 4 p = 0 :=
    ⟨(0, 0), (mem_border_pixels 0 0 2 0 0).mpr (by decide), by
      norm_num [pixel_value, stripe_kernel, plane_x, X_MIN]⟩
  have hp : ∃ q ∈ border_pixels 0 0 2, 0 < pixel_value stripe_kernel 4 4 q :=
    ⟨(1, 0), (mem_border_pixels 0 0 2 1 0).mpr (by decide), by
      norm_num [pixel_value, stripe_kernel, plane_x, X_MIN, X_MAX]⟩
  exact ⟨⟨by decide, hz, hp⟩,
    compute_patch_mixed_small_direct stripe_kernel (Canvas.fresh (fun _ => 7)) 0 0 4 4 2
      (by decide) hz hp⟩

/-! ## The point kernel -/

/-- From a state that holds `z_i` and its squares at `iter = i`, the loop of
`mandelbrot_point` stops at the first `j ≥ i` that is `MAX_ITER` or has
`|z_j|^2 > 4`. -/
theorem point_loop_spec (cx cy : ℚ) (d : Nat) : ∀ (i : Nat) (s : PointState),
    s.iter = (i : Int) → (s.zx, s.zy) = orbit cx cy i → s.zx_sq = s.zx * s.zx →
    s.zy_sq = s.zy * s.zy → i + d = 1000 →
    ∃ j : Nat, i ≤ j ∧ j ≤ 1000 ∧ (point_loop cx cy s).iter = (j : Int)
      ∧ (∀ k : Nat, i ≤ k → k < j → norm_sq (orbit cx cy k) ≤ 4)
      ∧ (j < 1000 → 4 < norm_sq (orbit cx cy j)) := by
  induction d with
  | zero =>
    intro i s hi _ _ _ hd
    have h : ¬ (s.iter < MAX_ITER ∧ s.zx_sq + s.zy_sq ≤ 4) := by
      rintro ⟨h1, -⟩
      unfold MAX_ITER at h1
      omega
    rw [point_loop, if_neg h]
    exact ⟨i, le_refl i, by omega, hi, fun k h1 h2 => absurd h2 (by omega), fun h1 => by omega⟩
  | succ d ih =>
    intro i s hi hz hx hy hd
    have hn : norm_sq (orbit cx cy i) = s.zx_sq + s.zy_sq := by
      rw [← hz, hx, hy]
      rfl
    by_cases h : s.iter < MAX_ITER ∧ s.zx_sq + s.zy_sq ≤ 4
    · rw [point_loop, if_pos h]
      have hz1 : ((point_step cx cy s).zx, (point_step cx cy s).zy) = orbit cx cy (i + 1) := by
        have e1 : (orbit cx cy i).1 = s.zx := by rw [← hz]
        have e2 : (orbit cx cy i).2 = s.zy := by rw [← hz]
        simp only [point_step, orbit, e1, e2, hx, hy]
      obtain ⟨j, hij, hj, hiter, hbelow, hesc⟩ := ih (i + 1) (point_step cx cy s)
        (by simp only [point_step, hi]; push_cast; rfl) hz1 rfl rfl (by omega)
      refine ⟨j, by omega, hj, hiter, ?_, hesc⟩
      intro k hk1 hk2
      by_cases hk : k = i
      · subst hk
        rw [hn]
        exact h.2
      · exact hbelow k (by omega) hk2
    · rw [point_loop, if_neg h]
      refine ⟨i, le_refl i, by omega, hi, fun k h1 h2 => absurd h2 (by omega), ?_⟩
      intro _
      rw [hn]
      by_contra hc
      apply h
      refine ⟨?_, not_lt.mp hc⟩
      unfold MAX_ITER
      omega

/-- The result of `mandelbrot_point` in terms of the orbit: the loop stops at
some `j` in `1..MAX_ITER`, below which the orbit stays within `|z|^2 ≤ 4`. -/
theorem mandelbrot_point_stop (cx cy : ℚ) :
    ∃ j : Nat, 1 ≤ j ∧ j ≤ 1000
      ∧ mandelbrot_point cx cy = (if j = 1000 then 0 else (j : Int))
      ∧ (∀ k : Nat, k < j → norm_sq (orbit cx cy k) ≤ 4)
      ∧ (j < 1000 → 4 < norm_sq (orbit cx cy j)) := by
  obtain ⟨j, -, hj, hiter, hbelow, hesc⟩ := point_loop_spec cx cy 1000 0
    { zx := 0, zy := 0, zx_sq := 0, zy_sq := 0, iter := 0 } rfl rfl (by norm_num) (by norm_num)
    (by norm_num)
  have h0 : norm_sq (orbit cx cy 0) = 0 := by simp [norm_sq, orbit]
  have hj1 : 1 ≤ j := by
    by_contra hc
    have hj0 : j = 0 := by omega
    have := hesc (by omega)
    rw [hj0, h0] at this
    norm_num at this
  refine ⟨j, hj1, hj, ?_, fun k hk => hbelow k (Nat.zero_le k) hk, hesc⟩
  unfold mandelbrot_point
  simp only [hiter, MAX_ITER]
  by_cases h : j = 1000
  · subst h
    simp
  · have h2 : ¬ ((j : Int) = 1000) := by omega
    simp [h, h2]

theorem orbit_zero (n : Nat) : orbit 0 0 n = (0, 0) := by
  induction n with
  | zero => rfl
  | succ n ih => simp [orbit, ih]

theorem mandelbrot_point_escape (cx cy : ℚ) (n : Nat) (h1 : 1 ≤ n) (h2 : n < 1000)
    (hesc : 4 < norm_sq (orbit cx cy n))
    (hmin : ∀ k : Nat, 1 ≤ k → k < n → norm_sq (orbit cx cy k) ≤ 4) :
    mandelbrot_point cx cy = (n : Int) := by
  obtain ⟨j, hj1, hj, hval, hbelow, hj_esc⟩ := mandelbrot_point_stop cx cy
  have hjn : j = n := by
    rcases Nat.lt_trichotomy j n with h | h | h
    · exact absurd (hj_esc (by omega)) (not_lt.mpr (hmin j hj1 h))
    · exact h
    · exact absurd hesc (not_lt.mpr (hbelow n h))
  rw [hval, hjn, if_neg (by omega)]

theorem mandelbrot_point_inside (cx cy : ℚ)
    (hin : ∀ n : Nat, 1 ≤ n → n < 1000 → norm_sq (orbit cx cy n) ≤ 4) :
    mandelbrot_point cx cy = 0 := by
  obtain ⟨j, hj1, hj, hval, -, hj_esc⟩ := mandelbrot_point_stop cx cy
  by_cases h : j = 1000
  · rw [hval, if_pos h]
  · exact absurd (hj_esc (by omega)) (not_lt.mpr (hin j hj1 (by omega)))

/-- C20: in exact arithmetic, with `z_0 = 0` and `z_{n+1} = z_n^2 + c`,
`mandelbrot_point(cx, cy)` is the least `n` in `1..MAX_ITER-1` with
`|z_n|^2 > 4` when there is one, and 0 when there is none; its result lies in
`0..MAX_ITER-1` and is never the sentinel `-1`; it is 1 at `c = (-2, -1.7)`,
which is the plane point of pixel `(0, 0)` for every image size, and 0 at
`c = (0, 0)`. -/
theorem mandelbrot_point_least_escape (cx cy : ℚ) :
    (∀ n : Nat, 1 ≤ n → (n : Int) < MAX_ITER → 4 < norm_sq (orbit cx cy n) →
        (∀ k : Nat, 1 ≤ k → k < n → norm_sq (orbit cx cy k) ≤ 4) →
        mandelbrot_point cx cy = (n : Int))
    ∧ ((∀ n : Nat, 1 ≤ n → (n : Int) < MAX_ITER → norm_sq (orbit cx cy n) ≤ 4) →
        mandelbrot_point cx cy = 0)
    ∧ 0 ≤ mandelbrot_point cx cy ∧ mandelbrot_point cx cy ≤ MAX_ITER - 1
    ∧ mandelbrot_point cx cy ≠ -1
    ∧ mandelbrot_point (-2) (-17 / 10) = 1
    ∧ (∀ xsize ysize : Int, mandelbrot_point (plane_x xsize 0) (plane_y ysize 0) = 1)
    ∧ mandelbrot_point 0 0 = 0 := by
  have hrange : 0 ≤ mandelbrot_point cx cy ∧ mandelbrot_point cx cy ≤ MAX_ITER - 1 := by
    obtain ⟨j, hj1, hj, hval, -, -⟩ := mandelbrot_point_stop cx cy
    rw [hval]
    unfold MAX_ITER
    split <;> omega
  have hcorner : mandelbrot_point (-2) (-17 / 10) = 1 := by
    have := mandelbrot_point_escape (-2) (-17 / 10) 1 (le_refl 1) (by norm_num)
      (by norm_num [norm_sq, orbit]) (fun k h1 h2 => absurd h2 (by omega))
    exact_mod_cast this
  refine ⟨?_, ?_, hrange.1, hrange.2, ?_, hcorner, ?_, ?_⟩
  · intro n h1 h2 hesc hmin
    unfold MAX_ITER at h2
    exact mandelbrot_point_escape cx cy n h1 (by omega) hesc hmin
  · intro hin
    apply mandelbrot_point_inside
    intro n h1 h2
    exact hin n h1 (by unfold MAX_ITER; omega)
  · have := hrange.1
    omega
  · intro xsize ysize
    have e1 : plane_x xsize 0 = -2 := by simp [plane_x, X_MIN]
    have e2 : plane_y ysize 0 = -17 / 10 := by simp [plane_y, Y_MIN]
    rw [e1, e2, hcorner]
  · apply mandelbrot_point_inside
    intro n _ _
    rw [orbit_zero]
    norm_num [norm_sq]

/-! ## The effect of `compute_patch` on the state -/

theorem apply_writes_append (xsize : Int) (W1 W2 : List (Int × Int × Int))
    (image : Int → Int) :
    apply_writes xsize (W1 ++ W2) image = apply_writes xsize W2 (apply_writes xsize W1 image) := by
  simp [apply_writes, List.foldl_append]

theorem image_foldl_eq_apply_writes (xsize : Int) (f : Int × Int → Int)
    (g : Canvas → Int × Int → Canvas)
    (hg : ∀ s p, (g s p).image = Function.update s.image (p.2 * xsize + p.1) (f p))
    (L : List (Int × Int)) (st : Canvas) :
    (L.foldl g st).image
      = apply_writes xsize (L.map (fun p => (p.1, p.2, f p))) st.image := by
  induction L using List.reverseRecOn with
  | nil => rfl
  | append_singleton L p ih =>
    rw [List.foldl_append, List.foldl_cons, List.foldl_nil, hg, ih, List.map_append,
      apply_writes_append]
    rfl

theorem fill_patch_image_eq (st : Canvas) (x_start y_start xsize size v : Int) :
    (fill_patch st x_start y_start xsize size v).image
      = apply_writes xsize ((patch_pixels x_start y_start size).map (fun p => (p.1, p.2, v)))
          st.image :=
  image_foldl_eq_apply_writes xsize (fun _ => v) (fun s p => store s xsize p.1 p.2 v)
    (fun _ _ => rfl) _ st

theorem direct_patch_image_eq (mandelbrot_point : ℚ → ℚ → Int) (st : Canvas)
    (x_start y_start xsize ysize size : Int) :
    (direct_patch mandelbrot_point st x_start y_start xsize ysize size).image
      = apply_writes xsize ((patch_pixels x_start y_start size).map
          (fun p => (p.1, p.2, pixel_value mandelbrot_point xsize ysize p))) st.image :=
  image_foldl_eq_apply_writes xsize (pixel_value mandelbrot_point xsize ysize)
    (fun s p => store { s with evals := s.evals ++ [p] } xsize p.1 p.2
      (mandelbrot_point (plane_x xsize p.1) (plane_y ysize p.2)))
    (fun _ _ => rfl) _ st

theorem mem_map_store_in_patch (f : Int × Int → Int) (x_start y_start size : Int)
    (w : Int × Int × Int)
    (hw : w ∈ (patch_pixels x_start y_start size).map (fun p => (p.1, p.2, f p))) :
    (w.1, w.2.1) ∈ patch_pixels x_start y_start size := by
  obtain ⟨p, hp, rfl⟩ := List.mem_map.mp hw
  exact hp

theorem enter_call_writes (st : Canvas) : (enter_call st).writes = st.writes := rfl

theorem enter_call_image (st : Canvas) : (enter_call st).image = st.image := rfl

theorem enter_call_evals (st : Canvas) : (enter_call st).evals = st.evals := rfl

theorem enter_call_recursive_calls (st : Canvas) :
    (enter_call st).recursive_calls = st.recursive_calls + 1 := rfl

/-- What a leaf branch (fill or direct evaluation) does to the state. -/
theorem leaf_effect (xsize : Int) (x_start y_start size : Int) (f : Int × Int → Int)
    (E : List (Int × Int)) (body : Canvas → Canvas)
    (hw : ∀ st, (body st).writes
      = st.writes ++ (patch_pixels x_start y_start size).map (fun p => (p.1, p.2, f p)))
    (hi : ∀ st, (body st).image
      = apply_writes xsize ((patch_pixels x_start y_start size).map (fun p => (p.1, p.2, f p)))
          st.image)
    (he : ∀ st, (body st).evals = st.evals ++ E)
    (hr : ∀ st, (body st).recursive_calls = st.recursive_calls) :
    ∃ (W : List (Int × Int × Int)) (E2 : List (Int × Int)) (R : Nat),
      (∀ w ∈ W, (w.1, w.2.1) ∈ patch_pixels x_start y_start size)
      ∧ (size ≤ 8 → R = 0) ∧ (8 < size → (R : Int) + 2 ≤ size * size)
      ∧ ∀ st : Canvas,
          (body st).writes = st.writes ++ W
          ∧ (body st).image = apply_writes xsize W st.image
          ∧ (body st).evals = st.evals ++ E2
          ∧ (body st).recursive_calls = st.recursive_calls + R := by
  refine ⟨_, E, 0, fun w hw2 => mem_map_store_in_patch f _ _ _ w hw2, fun _ => rfl, ?_,
    fun st => ⟨hw st, hi st, he st, hr st⟩⟩
  intro h
  push_cast
  nlinarith

/-- The effect of `compute_patch`, for every side: it appends to the logs
lists that do not depend on the incoming state, its stores address pixels of
the patch only, the final memory is the incoming memory with these stores
replayed, and the number of recursive calls is 0 for `size ≤ 8` and at most
`size * size - 2` otherwise. -/
theorem compute_patch_effect (mandelbrot_point : ℚ → ℚ → Int) (xsize ysize : Int) (n : Nat) :
    ∀ (size : Int), size ≤ n → ∀ (x_start y_start : Int),
    ∃ (W : List (Int × Int × Int)) (E : List (Int × Int)) (R : Nat),
      (∀ w ∈ W, (w.1, w.2.1) ∈ patch_pixels x_start y_start size)
      ∧ (size ≤ 8 → R = 0) ∧ (8 < size → (R : Int) + 2 ≤ size * size)
      ∧ ∀ st : Canvas,
          (compute_patch mandelbrot_point st x_start y_start xsize ysize size).writes
            = st.writes ++ W
          ∧ (compute_patch mandelbrot_point st x_start y_start xsize ysize size).image
            = apply_writes xsize W st.image
          ∧ (compute_patch mandelbrot_point st x_start y_start xsize ysize size).evals
            = st.evals ++ E
          ∧ (compute_patch mandelbrot_point st x_start y_start xsize ysize size).recursive_calls
            = st.recursive_calls + R := by
  induction n with
  | zero =>
    intro size hsize x_start y_start
    by_cases h1 : (border_pass mandelbrot_point x_start y_start xsize ysize size).all_in = true
    · refine leaf_effect xsize x_start y_start size (fun _ => 0)
        (border_evals x_start y_start size) _ ?_ ?_ ?_ ?_ <;> intro st <;>
        rw [compute_patch_all_in _ _ _ _ _ _ _ h1]
      · exact fill_patch_writes _ _ _ _ _ _
      · exact fill_patch_image_eq _ _ _ _ _ _
      · exact fill_patch_evals _ _ _ _ _ _
      · exact fill_patch_recursive_calls _ _ _ _ _ _
    · have h1f := Bool.eq_false_iff.mpr h1
      by_cases h2 : (border_pass mandelbrot_point x_start y_start xsize ysize size).all_out
          = true
      · refine leaf_effect xsize x_start y_start size
          (fun _ => avg_iter (border_pass mandelbrot_point x_start y_start xsize ysize size))
          (border_evals x_start y_start size) _ ?_ ?_ ?_ ?_ <;> intro st <;>
          rw [compute_patch_all_out _ _ _ _ _ _ _ h1f h2]
        · exact fill_patch_writes _ _ _ _ _ _
        · exact fill_patch_image_eq _ _ _ _ _ _
        · exact fill_patch_evals _ _ _ _ _ _
        · exact fill_patch_recursive_calls _ _ _ _ _ _
      · have h2f := Bool.eq_false_iff.mpr h2
        have h3 : size ≤ 8 := by
          have : ((0 : Nat) : Int) = 0 := rfl
          omega
        refine leaf_effect xsize x_start y_start size
          (pixel_value mandelbrot_point xsize ysize)
          (border_evals x_start y_start size ++ patch_pixels x_start y_start size) _
          ?_ ?_ ?_ ?_ <;> intro st <;>
          rw [compute_patch_direct _ _ _ _ _ _ _ h1f h2f h3]
        · exact direct_patch_writes _ _ _ _ _ _ _
        · exact direct_patch_image_eq _ _ _ _ _ _ _
        · rw [direct_patch_evals, List.append_assoc]
        · exact direct_patch_recursive_calls _ _ _ _ _ _ _
  | succ n ih =>
    intro size hsize x_start y_start
    by_cases h1 : (border_pass mandelbrot_point x_start y_start xsize ysize size).all_in = true
    · refine leaf_effect xsize x_start y_start size (fun _ => 0)
        (border_evals x_start y_start size) _ ?_ ?_ ?_ ?_ <;> intro st <;>
        rw [compute_patch_all_in _ _ _ _ _ _ _ h1]
      · exact fill_patch_writes _ _ _ _ _ _
      · exact fill_patch_image_eq _ _ _ _ _ _
      · exact fill_patch_evals _ _ _ _ _ _
      · exact fill_patch_recursive_calls _ _ _ _ _ _
    · have h1f := Bool.eq_false_iff.mpr h1
      by_cases h2 : (border_pass mandelbrot_point x_start y_start xsize ysize size).all_out
          = true
      · refine leaf_effect xsize x_start y_start size
          (fun _ => avg_iter (border_pass mandelbrot_point x_start y_start xsize ysize size))
          (border_evals x_start y_start size) _ ?_ ?_ ?_ ?_ <;> intro st <;>
          rw [compute_patch_all_out _ _ _ _ _ _ _ h1f h2]
        · exact fill_patch_writes _ _ _ _ _ _
        · exact fill_patch_image_eq _ _ _ _ _ _
        · exact fill_patch_evals _ _ _ _ _ _
        · exact fill_patch_recursive_calls _ _ _ _ _ _
      · have h2f := Bool.eq_false_iff.mpr h2
        by_cases h3 : size ≤ 8
        · refine leaf_effect xsize x_start y_start size
            (pixel_value mandelbrot_point xsize ysize)
            (border_evals x_start y_start size ++ patch_pixels x_start y_start size) _
            ?_ ?_ ?_ ?_ <;> intro st <;>
            rw [compute_patch_direct _ _ _ _ _ _ _ h1f h2f h3]
          · exact direct_patch_writes _ _ _ _ _ _ _
          · exact direct_patch_image_eq _ _ _ _ _ _ _
          · rw [direct_patch_evals, List.append_assoc]
          · exact direct_patch_recursive_calls _ _ _ _ _ _ _
        · have h8 : 8 < size := by omega
          have htd : Int.tdiv size 2 = size / 2 := Int.tdiv_eq_ediv (by omega) (by decide)
          have hns : size / 2 ≤ (n : Int) := by
            have : ((n + 1 : Nat) : Int) = (n : Int) + 1 := by push_cast; rfl
            omega
          obtain ⟨W1, E1, R1, m1, z1, b1, H1⟩ := ih (size / 2) hns x_start y_start
          obtain ⟨W2, E2, R2, m2, z2, b2, H2⟩ := ih (size / 2) hns (x_start + size / 2) y_start
          obtain ⟨W3, E3, R3, m3, z3, b3, H3⟩ := ih (size / 2) hns x_start (y_start + size / 2)
          obtain ⟨W4, E4, R4, m4, z4, b4, H4⟩ :=
            ih (size / 2) hns (x_start + size / 2) (y_start + size / 2)
          refine ⟨W1 ++ (W2 ++ (W3 ++ W4)),
            border_evals x_start y_start size ++ (E1 ++ (E2 ++ (E3 ++ E4))),
            (1 + R1) + ((1 + R2) + ((1 + R3) + (1 + R4))), ?_, fun h => absurd h h3, ?_, ?_⟩
          · intro w hw
            obtain ⟨wx, wy, wv⟩ := w
            simp only [List.mem_append] at hw
            rw [mem_patch_pixels]
            rcases hw with h | h | h | h
            · have := m1 _ h
              rw [mem_patch_pixels] at this
              omega
            · have := m2 _ h
              rw [mem_patch_pixels] at this
              omega
            · have := m3 _ h
              rw [mem_patch_pixels] at this
              omega
            · have := m4 _ h
              rw [mem_patch_pixels] at this
              omega
          · intro _
            have hhalf : 2 * (size / 2) ≤ size := by omega
            have hpos : 4 ≤ size / 2 := by omega
            by_cases hc : size / 2 ≤ 8
            · have e1 := z1 hc
              have e2 := z2 hc
              have e3 := z3 hc
              have e4 := z4 hc
              subst e1 e2 e3 e4
              push_cast
              nlinarith
            · have hc2 : 8 < size / 2 := by omega
              have e1 := b1 hc2
              have e2 := b2 hc2
              have e3 := b3 hc2
              have e4 := b4 hc2
              push_cast
              nlinarith
          · intro st
            rw [compute_patch_rec _ _ _ _ _ _ _ h1f h2f h8, htd]
            obtain ⟨a1, a2, a3, a4⟩ := H1 (enter_call
              { st with evals := st.evals ++ border_evals x_start y_start size })
            generalize compute_patch mandelbrot_point (enter_call
              { st with evals := st.evals ++ border_evals x_start y_start size })
              x_start y_start xsize ysize (size / 2) = s1 at a1 a2 a3 a4 ⊢
            obtain ⟨c1, c2, c3, c4⟩ := H2 (enter_call s1)
            generalize compute_patch mandelbrot_point (enter_call s1)
              (x_start + size / 2) y_start xsize ysize (size / 2) = s2 at c1 c2 c3 c4 ⊢
            obtain ⟨d1, d2, d3, d4⟩ := H3 (enter_call s2)
            generalize compute_patch mandelbrot_point (enter_call s2)
              x_start (y_start + size / 2) xsize ysize (size / 2) = s3 at d1 d2 d3 d4 ⊢
            obtain ⟨e1, e2, e3, e4⟩ := H4 (enter_call s3)
            simp only [enter_call_writes, enter_call_image, enter_call_evals,
              enter_call_recursive_calls] at a1 a2 a3 a4 c1 c2 c3 c4 d1 d2 d3 d4 e1 e2 e3 e4
            refine ⟨?_, ?_, ?_, ?_⟩
            · rw [e1, d1, c1, a1]
              simp only [List.append_assoc]
            · rw [e2, d2, c2, a2]
              simp only [apply_writes_append]
            · rw [e3, d3, c3, a3]
              simp only [List.append_assoc]
            · rw [e4, d4, c4, a4]
              omega

theorem apply_writes_frame (xsize : Int) (W : List (Int × Int × Int)) (image : Int → Int)
    (idx : Int) (h : ∀ w ∈ W, w.2.1 * xsize + w.1 ≠ idx) :
    apply_writes xsize W image idx = image idx := by
  induction W using List.reverseRecOn with
  | nil => rfl
  | append_singleton W w ih =>
    rw [apply_writes_append]
    have hw := h w (by simp)
    have e : apply_writes xsize [w] (apply_writes xsize W image)
        = Function.update (apply_writes xsize W image) (w.2.1 * xsize + w.1) w.2.2 := rfl
    rw [e, Function.update_noteq (Ne.symm hw)]
    exact ih (fun w2 hw2 => h w2 (List.mem_append_left _ hw2))

theorem sub_patches_side (x_start y_start size : Int) (c : Int × Int × Int)
    (hc : c ∈ sub_patches x_start y_start size) : c.2.2 = Int.tdiv size 2 := by
  simp only [sub_patches, List.mem_cons, List.mem_singleton, List.not_mem_nil, or_false] at hc
  rcases hc with h | h | h | h <;> rw [h]

/-- C14: `compute_patch` is a total function for every integer side and
every kernel (its definition is accepted by well-founded recursion on the
side).  It makes no recursive call when `size ≤ 8` or the border is uniform;
otherwise it is exactly the four calls on `sub_patches`, each of side
`size / 2`, which is non-negative and strictly smaller than `size`; and the
number of recursive calls of a whole evaluation is at most `size * size`. -/
theorem compute_patch_terminates (mandelbrot_point : ℚ → ℚ → Int) (st : Canvas)
    (x_start y_start xsize ysize size : Int) :
    ((size ≤ 8
        ∨ (border_pass mandelbrot_point x_start y_start xsize ysize size).all_in = true
        ∨ (border_pass mandelbrot_point x_start y_start xsize ysize size).all_out = true) →
      (compute_patch mandelbrot_point st x_start y_start xsize ysize size).recursive_calls
        = st.recursive_calls)
    ∧ (8 < size →
        (border_pass mandelbrot_point x_start y_start xsize ysize size).all_in = false →
        (border_pass mandelbrot_point x_start y_start xsize ysize size).all_out = false →
        compute_patch mandelbrot_point st x_start y_start xsize ysize size
          = run_children mandelbrot_point
              { st with evals := st.evals ++ border_evals x_start y_start size }
              xsize ysize (sub_patches x_start y_start size))
    ∧ (∀ c ∈ sub_patches x_start y_start size, c.2.2 = Int.tdiv size 2)
    ∧ (8 < size → 0 ≤ Int.tdiv size 2 ∧ Int.tdiv size 2 < size)
    ∧ ((compute_patch mandelbrot_point st x_start y_start xsize ysize size).recursive_calls
        : Int) ≤ (st.recursive_calls : Int) + size * size := by
  refine ⟨?_, ?_, fun c hc => sub_patches_side _ _ _ c hc, ?_, ?_⟩
  · intro h
    by_cases h1 : (border_pass mandelbrot_point x_start y_start xsize ysize size).all_in = true
    · rw [compute_patch_all_in _ _ _ _ _ _ _ h1, fill_patch_recursive_calls]
    · have h1f := Bool.eq_false_iff.mpr h1
      by_cases h2 : (border_pass mandelbrot_point x_start y_start xsize ysize size).all_out
          = true
      · rw [compute_patch_all_out _ _ _ _ _ _ _ h1f h2, fill_patch_recursive_calls]
      · have h2f := Bool.eq_false_iff.mpr h2
        have h3 : size ≤ 8 := by
          rcases h with h | h | h
          · exact h
          · exact absurd h h1
          · exact absurd h h2
        rw [compute_patch_direct _ _ _ _ _ _ _ h1f h2f h3, direct_patch_recursive_calls]
  · intro h8 h1 h2
    rw [compute_patch_rec _ _ _ _ _ _ _ h1 h2 h8]
    rfl
  · intro h8
    have htd : Int.tdiv size 2 = size / 2 := Int.tdiv_eq_ediv (by omega) (by decide)
    omega
  · obtain ⟨W, E, R, -, hz, hb, H⟩ := compute_patch_effect mandelbrot_point xsize ysize
      size.toNat size (by omega) x_start y_start
    rw [(H st).2.2.2]
    push_cast
    by_cases h8 : 8 < size
    · have := hb h8
      omega
    · have := hz (by omega)
      subst this
      have : 0 ≤ size * size := mul_self_nonneg size
      simp only [Nat.cast_zero]
      omega

/-- An origin left of the canvas, which neither `main` nor the recursion
passes (origins start at 0 and only grow): on a 4 x 4 canvas the side-1 patch
at `(-1, 1)` stores at index `1 * 4 - 1 = 3`, the entry of pixel `(3, 0)`.
The frame property of the canvas is stated for `0 ≤ x_start`. -/
theorem compute_patch_wraps_at_negative_origin :
    ((-1 : Int) + 1 ≤ 4)
    ∧ ((0 : Int) ≤ 3 ∧ (3 : Int) < 4 ∧ ((3 : Int), (0 : Int)) ∉ patch_pixels (-1) 1 1)
    ∧ (Canvas.fresh (fun _ => 7)).image (0 * 4 + 3) = 7
    ∧ (compute_patch (fun _ _ => 0) (Canvas.fresh (fun _ => 7)) (-1) 1 4 4 1).image (0 * 4 + 3)
        = 0 := by
  refine ⟨by decide, ⟨by decide, by decide, by decide⟩, rfl, ?_⟩
  have h1 := all_in_of_border_zero (fun _ _ => 0) (-1) 1 4 4 1 (fun _ _ => rfl)
  rw [compute_patch_all_in _ _ _ _ _ _ _ h1]
  exact fill_patch_image _ (-1) 1 4 1 0 (-1, 1) (by decide)

/-- C15: for every kernel, every side and every patch origin there is a
list `W` of stores, the same for every incoming canvas, such that
`compute_patch` (with all its recursive calls) performs exactly the stores
`W`, all at pixels `(x, y)` with `x_start ≤ x < x_start + side` and
`y_start ≤ y < y_start + side`; the final memory is the incoming memory with
`W` replayed, so no canvas entry is read; every entry whose index is not
`y * xsize + x` for a pixel of the square is unchanged; and for a patch of
the canvas (`0 ≤ x_start`) with `x_start + side ≤ xsize`, so that rows do not
wrap, the entry of every canvas pixel outside the square is unchanged. -/
theorem compute_patch_frame (mandelbrot_point : ℚ → ℚ → Int)
    (x_start y_start xsize ysize size : Int) :
    ∃ W : List (Int × Int × Int),
      (∀ w ∈ W, x_start ≤ w.1 ∧ w.1 < x_start + size
        ∧ y_start ≤ w.2.1 ∧ w.2.1 < y_start + size)
      ∧ ∀ st : Canvas,
          (compute_patch mandelbrot_point st x_start y_start xsize ysize size).writes
            = st.writes ++ W
          ∧ (compute_patch mandelbrot_point st x_start y_start xsize ysize size).image
            = apply_writes xsize W st.image
          ∧ (∀ idx : Int,
              (∀ p ∈ patch_pixels x_start y_start size, p.2 * xsize + p.1 ≠ idx) →
              (compute_patch mandelbrot_point st x_start y_start xsize ysize size).image idx
                = st.image idx)
          ∧ (0 ≤ x_start → x_start + size ≤ xsize →
              ∀ x y : Int, 0 ≤ x → x < xsize →
                ¬ (x_start ≤ x ∧ x < x_start + size ∧ y_start ≤ y ∧ y < y_start + size) →
                (compute_patch mandelbrot_point st x_start y_start xsize ysize size).image
                  (y * xsize + x) = st.image (y * xsize + x)) := by
  obtain ⟨W, E, R, hmem, -, -, H⟩ := compute_patch_effect mandelbrot_point xsize ysize
    size.toNat size (by omega) x_start y_start
  have hframe : ∀ (st : Canvas) (idx : Int),
      (∀ p ∈ patch_pixels x_start y_start size, p.2 * xsize + p.1 ≠ idx) →
      (compute_patch mandelbrot_point st x_start y_start xsize ysize size).image idx
        = st.image idx := by
    intro st idx hidx
    rw [(H st).2.1]
    exact apply_writes_frame xsize W st.image idx (fun w hw => hidx (w.1, w.2.1) (hmem w hw))
  refine ⟨W, ?_, fun st => ⟨(H st).1, (H st).2.1, hframe st, ?_⟩⟩
  · intro w hw
    have := hmem w hw
    rw [mem_patch_pixels] at this
    exact this
  · intro hx hx2 x y hx0 hx1 hout
    apply hframe
    rintro ⟨px, py⟩ hp heq
    rw [mem_patch_pixels] at hp
    have := index_inj xsize px py x y (by omega) (by omega) hx0 hx1 heq
    apply hout
    rw [← this.1, ← this.2]
    exact hp

/-! ## Order of the sub-patch evaluations -/

theorem compute_patch_replay (mandelbrot_point : ℚ → ℚ → Int)
    (x_start y_start xsize ysize size : Int) :
    (∀ w ∈ patch_writes mandelbrot_point x_start y_start xsize ysize size,
        (w.1, w.2.1) ∈ patch_pixels x_start y_start size)
    ∧ ∀ st : Canvas,
        (compute_patch mandelbrot_point st x_start y_start xsize ysize size).writes
          = st.writes ++ patch_writes mandelbrot_point x_start y_start xsize ysize size
        ∧ (compute_patch mandelbrot_point st x_start y_start xsize ysize size).image
          = apply_writes xsize (patch_writes mandelbrot_point x_start y_start xsize ysize size)
              st.image := by
  obtain ⟨W, E, R, hmem, -, -, H⟩ := compute_patch_effect mandelbrot_point xsize ysize
    size.toNat size (by omega) x_start y_start
  have hW : patch_writes mandelbrot_point x_start y_start xsize ysize size = W := by
    unfold patch_writes
    rw [(H _).1]
    rfl
  rw [hW]
  exact ⟨hmem, fun st => ⟨(H st).1, (H st).2.1⟩⟩

theorem run_children_image (mandelbrot_point : ℚ → ℚ → Int) (xsize ysize : Int)
    (cs : List (Int × Int × Int)) : ∀ st : Canvas,
    (run_children mandelbrot_point st xsize ysize cs).image
      = apply_writes xsize
          (cs.flatMap fun c => patch_writes mandelbrot_point c.1 c.2.1 xsize ysize c.2.2)
          st.image := by
  induction cs with
  | nil => intro st; rfl
  | cons c cs ih =>
    intro st
    have e : run_children mandelbrot_point st xsize ysize (c :: cs)
        = run_children mandelbrot_point
            (compute_patch mandelbrot_point (enter_call st) c.1 c.2.1 xsize ysize c.2.2)
            xsize ysize cs := rfl
    rw [e, ih,
      ((compute_patch_replay mandelbrot_point c.1 c.2.1 xsize ysize c.2.2).2 (enter_call st)).2,
      List.flatMap_cons, apply_writes_append]
    rfl

/-- The value left at an index that some store of `W` addresses does not
depend on the memory `W` is replayed on. -/
theorem apply_writes_written (xsize : Int) (W : List (Int × Int × Int))
    (image image2 : Int → Int) (idx : Int)
    (h : ∃ w ∈ W, w.2.1 * xsize + w.1 = idx) :
    apply_writes xsize W image idx = apply_writes xsize W image2 idx := by
  induction W using List.reverseRecOn with
  | nil =>
    obtain ⟨w, hw, -⟩ := h
    simp at hw
  | append_singleton W w ih =>
    rw [apply_writes_append, apply_writes_append]
    have e : ∀ im : Int → Int, apply_writes xsize [w] im
        = Function.update im (w.2.1 * xsize + w.1) w.2.2 := fun _ => rfl
    rw [e, e]
    by_cases hw : w.2.1 * xsize + w.1 = idx
    · rw [← hw, Function.update_same, Function.update_same]
    · rw [Function.update_noteq (Ne.symm hw), Function.update_noteq (Ne.symm hw)]
      apply ih
      obtain ⟨w2, hw2, hidx⟩ := h
      rcases List.mem_append.mp hw2 with h3 | h3
      · exact ⟨w2, h3, hidx⟩
      · simp only [List.mem_singleton] at h3
        subst h3
        exact absurd hidx hw

/-- Replays of two lists of stores that address different indices commute. -/
theorem apply_writes_comm (xsize : Int) (A B : List (Int × Int × Int)) (image : Int → Int)
    (h : ∀ a ∈ A, ∀ b ∈ B, a.2.1 * xsize + a.1 ≠ b.2.1 * xsize + b.1) :
    apply_writes xsize B (apply_writes xsize A image)
      = apply_writes xsize A (apply_writes xsize B image) := by
  funext idx
  by_cases hA : ∃ a ∈ A, a.2.1 * xsize + a.1 = idx
  · have hB : ∀ b ∈ B, b.2.1 * xsize + b.1 ≠ idx := by
      intro b hb hidx
      obtain ⟨a, ha, haidx⟩ := hA
      exact h a ha b hb (haidx.trans hidx.symm)
    rw [apply_writes_frame xsize B _ idx hB]
    exact apply_writes_written xsize A _ _ idx hA
  · have hA2 : ∀ a ∈ A, a.2.1 * xsize + a.1 ≠ idx := fun a ha hidx => hA ⟨a, ha, hidx⟩
    rw [apply_writes_frame xsize A _ idx hA2]
    by_cases hB : ∃ b ∈ B, b.2.1 * xsize + b.1 = idx
    · exact apply_writes_written xsize B _ _ idx hB
    · have hB2 : ∀ b ∈ B, b.2.1 * xsize + b.1 ≠ idx := fun b hb hidx => hB ⟨b, hb, hidx⟩
      rw [apply_writes_frame xsize B _ idx hB2, apply_writes_frame xsize B _ idx hB2,
        apply_writes_frame xsize A _ idx hA2]

/-- Blocks of stores that pairwise address different indices can be replayed
in any order. -/
theorem apply_writes_perm_blocks {α : Type} (xsize : Int) (F : α → List (Int × Int × Int))
    (l1 l2 : List α) (hp : l1.Perm l2) : ∀ image : Int → Int,
    l1.Pairwise (fun c d => ∀ a ∈ F c, ∀ b ∈ F d,
      a.2.1 * xsize + a.1 ≠ b.2.1 * xsize + b.1) →
    apply_writes xsize (l1.flatMap F) image = apply_writes xsize (l2.flatMap F) image := by
  induction hp with
  | nil => intro _ _; rfl
  | cons x _ ih =>
    intro image hpw
    rw [List.flatMap_cons, List.flatMap_cons, apply_writes_append, apply_writes_append]
    exact ih _ (List.Pairwise.of_cons hpw)
  | swap x y l =>
    intro image hpw
    simp only [List.flatMap_cons, apply_writes_append]
    rw [List.pairwise_cons] at hpw
    have hyx := hpw.1 x (by simp)
    rw [apply_writes_comm xsize (F y) (F x) image hyx]
  | trans h1 _ ih1 ih2 =>
    intro image hpw
    rw [ih1 image hpw]
    apply ih2
    refine h1.pairwise hpw ?_
    intro c d hcd a ha b hb
    exact fun e => hcd b hb a ha e.symm

/-- The stores of two evaluations on patches that lie inside the canvas row
and share no pixel address different indices. -/
theorem patch_writes_index_disjoint (mandelbrot_point : ℚ → ℚ → Int) (xsize ysize : Int)
    (x1 y1 s1 x2 y2 s2 : Int) (h1 : 0 ≤ x1) (h1b : x1 + s1 ≤ xsize)
    (h2 : 0 ≤ x2) (h2b : x2 + s2 ≤ xsize)
    (hd : x1 + s1 ≤ x2 ∨ x2 + s2 ≤ x1 ∨ y1 + s1 ≤ y2 ∨ y2 + s2 ≤ y1) :
    ∀ a ∈ patch_writes mandelbrot_point x1 y1 xsize ysize s1,
      ∀ b ∈ patch_writes mandelbrot_point x2 y2 xsize ysize s2,
        a.2.1 * xsize + a.1 ≠ b.2.1 * xsize + b.1 := by
  intro a ha b hb heq
  have ma := (compute_patch_replay mandelbrot_point x1 y1 xsize ysize s1).1 a ha
  have mb := (compute_patch_replay mandelbrot_point x2 y2 xsize ysize s2).1 b hb
  rw [mem_patch_pixels] at ma mb
  have := index_inj xsize a.1 a.2.1 b.1 b.2.1 (by omega) (by omega) (by omega) (by omega) heq
  omega

theorem sub_patches_pairwise_index_disjoint (mandelbrot_point : ℚ → ℚ → Int)
    (x_start y_start xsize ysize size : Int) (hs : 0 ≤ size) (hx : 0 ≤ x_start)
    (hx2 : x_start + size ≤ xsize) :
    (sub_patches x_start y_start size).Pairwise
      (fun c d => ∀ a ∈ patch_writes mandelbrot_point c.1 c.2.1 xsize ysize c.2.2,
        ∀ b ∈ patch_writes mandelbrot_point d.1 d.2.1 xsize ysize d.2.2,
          a.2.1 * xsize + a.1 ≠ b.2.1 * xsize + b.1) := by
  have htd : Int.tdiv size 2 = size / 2 := Int.tdiv_eq_ediv hs (by decide)
  simp only [sub_patches, htd, List.pairwise_cons, List.mem_cons, List.mem_singleton,
    List.not_mem_nil, forall_eq_or_imp, forall_eq, List.Pairwise.nil, and_true,
    IsEmpty.forall_iff, implies_true]
  refine ⟨⟨?_, ?_, ?_⟩, ⟨?_, ?_⟩, ?_⟩ <;>
    exact patch_writes_index_disjoint mandelbrot_point xsize ysize _ _ _ _ _ _
      (by omega) (by omega) (by omega) (by omega) (by omega)

/-- C18: for every kernel and every patch of non-negative side (in particular
every power-of-two side) whose columns lie inside the canvas row, executing
the four sub-patch evaluations in any order `cs` (any of the 24 permutations
of `sub_patches`) leaves the same canvas memory as the program order; for a
mixed patch of side above 8 this is the memory left by `compute_patch`. -/
theorem sub_patch_order_irrelevant (mandelbrot_point : ℚ → ℚ → Int) (st : Canvas)
    (x_start y_start xsize ysize size : Int) (hs : 0 ≤ size) (hx : 0 ≤ x_start)
    (hx2 : x_start + size ≤ xsize) (cs : List (Int × Int × Int))
    (hperm : cs.Perm (sub_patches x_start y_start size)) :
    (run_children mandelbrot_point st xsize ysize cs).image
      = (run_children mandelbrot_point st xsize ysize (sub_patches x_start y_start size)).image
    ∧ (8 < size →
        (∃ p ∈ border_pixels x_start y_start size,
          pixel_value mandelbrot_point xsize ysize p = 0) →
        (∃ q ∈ border_pixels x_start y_start size,
          0 < pixel_value mandelbrot_point xsize ysize q) →
        (compute_patch mandelbrot_point st x_start y_start xsize ysize size).image
          = (run_children mandelbrot_point
              { st with evals := st.evals ++ border_evals x_start y_start size }
              xsize ysize cs).image) := by
  have hpw := sub_patches_pairwise_index_disjoint mandelbrot_point x_start y_start xsize ysize
    size hs hx hx2
  have hpw2 := hperm.symm.pairwise hpw (by
    intro c d hcd a ha b hb
    exact fun e => hcd b hb a ha e.symm)
  have key : ∀ s : Canvas, (run_children mandelbrot_point s xsize ysize cs).image
      = (run_children mandelbrot_point s xsize ysize
          (sub_patches x_start y_start size)).image := by
    intro s
    rw [run_children_image, run_children_image]
    exact apply_writes_perm_blocks xsize
      (fun c => patch_writes mandelbrot_point c.1 c.2.1 xsize ysize c.2.2) cs
      (sub_patches x_start y_start size) hperm s.image hpw2
  refine ⟨key st, ?_⟩
  intro h8 hzero hpos
  have h1 := all_in_false_of_border_pos mandelbrot_point x_start y_start xsize ysize size hpos
  have h2 := all_out_false_of_border_zero mandelbrot_point x_start y_start xsize ysize size hzero
  rw [key, compute_patch_rec _ _ _ _ _ _ _ h1 h2 h8]
  rfl

theorem sub_patch_order_irrelevant_witness :
    ((0 : Int) ≤ 16 ∧ (0 : Int) ≤ 0 ∧ (0 : Int) + 16 ≤ 16
      ∧ ([(8, 8, 8), (0, 8, 8), (8, 0, 8), (0, 0, 8)] : List (Int × Int × Int)).Perm
          (sub_patches 0 0 16))
    ∧ ((run_children stripe_kernel (Canvas.fresh (fun _ => 7)) 16 16
          [(8, 8, 8), (0, 8, 8), (8, 0, 8), (0, 0, 8)]).image
        = (run_children stripe_kernel (Canvas.fresh (fun _ => 7)) 16 16
            (sub_patches 0 0 16)).image
      ∧ ((8 : Int) < 16 →
          (∃ p ∈ border_pixels 0 0 16, pixel_value stripe_kernel 16 16 p = 0) →
          (∃ q ∈ border_pixels 0 0 16, 0 < pixel_value stripe_kernel 16 16 q) →
          (compute_patch stripe_kernel (Canvas.fresh (fun _ => 7)) 0 0 16 16 16).image
            = (run_children stripe_kernel
                { Canvas.fresh (fun _ => 7) with
                  evals := (Canvas.fresh (fun _ => 7)).evals ++ border_evals 0 0 16 }
                16 16 [(8, 8, 8), (0, 8, 8), (8, 0, 8), (0, 0, 8)]).image)) :=
  ⟨⟨by decide, by decide, by decide, by decide⟩,
    sub_patch_order_irrelevant stripe_kernel (Canvas.fresh (fun _ => 7)) 0 0 16 16 16
      (by decide) (by decide) (by decide) [(8, 8, 8), (0, 8, 8), (8, 0, 8), (0, 0, 8)]
      (by decide)⟩

/-! ## The tiling loop of `main` -/

theorem mem_rect_pixels (x0 y0 w h x y : Int) :
    (x, y) ∈ rect_pixels x0 y0 w h ↔ x0 ≤ x ∧ x < x0 + w ∧ y0 ≤ y ∧ y < y0 + h := by
  simp only [rect_pixels, List.mem_flatMap, List.mem_map, List.mem_range, Prod.mk.injEq]
  constructor
  · rintro ⟨j, hj, i, hi, rfl, rfl⟩
    omega
  · rintro ⟨h1, h2, h3, h4⟩
    exact ⟨(y - y0).toNat, by omega, (x - x0).toNat, by omega, by omega, by omega⟩

theorem nodup_rect_pixels (x0 y0 w h : Int) : (rect_pixels x0 y0 w h).Nodup := by
  unfold rect_pixels
  rw [List.nodup_flatMap]
  constructor
  · intro j _
    refine List.Nodup.map ?_ (List.nodup_range _)
    intro a b hab
    simp only [Prod.mk.injEq] at hab
    omega
  · refine List.Pairwise.imp ?_ (List.nodup_range _)
    intro a b hab p hp hq
    simp only [List.mem_map, List.mem_range] at hp hq
    obtain ⟨i, -, rfl⟩ := hp
    obtain ⟨i2, -, h⟩ := hq
    simp only [Prod.mk.injEq] at h
    omega

theorem patch_pixels_eq_rect (x_start y_start size : Int) :
    patch_pixels x_start y_start size = rect_pixels x_start y_start size size := rfl

/-- Two rectangles side by side make up the rectangle of the summed width. -/
theorem rect_beside_perm (x0 y0 w1 w2 h : Int) (h1 : 0 ≤ w1) (h2 : 0 ≤ w2) :
    (rect_pixels x0 y0 w1 h ++ rect_pixels (x0 + w1) y0 w2 h).Perm
      (rect_pixels x0 y0 (w1 + w2) h) := by
  have hnodup : (rect_pixels x0 y0 w1 h ++ rect_pixels (x0 + w1) y0 w2 h).Nodup := by
    refine List.Nodup.append (nodup_rect_pixels _ _ _ _) (nodup_rect_pixels _ _ _ _) ?_
    rintro ⟨x, y⟩ ha hb
    rw [mem_rect_pixels] at ha hb
    omega
  rw [List.perm_ext_iff_of_nodup hnodup (nodup_rect_pixels _ _ _ _)]
  rintro ⟨x, y⟩
  simp only [List.mem_append, mem_rect_pixels]
  omega

/-- Two rectangles one above the other make up the rectangle of the summed
height. -/
theorem rect_above_perm (x0 y0 w h1 h2 : Int) (hh1 : 0 ≤ h1) (hh2 : 0 ≤ h2) :
    (rect_pixels x0 y0 w h1 ++ rect_pixels x0 (y0 + h1) w h2).Perm
      (rect_pixels x0 y0 w (h1 + h2)) := by
  have hnodup : (rect_pixels x0 y0 w h1 ++ rect_pixels x0 (y0 + h1) w h2).Nodup := by
    refine List.Nodup.append (nodup_rect_pixels _ _ _ _) (nodup_rect_pixels _ _ _ _) ?_
    rintro ⟨x, y⟩ ha hb
    rw [mem_rect_pixels] at ha hb
    omega
  rw [List.perm_ext_iff_of_nodup hnodup (nodup_rect_pixels _ _ _ _)]
  rintro ⟨x, y⟩
  simp only [List.mem_append, mem_rect_pixels]
  omega

theorem tile_starts_done (limit step v : Int) (h : limit ≤ v) :
    tile_starts limit step v = [] := by
  rw [tile_starts, if_neg]
  rintro ⟨-, h2⟩
  omega

theorem tile_starts_next (limit step v : Int) (hstep : 0 < step) (h : v < limit) :
    tile_starts limit step v = v :: tile_starts limit step (v + step) := by
  rw [tile_starts, if_pos ⟨hstep, h⟩]

/-- Every value of the loop variable is reached from the start by whole
steps and lies below the limit. -/
theorem mem_tile_starts (limit step : Int) (n : Nat) : ∀ v : Int, (limit - v).toNat ≤ n →
    ∀ t ∈ tile_starts limit step v, v ≤ t ∧ t < limit ∧ step ∣ (t - v) ∧ 0 < step := by
  induction n with
  | zero =>
    intro v hv t ht
    rw [tile_starts_done limit step v (by omega)] at ht
    simp at ht
  | succ n ih =>
    intro v hv t ht
    by_cases hc : 0 < step ∧ v < limit
    · rw [tile_starts_next limit step v hc.1 hc.2] at ht
      rcases List.mem_cons.mp ht with h | h
      · subst h
        exact ⟨le_refl _, hc.2, by simp, hc.1⟩
      · obtain ⟨a1, a2, a3, a4⟩ := ih (v + step) (by omega) t h
        refine ⟨by omega, a2, ?_, a4⟩
        have e : t - v = (t - (v + step)) + step := by ring
        rw [e]
        exact Dvd.dvd.add a3 (dvd_refl step)
    · rw [tile_starts, if_neg hc] at ht
      simp at ht

/-- When the limit is a multiple of the step, a tile that starts at a loop
value ends at or before the limit. -/
theorem tile_within (limit step t : Int) (hstep : 1 ≤ step) (hdiv : step ∣ limit)
    (ht : t ∈ tile_starts limit step 0) : 0 ≤ t ∧ t + step ≤ limit := by
  obtain ⟨a1, a2, a3, -⟩ := mem_tile_starts limit step limit.toNat 0 (by omega) t ht
  refine ⟨a1, ?_⟩
  rw [sub_zero] at a3
  obtain ⟨k, hk⟩ := hdiv
  obtain ⟨j, hj⟩ := a3
  subst hk hj
  have hlt : j < k := by
    by_contra hc
    have : step * k ≤ step * j := Int.mul_le_mul_of_nonneg_left (by omega) (by omega)
    omega
  have : step * (j + 1) ≤ step * k := Int.mul_le_mul_of_nonneg_left (by omega) (by omega)
  have e : step * (j + 1) = step * j + step := by ring
  omega

theorem writes_foldl_flatMap {α : Type} (g : Canvas → α → Canvas)
    (F : α → List (Int × Int × Int)) (hg : ∀ s a, (g s a).writes = s.writes ++ F a)
    (l : List α) : ∀ st : Canvas, (l.foldl g st).writes = st.writes ++ l.flatMap F := by
  induction l with
  | nil => intro st; simp
  | cons a l ih =>
    intro st
    rw [List.foldl_cons, ih, hg, List.flatMap_cons, List.append_assoc]

/-- The stores of the tiling loop: those of each tile, row of tiles by row of
tiles. -/
theorem main_tiling_writes (mandelbrot_point : ℚ → ℚ → Int) (st : Canvas)
    (xsize ysize init_patch : Int) :
    (main_tiling mandelbrot_point st xsize ysize init_patch).writes
      = st.writes ++ (tile_starts ysize init_patch 0).flatMap fun y =>
          (tile_starts xsize init_patch 0).flatMap fun x =>
            patch_writes mandelbrot_point x y xsize ysize init_patch := by
  unfold main_tiling
  refine writes_foldl_flatMap _ _ ?_ _ st
  intro s y
  refine writes_foldl_flatMap _ _ ?_ _ s
  intro s2 x
  exact ((compute_patch_replay mandelbrot_point x y xsize ysize init_patch).2 s2).1

theorem patch_writes_zero_kernel (x_start y_start xsize ysize size : Int) :
    patch_writes (fun _ _ => 0) x_start y_start xsize ysize size
      = (patch_pixels x_start y_start size).map (fun p => (p.1, p.2, 0)) := by
  have h1 := all_in_of_border_zero (fun _ _ => 0) x_start y_start xsize ysize size
    (fun _ _ => rfl)
  unfold patch_writes
  rw [compute_patch_all_in _ _ _ _ _ _ _ h1, fill_patch_writes]
  rfl

theorem patch_writes_pixels_perm (mandelbrot_point : ℚ → ℚ → Int)
    (x_start y_start xsize ysize : Int) (m : Nat) :
    ((patch_writes mandelbrot_point x_start y_start xsize ysize (2 ^ m)).map
      (fun (w : Int × Int × Int) => (w.1, w.2.1))).Perm
      (rect_pixels x_start y_start (2 ^ m) (2 ^ m)) := by
  obtain ⟨W, hW, hperm⟩ := compute_patch_writes_perm mandelbrot_point xsize ysize m
    (Canvas.fresh (fun _ => 0)) x_start y_start
  have e : patch_writes mandelbrot_point x_start y_start xsize ysize (2 ^ m) = W := by
    unfold patch_writes
    rw [hW]
    rfl
  rw [e]
  exact hperm

theorem rect_pixels_zero_width (x0 y0 h : Int) : rect_pixels x0 y0 0 h = [] := by
  rw [List.eq_nil_iff_forall_not_mem]
  rintro ⟨x, y⟩ hm
  rw [mem_rect_pixels] at hm
  omega

theorem rect_pixels_zero_height (x0 y0 w : Int) : rect_pixels x0 y0 w 0 = [] := by
  rw [List.eq_nil_iff_forall_not_mem]
  rintro ⟨x, y⟩ hm
  rw [mem_rect_pixels] at hm
  omega

/-- One row of `a` tiles of side `2 ^ m`, from column `v`: the stores address
the pixels of the strip of width `a * 2 ^ m`, each once. -/
theorem tile_row_pixels_perm (mandelbrot_point : ℚ → ℚ → Int) (xsize ysize y : Int)
    (m : Nat) (a : Nat) : ∀ v : Int,
    (((tile_starts (v + (a : Int) * 2 ^ m) (2 ^ m) v).flatMap fun x =>
        patch_writes mandelbrot_point x y xsize ysize (2 ^ m)).map
      (fun (w : Int × Int × Int) => (w.1, w.2.1))).Perm
      (rect_pixels v y ((a : Int) * 2 ^ m) (2 ^ m)) := by
  have hp : (0 : Int) < 2 ^ m := by positivity
  induction a with
  | zero =>
    intro v
    rw [tile_starts_done _ _ _ (by simp)]
    simp [rect_pixels_zero_width]
  | succ a ih =>
    intro v
    have hpos : (0 : Int) ≤ (a : Int) * 2 ^ m := by positivity
    have e1 : v + ((a + 1 : Nat) : Int) * 2 ^ m = (v + 2 ^ m) + (a : Int) * 2 ^ m := by
      push_cast
      ring
    have e2 : ((a + 1 : Nat) : Int) * 2 ^ m = 2 ^ m + (a : Int) * 2 ^ m := by
      push_cast
      ring
    rw [e1, tile_starts_next _ _ v hp (by omega), List.flatMap_cons, List.map_append, e2]
    exact ((patch_writes_pixels_perm mandelbrot_point v y xsize ysize m).append
      (ih (v + 2 ^ m))).trans (rect_beside_perm v y (2 ^ m) ((a : Int) * 2 ^ m) (2 ^ m)
        (by omega) hpos)

/-- `b` rows of tiles, from row `v`, on a canvas `a` tiles wide: the stores
address the pixels of the band of height `b * 2 ^ m`, each once. -/
theorem tile_rows_pixels_perm (mandelbrot_point : ℚ → ℚ → Int) (ysize : Int)
    (m : Nat) (a : Nat) (b : Nat) : ∀ v : Int,
    (((tile_starts (v + (b : Int) * 2 ^ m) (2 ^ m) v).flatMap fun y =>
        (tile_starts (0 + (a : Int) * 2 ^ m) (2 ^ m) 0).flatMap fun x =>
          patch_writes mandelbrot_point x y ((a : Int) * 2 ^ m) ysize (2 ^ m)).map
      (fun (w : Int × Int × Int) => (w.1, w.2.1))).Perm
      (rect_pixels 0 v ((a : Int) * 2 ^ m) ((b : Int) * 2 ^ m)) := by
  have hp : (0 : Int) < 2 ^ m := by positivity
  induction b with
  | zero =>
    intro v
    rw [tile_starts_done _ _ _ (by simp)]
    simp [rect_pixels_zero_height]
  | succ b ih =>
    intro v
    have hpos : (0 : Int) ≤ (b : Int) * 2 ^ m := by positivity
    have e1 : v + ((b + 1 : Nat) : Int) * 2 ^ m = (v + 2 ^ m) + (b : Int) * 2 ^ m := by
      push_cast
      ring
    have e2 : ((b + 1 : Nat) : Int) * 2 ^ m = 2 ^ m + (b : Int) * 2 ^ m := by
      push_cast
      ring
    rw [e1, tile_starts_next _ _ v hp (by omega), List.flatMap_cons, List.map_append, e2]
    exact ((tile_row_pixels_perm mandelbrot_point ((a : Int) * 2 ^ m) ysize v m a 0).append
      (ih (v + 2 ^ m))).trans (rect_above_perm 0 v ((a : Int) * 2 ^ m) (2 ^ m)
        ((b : Int) * 2 ^ m) (by omega) hpos)

/-- C16: when `init_patch = 2 ^ m` and `xsize = a * init_patch`,
`ysize = b * init_patch` with `a, b ≥ 1`, the tiling loop of `main` together
with `compute_patch` performs exactly one store to every canvas index in
`[0, xsize * ysize)`: the number of logged stores with that index grows by
exactly one, so the grid is fully populated. -/
theorem main_tiling_populates_once (mandelbrot_point : ℚ → ℚ → Int) (st : Canvas)
    (xsize ysize init_patch : Int) (m a b : Nat)
    (hpow : init_patch = 2 ^ m) (hx : xsize = (a : Int) * init_patch)
    (hy : ysize = (b : Int) * init_patch) (ha : 1 ≤ a) (hb : 1 ≤ b)
    (idx : Int) (h0 : 0 ≤ idx) (h1 : idx < xsize * ysize) :
    (main_tiling mandelbrot_point st xsize ysize init_patch).writes.countP
        (fun w => decide (w.2.1 * xsize + w.1 = idx))
      = st.writes.countP (fun w => decide (w.2.1 * xsize + w.1 = idx)) + 1 := by
  subst hpow hx hy
  have hp : (0 : Int) < 2 ^ m := by positivity
  have hxs : (0 : Int) < (a : Int) * 2 ^ m := by positivity
  have hys : (0 : Int) < (b : Int) * 2 ^ m := by positivity
  have hperm := tile_rows_pixels_perm mandelbrot_point ((b : Int) * 2 ^ m) m a b 0
  simp only [zero_add] at hperm
  rw [main_tiling_writes, List.countP_append]
  congr 1
  have hc : ∀ W : List (Int × Int × Int),
      W.countP (fun w => decide (w.2.1 * ((a : Int) * 2 ^ m) + w.1 = idx))
      = (W.map (fun (w : Int × Int × Int) => (w.1, w.2.1))).countP
          (fun p => decide (p.2 * ((a : Int) * 2 ^ m) + p.1 = idx)) := by
    intro W
    rw [List.countP_map]
    rfl
  rw [hc, hperm.countP_eq]
  have hq : 0 ≤ idx / ((a : Int) * 2 ^ m) := Int.ediv_nonneg h0 hxs.le
  have hq2 : idx / ((a : Int) * 2 ^ m) < (b : Int) * 2 ^ m :=
    Int.ediv_lt_of_lt_mul hxs (by rw [mul_comm]; exact h1)
  have hr := Int.emod_nonneg idx hxs.ne'
  have hr2 := Int.emod_lt_of_pos idx hxs
  have hsum : idx / ((a : Int) * 2 ^ m) * ((a : Int) * 2 ^ m) + idx % ((a : Int) * 2 ^ m)
      = idx := by
    rw [mul_comm]
    exact Int.ediv_add_emod idx _
  have hmem : (idx % ((a : Int) * 2 ^ m), idx / ((a : Int) * 2 ^ m))
      ∈ rect_pixels 0 0 ((a : Int) * 2 ^ m) ((b : Int) * 2 ^ m) :=
    (mem_rect_pixels _ _ _ _ _ _).mpr ⟨hr, by omega, hq, by omega⟩
  rw [← countP_eq_one_of_nodup _ _ (nodup_rect_pixels 0 0 ((a : Int) * 2 ^ m)
    ((b : Int) * 2 ^ m)) hmem]
  apply List.countP_congr
  rintro ⟨x2, y2⟩ hq3
  rw [mem_rect_pixels] at hq3
  simp only [decide_eq_true_eq, Prod.mk.injEq]
  constructor
  · intro h
    exact index_inj ((a : Int) * 2 ^ m) x2 y2 _ _ (by omega) (by omega) hr hr2
      (h.trans hsum.symm)
  · rintro ⟨rfl, rfl⟩
    exact hsum

theorem main_tiling_populates_once_witness :
    ((8 : Int) = 2 ^ 3 ∧ (16 : Int) = ((2 : Nat) : Int) * 8 ∧ (24 : Int) = ((3 : Nat) : Int) * 8
      ∧ 1 ≤ 2 ∧ 1 ≤ 3 ∧ (0 : Int) ≤ 100 ∧ (100 : Int) < 16 * 24)
    ∧ (main_tiling stripe_kernel (Canvas.fresh (fun _ => 7)) 16 24 8).writes.countP
        (fun w => decide (w.2.1 * 16 + w.1 = 100))
      = (Canvas.fresh (fun _ => 7)).writes.countP
          (fun w => decide (w.2.1 * 16 + w.1 = 100)) + 1 :=
  ⟨by norm_num,
    main_tiling_populates_once stripe_kernel (Canvas.fresh (fun _ => 7)) 16 24 8 3 2 3
      (by norm_num) (by norm_num) (by norm_num) (by decide) (by decide) 100 (by decide)
      (by decide)⟩

/-- For a side of at most 8 the stores of `compute_patch` are one store per
pixel of the patch, in loop order, whatever the branch taken. -/
theorem patch_writes_small (mandelbrot_point : ℚ → ℚ → Int)
    (x_start y_start xsize ysize size : Int) (hs : size ≤ 8) :
    ∃ f : Int × Int → Int,
      patch_writes mandelbrot_point x_start y_start xsize ysize size
        = (patch_pixels x_start y_start size).map (fun p => (p.1, p.2, f p)) := by
  unfold patch_writes
  by_cases h1 : (border_pass mandelbrot_point x_start y_start xsize ysize size).all_in = true
  · rw [compute_patch_all_in _ _ _ _ _ _ _ h1, fill_patch_writes]
    exact ⟨fun _ => 0, rfl⟩
  · have h1f := Bool.eq_false_iff.mpr h1
    by_cases h2 : (border_pass mandelbrot_point x_start y_start xsize ysize size).all_out = true
    · rw [compute_patch_all_out _ _ _ _ _ _ _ h1f h2, fill_patch_writes]
      exact ⟨fun _ => avg_iter (border_pass mandelbrot_point x_start y_start xsize ysize size),
        rfl⟩
    · have h2f := Bool.eq_false_iff.mpr h2
      rw [compute_patch_direct _ _ _ _ _ _ _ h1f h2f hs, direct_patch_writes]
      exact ⟨pixel_value mandelbrot_point xsize ysize, rfl⟩

/-- C17 (as stated, at a concrete input): on a 3 x 3 image with
`init_patch = 2` and the kernel `mandelbrot_point` of the source, the tiling
loop of `main` stores at pixel `(3, 3)`, which has `x = 3 ≥ xsize`,
`y = 3 ≥ ysize` and index `3 * 3 + 3 = 12` outside `[0, 9)`. -/
theorem main_tiling_ragged_writes_outside :
    ((1 : Int) ≤ 3 ∧ (1 : Int) ≤ 2)
    ∧ (∃ v : Int, ((3 : Int), (3 : Int), v)
        ∈ (main_tiling mandelbrot_point (Canvas.fresh (fun _ => 0)) 3 3 2).writes)
    ∧ ¬ ((3 : Int) < 3)
    ∧ ¬ ((3 : Int) * 3 + 3 < 3 * 3) := by
  refine ⟨by decide, ?_, by decide, by decide⟩
  have ht : tile_starts 3 2 0 = [0, 2] := by
    rw [tile_starts_next 3 2 0 (by decide) (by decide),
      tile_starts_next 3 2 (0 + 2) (by decide) (by decide),
      tile_starts_done 3 2 (0 + 2 + 2) (by decide)]
    rfl
  obtain ⟨f, hf⟩ := patch_writes_small mandelbrot_point 2 2 3 3 2 (by decide)
  have hm : ((3 : Int), (3 : Int)) ∈ patch_pixels 2 2 2 :=
    (mem_patch_pixels 2 2 2 3 3).mpr (by decide)
  refine ⟨f (3, 3), ?_⟩
  rw [main_tiling_writes, ht]
  simp only [List.flatMap_cons, List.flatMap_nil, List.append_nil, List.mem_append]
  right
  right
  right
  rw [hf]
  exact List.mem_map.mpr ⟨((3 : Int), (3 : Int)), hm, rfl⟩

/-- C17 (amended): for every kernel and every `init_patch ≥ 1` that divides
both `xsize` and `ysize`, every store made through the tiling loop of `main`
is at a pixel with `0 ≤ x < xsize` and `0 ≤ y < ysize`, whose index
`y * xsize + x` lies in `[0, xsize * ysize)`. -/
theorem main_tiling_writes_inside (mandelbrot_point : ℚ → ℚ → Int) (st : Canvas)
    (xsize ysize init_patch : Int) (hp : 1 ≤ init_patch)
    (hdx : init_patch ∣ xsize) (hdy : init_patch ∣ ysize) :
    ∃ W : List (Int × Int × Int),
      (main_tiling mandelbrot_point st xsize ysize init_patch).writes = st.writes ++ W
      ∧ ∀ w ∈ W, (0 ≤ w.1 ∧ w.1 < xsize) ∧ (0 ≤ w.2.1 ∧ w.2.1 < ysize)
          ∧ 0 ≤ w.2.1 * xsize + w.1 ∧ w.2.1 * xsize + w.1 < xsize * ysize := by
  refine ⟨_, main_tiling_writes mandelbrot_point st xsize ysize init_patch, ?_⟩
  intro w hw
  simp only [List.mem_flatMap] at hw
  obtain ⟨y, hy, x, hx, hwp⟩ := hw
  have hin := (compute_patch_replay mandelbrot_point x y xsize ysize init_patch).1 w hwp
  rw [mem_patch_pixels] at hin
  have tx := tile_within xsize init_patch x hp hdx hx
  have ty := tile_within ysize init_patch y hp hdy hy
  have bx : 0 ≤ w.1 ∧ w.1 < xsize := by omega
  have by2 : 0 ≤ w.2.1 ∧ w.2.1 < ysize := by omega
  refine ⟨bx, by2, ?_, ?_⟩
  · have := mul_nonneg by2.1 (by omega : (0 : Int) ≤ xsize)
    omega
  · have h3 : (w.2.1 + 1) * xsize ≤ ysize * xsize :=
      Int.mul_le_mul_of_nonneg_right (by omega) (by omega)
    have e : (w.2.1 + 1) * xsize = w.2.1 * xsize + xsize := by ring
    rw [mul_comm xsize ysize]
    omega

theorem main_tiling_writes_inside_witness :
    ((1 : Int) ≤ 3 ∧ (3 : Int) ∣ 6 ∧ (3 : Int) ∣ 9)
    ∧ ∃ W : List (Int × Int × Int),
      (main_tiling stripe_kernel (Canvas.fresh (fun _ => 7)) 6 9 3).writes
        = (Canvas.fresh (fun _ => 7)).writes ++ W
      ∧ ∀ w ∈ W, (0 ≤ w.1 ∧ w.1 < 6) ∧ (0 ≤ w.2.1 ∧ w.2.1 < 9)
          ∧ 0 ≤ w.2.1 * 6 + w.1 ∧ w.2.1 * 6 + w.1 < 6 * 9 :=
  ⟨by decide,
    main_tiling_writes_inside stripe_kernel (Canvas.fresh (fun _ => 7)) 6 9 3
      (by decide) (by decide) (by decide)⟩

/-! ## The count of the border pass -/

/-- The kernel of the source is 1 at the plane point `(-2, -1.7)` of pixel
`(0, 0)`: the first iterate already has `|z|^2 > 4`. -/
theorem mandelbrot_point_corner : mandelbrot_point (-2) (-17 / 10) = 1 := by
  have := mandelbrot_point_escape (-2) (-17 / 10) 1 (le_refl 1) (by norm_num)
    (by norm_num [norm_sq, orbit]) (fun k h1 h2 => absurd h2 (by omega))
  exact_mod_cast this

/-- For a patch of side `size ≥ 2` and a kernel that never returns the
sentinel `-1`, the border pass evaluates the kernel at the distinct border
pixels, once each, and `border_points` is their number. -/
theorem border_pass_counts_once (mandelbrot_point : ℚ → ℚ → Int)
    (x_start y_start xsize ysize size : Int) (hs : 2 ≤ size)
    (hk : ∀ p : Int × Int, pixel_value mandelbrot_point xsize ysize p ≠ -1) :
    ((border_pass mandelbrot_point x_start y_start xsize ysize size).evals).Perm
        (border_pixels x_start y_start size)
    ∧ (border_pass mandelbrot_point x_start y_start xsize ysize size).border_points
        = ((border_pixels x_start y_start size).length : Int)
    ∧ (border_pass mandelbrot_point x_start y_start xsize ysize size).total_border_iter
        = ((border_pixels x_start y_start size).map
            (pixel_value mandelbrot_point xsize ysize)).sum := by
  obtain ⟨-, -, h3, h4, h5⟩ := border_pass_spec mandelbrot_point x_start y_start xsize ysize size
  have hperm := border_evals_perm x_start y_start size (by omega)
  have hf : ((border_evals x_start y_start size).map
      (pixel_value mandelbrot_point xsize ysize)).filter (fun v => decide (v ≠ -1))
      = (border_evals x_start y_start size).map (pixel_value mandelbrot_point xsize ysize) := by
    rw [List.filter_eq_self]
    intro v hv
    obtain ⟨p, -, rfl⟩ := List.mem_map.mp hv
    simp only [decide_eq_true_eq]
    exact hk p
  rw [h3, h4, h5, hf, List.length_map, hperm.length_eq]
  exact ⟨hperm, rfl, (hperm.map _).sum_eq⟩

/-- C24 fails for side 1: for the patch of side 1 at pixel `(0, 0)` of a
4 x 4 image, with the kernel of the source, the border pass calls the kernel
twice at the one border pixel `(0, 0)` (as top row and as bottom row, which
coincide), so `border_points = 2` and `total_border_iter = 2` while the patch
has one border pixel, of kernel value 1. -/
theorem border_pass_side_one_counts_twice :
    (border_pass mandelbrot_point 0 0 4 4 1).evals = [(0, 0), (0, 0)]
    ∧ (border_pass mandelbrot_point 0 0 4 4 1).border_points = 2
    ∧ (border_pass mandelbrot_point 0 0 4 4 1).total_border_iter = 2
    ∧ border_pixels 0 0 1 = [(0, 0)]
    ∧ pixel_value mandelbrot_point 4 4 (0, 0) = 1 := by
  obtain ⟨-, -, h3, h4, h5⟩ := border_pass_spec mandelbrot_point 0 0 4 4 1
  have he : border_evals 0 0 1 = [(0, 0), (0, 0)] := by decide
  have hv : pixel_value mandelbrot_point 4 4 (0, 0) = 1 := by
    have e1 : plane_x 4 0 = -2 := by simp [plane_x, X_MIN]
    have e2 : plane_y 4 0 = -17 / 10 := by simp [plane_y, Y_MIN]
    simp only [pixel_value, e1, e2]
    exact mandelbrot_point_corner
  refine ⟨by rw [h5, he], ?_, ?_, by decide, hv⟩
  · rw [h4, he]
    simp only [List.map_cons, List.map_nil, hv]
    decide
  · rw [h3, he]
    simp only [List.map_cons, List.map_nil, hv]
    decide

/-! ## Patches of odd side -/

/-- The stores of the sub-patch evaluations, in the order of the list. -/
theorem run_children_writes (mandelbrot_point : ℚ → ℚ → Int) (xsize ysize : Int)
    (cs : List (Int × Int × Int)) : ∀ st : Canvas,
    (run_children mandelbrot_point st xsize ysize cs).writes
      = st.writes
        ++ cs.flatMap fun c => patch_writes mandelbrot_point c.1 c.2.1 xsize ysize c.2.2 := by
  induction cs with
  | nil => intro st; simp [run_children]
  | cons c cs ih =>
    intro st
    have e : run_children mandelbrot_point st xsize ysize (c :: cs)
        = run_children mandelbrot_point
            (compute_patch mandelbrot_point (enter_call st) c.1 c.2.1 xsize ysize c.2.2)
            xsize ysize cs := rfl
    rw [e, ih,
      ((compute_patch_replay mandelbrot_point c.1 c.2.1 xsize ysize c.2.2).2 (enter_call st)).1,
      List.flatMap_cons, enter_call_writes, List.append_assoc]

/-- C29: for every kernel and every patch of odd side `size > 8` with a
mixed border, the four sub-patches have side `floor(size / 2)`; their pixels
together are exactly the `(size - 1) x (size - 1)` square at the patch
origin; `compute_patch` performs the stores of the four sub-patch
evaluations and no other; every store lies in that square; and no store is
in the last column `x = x_start + size - 1` or the last row
`y = y_start + size - 1` of the patch. -/
theorem compute_patch_odd_side_skips_last (mandelbrot_point : ℚ → ℚ → Int) (st : Canvas)
    (x_start y_start xsize ysize size : Int)
    (hodd : size % 2 = 1) (h8 : 8 < size)
    (hzero : ∃ p ∈ border_pixels x_start y_start size,
      pixel_value mandelbrot_point xsize ysize p = 0)
    (hpos : ∃ q ∈ border_pixels x_start y_start size,
      0 < pixel_value mandelbrot_point xsize ysize q) :
    (∀ c ∈ sub_patches x_start y_start size, c.2.2 = size / 2)
    ∧ ((sub_patches x_start y_start size).flatMap
        (fun c => patch_pixels c.1 c.2.1 c.2.2)).Perm
        (patch_pixels x_start y_start (size - 1))
    ∧ (compute_patch mandelbrot_point st x_start y_start xsize ysize size).writes
        = st.writes ++ (sub_patches x_start y_start size).flatMap
            (fun c => patch_writes mandelbrot_point c.1 c.2.1 xsize ysize c.2.2)
    ∧ (∀ w ∈ patch_writes mandelbrot_point x_start y_start xsize ysize size,
        (w.1, w.2.1) ∈ patch_pixels x_start y_start (size - 1))
    ∧ (∀ w ∈ patch_writes mandelbrot_point x_start y_start xsize ysize size,
        w.1 ≠ x_start + size - 1 ∧ w.2.1 ≠ y_start + size - 1) := by
  have h1 := all_in_false_of_border_pos mandelbrot_point x_start y_start xsize ysize size hpos
  have h2 := all_out_false_of_border_zero mandelbrot_point x_start y_start xsize ysize size hzero
  have htd : Int.tdiv size 2 = size / 2 := Int.tdiv_eq_ediv (by omega) (by decide)
  have hhalf : 2 * (size / 2) = size - 1 := by omega
  have hsub : sub_patches x_start y_start size
      = [(x_start, y_start, size / 2), (x_start + size / 2, y_start, size / 2),
         (x_start, y_start + size / 2, size / 2),
         (x_start + size / 2, y_start + size / 2, size / 2)] := by
    simp only [sub_patches, htd]
  have hwrites : ∀ s : Canvas,
      (compute_patch mandelbrot_point s x_start y_start xsize ysize size).writes
        = s.writes ++ (sub_patches x_start y_start size).flatMap
            (fun c => patch_writes mandelbrot_point c.1 c.2.1 xsize ysize c.2.2) := by
    intro s
    have e : compute_patch mandelbrot_point s x_start y_start xsize ysize size
        = run_children mandelbrot_point
            { s with evals := s.evals ++ border_evals x_start y_start size } xsize ysize
            (sub_patches x_start y_start size) := by
      rw [compute_patch_rec _ _ _ _ _ _ _ h1 h2 h8]
      rfl
    rw [e, run_children_writes]
  have hin : ∀ w ∈ patch_writes mandelbrot_point x_start y_start xsize ysize size,
      (w.1, w.2.1) ∈ patch_pixels x_start y_start (size - 1) := by
    intro w hw
    have hw2 : w ∈ (sub_patches x_start y_start size).flatMap
        (fun c => patch_writes mandelbrot_point c.1 c.2.1 xsize ysize c.2.2) := by
      have := hwrites (Canvas.fresh (fun _ => 0))
      unfold patch_writes at hw
      rw [this] at hw
      simpa [Canvas.fresh] using hw
    obtain ⟨c, hc, hwc⟩ := List.mem_flatMap.mp hw2
    have hpix := (compute_patch_replay mandelbrot_point c.1 c.2.1 xsize ysize c.2.2).1 w hwc
    rw [hsub] at hc
    rw [mem_patch_pixels] at hpix ⊢
    simp only [List.mem_cons, List.mem_singleton, List.not_mem_nil, or_false] at hc
    rcases hc with rfl | rfl | rfl | rfl <;> simp only at hpix <;> omega
  refine ⟨?_, ?_, hwrites st, hin, ?_⟩
  · intro c hc
    rw [hsub] at hc
    simp only [List.mem_cons, List.mem_singleton, List.not_mem_nil, or_false] at hc
    rcases hc with rfl | rfl | rfl | rfl <;> rfl
  · rw [hsub, ← hhalf]
    simp only [List.flatMap_cons, List.flatMap_nil, List.append_nil]
    exact patch_tiling_perm x_start y_start (size / 2)
  · intro w hw
    have := hin w hw
    rw [mem_patch_pixels] at this
    omega

theorem compute_patch_odd_side_skips_last_witness :
    ((9 : Int) % 2 = 1 ∧ (8 : Int) < 9
      ∧ (∃ p ∈ border_pixels 0 0 9, pixel_value stripe_kernel 9 9 p = 0)
      ∧ (∃ q ∈ border_pixels 0 0 9, 0 < pixel_value stripe_kernel 9 9 q))
    ∧ ((∀ c ∈ sub_patches 0 0 9, c.2.2 = 9 / 2)
      ∧ ((sub_patches 0 0 9).flatMap (fun c => patch_pixels c.1 c.2.1 c.2.2)).Perm
          (patch_pixels 0 0 (9 - 1))
      ∧ (compute_patch stripe_kernel (Canvas.fresh (fun _ => 7)) 0 0 9 9 9).writes
          = (Canvas.fresh (fun _ => 7)).writes ++ (sub_patches 0 0 9).flatMap
              (fun c => patch_writes stripe_kernel c.1 c.2.1 9 9 c.2.2)
      ∧ (∀ w ∈ patch_writes stripe_kernel 0 0 9 9 9,
          (w.1, w.2.1) ∈ patch_pixels 0 0 (9 - 1))
      ∧ (∀ w ∈ patch_writes stripe_kernel 0 0 9 9 9,
          w.1 ≠ 0 + 9 - 1 ∧ w.2.1 ≠ 0 + 9 - 1)) := by
  have hz : ∃ p ∈ border_pixels 0 0 9, pixel_value stripe_kernel 9 9 p = 0 :=
    ⟨(0, 0), (mem_border_pixels 0 0 9 0 0).mpr (by decide), by
      norm_num [pixel_value, stripe_kernel, plane_x, X_MIN]⟩
  have hp : ∃ q ∈ border_pixels 0 0 9, 0 < pixel_value stripe_kernel 9 9 q :=
    ⟨(1, 0), (mem_border_pixels 0 0 9 1 0).mpr (by decide), by
      norm_num [pixel_value, stripe_kernel, plane_x, X_MIN, X_MAX]⟩
  exact ⟨⟨by decide, by decide, hz, hp⟩,
    compute_patch_odd_side_skips_last stripe_kernel (Canvas.fresh (fun _ => 7)) 0 0 9 9 9
      (by decide) (by decide) hz hp⟩

end Mandelbrot

namespace Mountain

/-! ## The strided read kernel -/

/-- C22 fails: on the array `data[i] = i` of `init_data`, with `elems = 4`
and `stride = 2`, the unrolled loop of `test` is not entered
(`limit = 4 - 8 < 0`), the remainder loop adds every element `data[0..3]`
(it advances by 1, not by `stride`), and `test` returns 6, while the strided
sum `data[0] + data[2]` is 2. -/
theorem test_not_strided_sum :
    test init_data 4 2 = 6 ∧ strided_sum init_data 4 2 = 2
    ∧ unrolled_loop init_data 2 (4 - 2 * 4) { i := 0, acc0 := 0, acc1 := 0, acc2 := 0, acc3 := 0 }
        = { i := 0, acc0 := 0, acc1 := 0, acc2 := 0, acc3 := 0 }
    ∧ finish_loop init_data 4 0 0 = init_data 0 + init_data 1 + init_data 2 + init_data 3 := by
  have hl : unrolled_loop init_data 2 (4 - 2 * 4)
      { i := 0, acc0 := 0, acc1 := 0, acc2 := 0, acc3 := 0 }
      = { i := 0, acc0 := 0, acc1 := 0, acc2 := 0, acc3 := 0 } := by
    rw [unrolled_loop]
    simp
  refine ⟨?_, by decide, hl, by decide⟩
  unfold test
  simp only [hl]
  decide

end Mountain

namespace Override

/-! ## The name copy -/

/-- C23 fails: the name `"MontgomeryBurns"` of iteration `i = 1` has 15
characters, so `strcpy` stores its 16 bytes (15 characters and the NUL) at
the offsets `0 .. 15` of the 16-byte buffer, all below `NAME_BUFFER_SIZE`;
no iteration of the loop of `main` stores outside its buffer. -/
theorem set_user_name_within_buffer :
    names[1]? = some "MontgomeryBurns"
    ∧ (set_user_name "MontgomeryBurns").map Prod.fst = List.range 16
    ∧ (∀ w ∈ set_user_name "MontgomeryBurns", w.1 < NAME_BUFFER_SIZE)
    ∧ overflows (set_user_name "MontgomeryBurns") = false
    ∧ main_name_writes.map overflows = [false, false, false] := by
  refine ⟨by decide, by decide, by decide, by decide, by decide⟩

end Override

namespace PrefixSum

/-! ## The two scans -/

/-- C30 fails: for `N = 5` on the array `0, 1, 2, 3, 4` that `main` builds,
`scan` leaves the prefix sums `0, 1, 3, 6, 10` and returns 10, while
`scan_efficient` leaves `0, 1, 3, 6, 12` and returns 12: its remainder loop
adds `array[ii-1]` (the prefix sum just stored) instead of `array[ii]`. -/
theorem scan_efficient_differs_from_scan :
    main_array 5 = [0, 1, 2, 3, 4]
    ∧ scan 5 (main_array 5) = some (10, [0, 1, 3, 6, 10])
    ∧ prefix_sums (main_array 5) = [0, 1, 3, 6, 10]
    ∧ scan_efficient 5 (main_array 5) = some (12, [0, 1, 3, 6, 12]) := by
  have h0 : main_array 5 = [0, 1, 2, 3, 4] := by
    simp [main_array, List.range_succ]
  refine ⟨h0, ?_, ?_, ?_⟩
  · rw [h0]
    simp [scan, scan_step, read, write, List.range_succ, List.foldlM]
    norm_num
  · rw [h0]
    simp [prefix_sums]
    norm_num
  · rw [h0]
    simp [scan_efficient, block_step, remainder_step, read, write, List.range_succ, List.foldlM]
    norm_num

end PrefixSum
